import Mathlib

/-! # Value extraction from a hierarchical matrix

A shallow embedding of the extraction code of hmat-oss
(`src/uncompressed_block.hpp`, `src/uncompressed_values.hpp`) and of the C
entry points of `src/c_wrapping.hpp`, followed by theorems about it.

Conventions of the embedding.

* C `int` values are `Int`; sizes are in range for the matrices handled, so no
  wrap-around is modelled.
* A `T*` is an address (`Int`) into a memory `Int → T`; pointer arithmetic is
  integer addition.  The caller's buffer and the buffers owned by the matrix
  tree are distinct memories.
* The scalar type `T` is any semiring; the dense kernels (`gemm`, block copy)
  are exact.
* A C `assert` that fails ends the run: functions containing one return
  `Except String`.  `HMAT_ASSERT` throws a C++ exception: the functions it can
  leave return an `Outcome`, a `Status` or a `Stmt` result, which keep what was
  done before the exception.
-/

namespace hmat

/-! ## Data model -/

/-- A contiguous range `[offset, offset + size)` of internal indices
(`IndexSet`). -/
structure IndexSet where
  offset : Int
  size : Int
  deriving DecidableEq, Repr

/-- Membership of an index in a range. -/
def IndexSet.contains (s : IndexSet) (i : Int) : Prop :=
  s.offset ≤ i ∧ i < s.offset + s.size

instance (s : IndexSet) (i : Int) : Decidable (s.contains i) := by
  unfold IndexSet.contains; exact inferInstance

/-- Range inclusion: every index of `a` is an index of `b`. -/
def IndexSet.isSubset (a b : IndexSet) : Prop :=
  a.size ≤ 0 ∨ (b.offset ≤ a.offset ∧ a.offset + a.size ≤ b.offset + b.size)

instance (a b : IndexSet) : Decidable (a.isSubset b) := by
  unfold IndexSet.isSubset; exact inferInstance

/-- Modelled from the spec: `IndexSet::intersection(s1, s2)` is declared in
`cluster_tree.hpp`, which is not part of the sources.  The extraction
"recurses only into nodes whose extent intersects the query": the result is
the common part of the two ranges, of size 0 when they do not meet. -/
def IndexSet.intersection (s1 s2 : IndexSet) : IndexSet :=
  let start := max s1.offset s2.offset
  let stop := min (s1.offset + s1.size) (s2.offset + s2.size)
  ⟨start, max 0 (stop - start)⟩

/-- Modelled from the spec: `ClusterData` (declared in `cluster_tree.hpp`) is
an `IndexSet` into the permuted index space together with the permutation
array `indices` (internal to external) and its inverse `indices_rev`; both
arrays live at the root and are shared by every node, so `indices()` is the
address of the first element of the whole array. -/
structure ClusterData extends IndexSet where
  indices : Int → Int
  indices_rev : Int → Int

/-- Modelled from the spec: a dense block (`FullMatrix`, declared in
`full_matrix.hpp`): a column-major buffer `m` with leading dimension `lda`,
and the optional pivot and diagonal side-data left by a factorization. -/
structure FullMatrix (T : Type) where
  m : Int → T
  rows : Int
  cols : Int
  lda : Int
  pivots : Option (Int → Int)
  diagonal : Option (Int → T)

/-- Modelled from the spec: `FullMatrix::get(i, j)` reads the column-major
buffer. -/
def FullMatrix.get {T : Type} (f : FullMatrix T) (i j : Int) : T :=
  f.m (i + f.lda * j)

/-- Modelled from the spec: a low-rank block (`RkMatrix`, declared in
`rk_matrix.hpp`) holds two factors `a` and `b`, the block being `a * bᵗ`. -/
structure RkMatrix (T : Type) where
  a : FullMatrix T
  b : FullMatrix T

/-- Modelled from the spec: a node of the matrix tree (`HMatrix`, declared in
`h_matrix.hpp`): a Null, Full or LowRank leaf, or an Internal node with its
children in the order of `getChild(0)`, `getChild(1)`, ... -/
inductive HMatrix (T : Type) where
  | null (rows cols : ClusterData)
  | full (rows cols : ClusterData) (full : FullMatrix T)
  | rk (rows cols : ClusterData) (rank : Int) (rk : RkMatrix T)
  | internal (rows cols : ClusterData) (children : List (HMatrix T))

namespace HMatrix

variable {T : Type}

/-- The row cluster of a node. -/
def rows : HMatrix T → ClusterData
  | null r _ => r
  | full r _ _ => r
  | rk r _ _ _ => r
  | internal r _ _ => r

/-- The column cluster of a node. -/
def cols : HMatrix T → ClusterData
  | null _ c => c
  | full _ c _ => c
  | rk _ c _ _ => c
  | internal _ c _ => c

/-- A node without children. -/
def isLeaf : HMatrix T → Bool
  | internal _ _ _ => false
  | _ => true

/-- The position `(r, c)` lies in the extent of the node. -/
def containsPos (m : HMatrix T) (r c : Int) : Prop :=
  m.rows.toIndexSet.contains r ∧ m.cols.toIndexSet.contains c

instance (m : HMatrix T) (r c : Int) : Decidable (m.containsPos r c) := by
  unfold containsPos; exact inferInstance

end HMatrix

/-- The part of an extraction view that changes along the recursion
(`rowIndexSet_`, `colIndexSet_`, `values_`, `lDim_` of
`UncompressedBlockBase`); `values_` is an address in the target buffer. -/
structure View where
  rowIndexSet_ : IndexSet
  colIndexSet_ : IndexSet
  values_ : Int
  lDim_ : Int
  deriving DecidableEq, Repr

/-! ## Range query (`uncompressed_block.hpp`) -/

section RangeQuery

variable {T : Type}

/-- A counted loop `for (i = 0; i < n; i++) body(i)` on a state. -/
def forLoop {σ : Type} (n : Int) (body : Int → σ → σ) (s : σ) : σ :=
  (List.range n.toNat).foldl (fun st (i : Nat) => body (i : Int) st) s

/-- `UncompressedBlock::getNullValues`: column after column, `toFill`
advancing by the leading dimension. -/
def getNullValues [Zero T] (v : View) (buf : Int → T) : Int → T :=
  (forLoop v.colIndexSet_.size
    (fun _ (st : Int × (Int → T)) =>
      (st.1 + v.lDim_,
       forLoop v.rowIndexSet_.size (fun row b => Function.update b (st.1 + row) 0) st.2))
    (v.values_, buf)).2

/-- Modelled from the spec: `FullMatrix::copyMatrixAtOffset(a, rowOffset,
colOffset)` (declared in `full_matrix.hpp`) copies the `nr x nc` block `a`
into the target at the given offset ("Full → offset copy").  The target is
the memory `target` seen from address `tp` with leading dimension `tld`, the
source the memory `source` seen from `sp` with leading dimension `sld`. -/
def copyMatrixAtOffset (target : Int → T) (tp tld : Int) (source : Int → T) (sp sld : Int)
    (nr nc : Int) (rowOffset colOffset : Int) : Int → T :=
  forLoop nc (fun j t =>
    forLoop nr (fun i t2 =>
      Function.update t2 (tp + (i + rowOffset) + tld * (j + colOffset))
        (source (sp + i + sld * j))) t) target

/-- Modelled from the spec: the sum of products computed by the dense
multiply, `sum over l < k of a(i, l) * b(j, l)`, accumulated from `l = 0`. -/
def dotRow [Semiring T] (a : Int → T) (ap alda : Int) (b : Int → T) (bp bldb : Int)
    (i j : Int) : Nat → T
  | 0 => 0
  | l + 1 => dotRow a ap alda b bp bldb i j l
      + a (ap + i + alda * (l : Int)) * b (bp + j + bldb * (l : Int))

/-- Modelled from the spec: `FullMatrix::gemm('N', 'T', alpha, a, b, beta)`
(declared in `full_matrix.hpp`, a dense kernel outside the sources) replaces
the `nr x nc` target by `alpha * a * bᵗ + beta * target`, `a` being `nr x k`
and `b` being `nc x k`. -/
def gemmNT [Semiring T] (target : Int → T) (tp tld : Int) (nr nc k : Int) (alpha : T)
    (a : Int → T) (ap alda : Int) (b : Int → T) (bp bldb : Int) (beta : T) : Int → T :=
  forLoop nc (fun j t =>
    forLoop nr (fun i t2 =>
      Function.update t2 (tp + i + tld * j)
        (alpha * dotRow a ap alda b bp bldb i j k.toNat + beta * t2 (tp + i + tld * j))) t) target

/-- `UncompressedBlock::getFullValues` for a Full leaf with clusters `rows`,
`cols` and dense block `f`. -/
def getFullValues (rows cols : ClusterData) (f : FullMatrix T) (v : View) (buf : Int → T) :
    Except String (Int → T) :=
  let nr := v.rowIndexSet_.size
  let nc := v.colIndexSet_.size
  let localRowOffset := v.rowIndexSet_.offset - rows.offset
  let localColOffset := v.colIndexSet_.offset - cols.offset
  if ¬ (localRowOffset ≥ 0) then .error "assert(localRowOffset >= 0)"
  else if ¬ (localColOffset ≥ 0) then .error "assert(localColOffset >= 0)"
  else
    let sa := localRowOffset + f.lda * localColOffset
    .ok (copyMatrixAtOffset buf v.values_ v.lDim_ f.m sa f.lda nr nc 0 0)

/-- `UncompressedBlock::getRkValues` for a LowRank leaf with clusters `rows`,
`cols`, rank `rank` and factors `rk`. -/
def getRkValues [Semiring T] (rows cols : ClusterData) (rank : Int) (rk : RkMatrix T)
    (v : View) (buf : Int → T) : Int → T :=
  let buf1 := getNullValues v buf
  let nr := v.rowIndexSet_.size
  let nc := v.colIndexSet_.size
  let k := rank
  let sa := v.rowIndexSet_.offset - rows.offset
  let sb := v.colIndexSet_.offset - cols.offset
  gemmNT buf1 v.values_ v.lDim_ nr nc k 1 rk.a.m sa rows.size rk.b.m sb cols.size 0

/-- `UncompressedBlock::getValues`: the leaf dispatch. -/
def UncompressedBlock.getValues [Semiring T] : HMatrix T → View → (Int → T) →
    Except String (Int → T)
  | .null _ _, v, buf => .ok (getNullValues v buf)
  | .rk rows cols rank rk, v, buf => .ok (getRkValues rows cols rank rk v buf)
  | .full rows cols f, v, buf => getFullValues rows cols f v buf
  | .internal _ _ _, _, _ => .error "assert(false)"

/-- The assignments of the private `uncompress(matrix, o)`: the view of a
child inside the view `o` of its father. -/
def childView (child : HMatrix T) (o : View) : View :=
  let rowIndexSet := o.rowIndexSet_.intersection child.rows.toIndexSet
  let colIndexSet := o.colIndexSet_.intersection child.cols.toIndexSet
  let lDim := o.lDim_
  let drow := rowIndexSet.offset - o.rowIndexSet_.offset
  let dcol := colIndexSet.offset - o.colIndexSet_.offset
  ⟨rowIndexSet, colIndexSet, o.values_ + drow + lDim * dcol, lDim⟩

mutual
/-- `UncompressedBlockBase::getValuesImpl` on the node `m` with view `v`.  The
base class is generic in the subclass: `getValues` is the subclass's leaf
method, acting on a state `σ` (the target buffer for `UncompressedBlock`). -/
def getValuesImpl {σ : Type} (getValues : HMatrix T → View → σ → Except String σ) :
    HMatrix T → View → σ → Except String σ
  | .internal _ _ children, v, s =>
      if v.rowIndexSet_.size = 0 ∨ v.colIndexSet_.size = 0 then .ok s
      else childrenLoop getValues children v s
  | .null rows cols, v, s =>
      if v.rowIndexSet_.size = 0 ∨ v.colIndexSet_.size = 0 then .ok s
      else getValues (.null rows cols) v s
  | .full rows cols f, v, s =>
      if v.rowIndexSet_.size = 0 ∨ v.colIndexSet_.size = 0 then .ok s
      else getValues (.full rows cols f) v s
  | .rk rows cols rank r, v, s =>
      if v.rowIndexSet_.size = 0 ∨ v.colIndexSet_.size = 0 then .ok s
      else getValues (.rk rows cols rank r) v s
/-- The loop of `getValuesImpl` over the children: each child gets a fresh
view, `view.uncompress(child, *me())`. -/
def childrenLoop {σ : Type} (getValues : HMatrix T → View → σ → Except String σ) :
    List (HMatrix T) → View → σ → Except String σ
  | [], _, s => .ok s
  | child :: rest, o, s =>
      match getValuesImpl getValues child (childView child o) s with
      | .error e => .error e
      | .ok s1 => childrenLoop getValues rest o s1
end

mutual
/-- The nodes on which `getValuesImpl` goes past its emptiness test, in the
order of the calls, each with its view: the leaves among them are those whose
`getValues` runs. -/
def enteredNodes : HMatrix T → View → List (HMatrix T × View)
  | .internal rows cols children, v =>
      if v.rowIndexSet_.size = 0 ∨ v.colIndexSet_.size = 0 then []
      else (.internal rows cols children, v) :: enteredChildren children v
  | .null rows cols, v =>
      if v.rowIndexSet_.size = 0 ∨ v.colIndexSet_.size = 0 then []
      else [(.null rows cols, v)]
  | .full rows cols f, v =>
      if v.rowIndexSet_.size = 0 ∨ v.colIndexSet_.size = 0 then []
      else [(.full rows cols f, v)]
  | .rk rows cols rank r, v =>
      if v.rowIndexSet_.size = 0 ∨ v.colIndexSet_.size = 0 then []
      else [(.rk rows cols rank r, v)]
/-- The entered nodes below the children of a node with view `o`. -/
def enteredChildren : List (HMatrix T) → View → List (HMatrix T × View)
  | [], _ => []
  | child :: rest, o => enteredNodes child (childView child o) ++ enteredChildren rest o
end

/-- Runs a leaf method over a list of (leaf, view) pairs, stopping at the
first failure. -/
def runLeaves {σ : Type} (getValues : HMatrix T → View → σ → Except String σ) :
    List (HMatrix T × View) → σ → Except String σ
  | [], s => .ok s
  | (m, v) :: rest, s =>
      match getValues m v s with
      | .error e => .error e
      | .ok s1 => runLeaves getValues rest s1

/-- The public `UncompressedBlockBase::uncompress(matrix, rows, cols, values,
ld)`: the view it sets up, `lDim_` being `rows.size()` when `ld` is `-1`. -/
def UncompressedBlock.rootView (rows cols : IndexSet) (values : Int) (ld : Int) : View :=
  ⟨rows, cols, values, if ld = -1 then rows.size else ld⟩

/-- Run of the public `uncompress` on the target memory `buf`; `init` and
`finish` are empty in `UncompressedBlock`. -/
def UncompressedBlock.uncompress [Semiring T] (matrix : HMatrix T) (rows cols : IndexSet)
    (values : Int) (ld : Int) (buf : Int → T) : Except String (Int → T) :=
  getValuesImpl UncompressedBlock.getValues matrix
    (UncompressedBlock.rootView rows cols values ld) buf

/-- `UncompressedBlockBase::rowsNumbering`: the address
`matrix().rows()->indices() + rowIndexSet_.offset()`, as the array read from
there. -/
def UncompressedBlock.rowsNumbering (matrix : HMatrix T) (v : View) : Int → Int :=
  fun t => matrix.rows.indices (v.rowIndexSet_.offset + t)

/-- `UncompressedBlockBase::colsNumbering`. -/
def UncompressedBlock.colsNumbering (matrix : HMatrix T) (v : View) : Int → Int :=
  fun t => matrix.cols.indices (v.colIndexSet_.offset + t)

/-- Modelled from the spec: `restoreVectorOrder(v, indices)` (declared outside
the sources) restores the external, pre-permutation order of the rows of the
`rows x cols` block at address `vp`: in every column the value of internal
row `i` moves to row `indices[i]`, through a zeroed temporary column. -/
def restoreVectorOrder [Zero T] (mem : Int → T) (vp : Int) (rows cols lda : Int)
    (indices : Int → Int) : Int → T :=
  forLoop cols (fun col t =>
    let tmp : Int → T :=
      forLoop rows (fun i tm => Function.update tm (indices i) (t (vp + i + lda * col)))
        (fun _ => 0)
    forLoop rows (fun i t2 => Function.update t2 (vp + i + lda * col) (tmp i)) t) mem

/-- How a call that works on the target memory ends: it returns a value, or
a C++ exception leaves it (`HMAT_ASSERT`), the memory being as it was at that
point, or a C `assert` stops the run. -/
inductive Outcome (α : Type) (T : Type) where
  | returned (a : α) (mem : Int → T)
  | thrown (msg : String) (mem : Int → T)
  | aborted (msg : String)

/-- `UncompressedBlockBase::renumberRows` on the view `v` of `matrix`;
`fatherIsNull` is `matrix_->father == NULL`. -/
def UncompressedBlock.renumberRows [Zero T] (matrix : HMatrix T) (fatherIsNull : Bool)
    (v : View) (mem : Int → T) : Outcome Unit T :=
  if ¬ (fatherIsNull = true ∧ v.rowIndexSet_ = matrix.rows.toIndexSet) then
    .thrown "Cannot renumber" mem
  else
    .returned () (restoreVectorOrder mem v.values_ v.rowIndexSet_.size v.colIndexSet_.size
      v.lDim_ (UncompressedBlock.rowsNumbering matrix v))

/-- Modelled from the spec: `hmat_get_values_context_t` (declared in `hmat.h`,
outside the sources): the query descriptor of the extraction entry points.
`matrix` is the tree held by the interface object, whose root has no father;
`values` is the address of the caller's buffer; `row_indices` and
`col_indices` are `int*` arrays. -/
structure hmat_get_values_context_t (T : Type) where
  matrix : HMatrix T
  values : Int
  row_offset : Int
  row_size : Int
  col_offset : Int
  col_size : Int
  row_indices : Int → Int
  col_indices : Int → Int
  renumber_rows : Int

/-- The entry point `get_block` of the C interface: returns the status and the
updated context. -/
def get_block [Semiring T] (ctx : hmat_get_values_context_t T) (mem : Int → T) :
    Outcome (Int × hmat_get_values_context_t T) T :=
  let rows : IndexSet := ⟨ctx.row_offset, ctx.row_size⟩
  let cols : IndexSet := ⟨ctx.col_offset, ctx.col_size⟩
  let view := UncompressedBlock.rootView rows cols ctx.values (-1)
  match UncompressedBlock.uncompress ctx.matrix rows cols ctx.values (-1) mem with
  | .error e => .aborted e
  | .ok mem1 =>
    let finish (mem2 : Int → T) : Outcome (Int × hmat_get_values_context_t T) T :=
      .returned (0, ⟨ctx.matrix, ctx.values, ctx.row_offset, ctx.row_size, ctx.col_offset,
        ctx.col_size, UncompressedBlock.rowsNumbering ctx.matrix view,
        UncompressedBlock.colsNumbering ctx.matrix view, ctx.renumber_rows⟩) mem2
    if ctx.renumber_rows ≠ 0 then
      match UncompressedBlock.renumberRows ctx.matrix true view mem1 with
      | .returned _ mem2 => finish mem2
      | .thrown msg mem2 => .thrown msg mem2
      | .aborted msg => .aborted msg
    else finish mem1

end RangeQuery

/-! ## What the matrix tree stores -/

section Stored

variable {T : Type}

/-- The entry of a leaf at the internal position `(r, c)`: 0 for a Null leaf,
the stored dense value for a Full leaf, and the sum over `k < rank` of
`a[r, k] * b[c, k]` for a LowRank leaf, with leaf-local indices and factors
of leading dimension the leaf's row and column counts. -/
def leafEntry [Semiring T] : HMatrix T → Int → Int → T
  | .null _ _, _, _ => 0
  | .full rows cols f, r, c => f.get (r - rows.offset) (c - cols.offset)
  | .rk rows cols rank rk, r, c =>
      (Finset.range rank.toNat).sum fun k =>
        rk.a.m ((r - rows.offset) + rows.size * (k : Int))
          * rk.b.m ((c - cols.offset) + cols.size * (k : Int))
  | .internal _ _ _, _, _ => 0

mutual
/-- The leaves of a tree, in the order of the children. -/
def HMatrix.leaves : HMatrix T → List (HMatrix T)
  | .internal _ _ children => leavesOfList children
  | .null rows cols => [.null rows cols]
  | .full rows cols f => [.full rows cols f]
  | .rk rows cols rank r => [.rk rows cols rank r]
/-- The leaves below a list of nodes. -/
def leavesOfList : List (HMatrix T) → List (HMatrix T)
  | [] => []
  | child :: rest => child.leaves ++ leavesOfList rest
end

mutual
/-- The nodes strictly below a node. -/
def HMatrix.descendants : HMatrix T → List (HMatrix T)
  | .internal _ _ children => descendantsOfList children
  | _ => []
/-- The nodes of a list of trees. -/
def descendantsOfList : List (HMatrix T) → List (HMatrix T)
  | [] => []
  | child :: rest => child :: (child.descendants ++ descendantsOfList rest)
end

/-- The positions of the extent `rows x cols`. -/
def positions (rows cols : IndexSet) : List (Int × Int) :=
  (List.range rows.size.toNat).flatMap fun (i : Nat) =>
    (List.range cols.size.toNat).map fun (j : Nat) =>
      (rows.offset + (i : Int), cols.offset + (j : Int))

/-- The number of nodes of a list whose extent holds the position. -/
def holders (children : List (HMatrix T)) (p : Int × Int) : Nat :=
  children.countP fun child => decide (child.containsPos p.1 p.2)

mutual
/-- Shape of a tree: at every Internal node each child lies inside the node's
extent, and at every position of the node's extent the number of children
holding it passes the test `ok`. -/
def HMatrix.shaped (ok : Nat → Bool) : HMatrix T → Bool
  | .internal rows cols children =>
      children.all (fun child =>
        decide (child.rows.toIndexSet.isSubset rows.toIndexSet
          ∧ child.cols.toIndexSet.isSubset cols.toIndexSet))
      && (positions rows.toIndexSet cols.toIndexSet).all (fun p => ok (holders children p))
      && shapedList ok children
  | _ => true
/-- Every tree of the list has the shape. -/
def shapedList (ok : Nat → Bool) : List (HMatrix T) → Bool
  | [] => true
  | child :: rest => child.shaped ok && shapedList ok rest
end

/-- Every Internal node's children cover its row x column extent disjointly:
each position of the node lies in exactly one child. -/
def HMatrix.coversDisjointly (m : HMatrix T) : Bool :=
  m.shaped fun n => n == 1

/-- Every Internal node's children are disjoint blocks of its extent, which
they need not cover: the storage of a lower-symmetric matrix, where the blocks
above the diagonal are not kept. -/
def HMatrix.storesDisjointly (m : HMatrix T) : Bool :=
  m.shaped fun n => decide (n ≤ 1)

/-- Every node lies inside the extent of its father. -/
def HMatrix.nested (m : HMatrix T) : Bool :=
  m.shaped fun _ => true

mutual
/-- The value the tree holds at `(r, c)`, if a leaf reached through nodes
holding the position does; among several children holding it the last one
counts. -/
def HMatrix.entry? [Semiring T] : HMatrix T → Int → Int → Option T
  | .internal _ _ children, r, c => entryOfList? children r c
  | .null rows cols, r, c => some (leafEntry (.null rows cols) r c)
  | .full rows cols f, r, c => some (leafEntry (.full rows cols f) r c)
  | .rk rows cols rank k, r, c => some (leafEntry (.rk rows cols rank k) r c)
/-- The value held at `(r, c)` by the children of a node. -/
def entryOfList? [Semiring T] : List (HMatrix T) → Int → Int → Option T
  | [], _, _ => none
  | child :: rest, r, c =>
      match entryOfList? rest r c with
      | some x => some x
      | none => if child.containsPos r c then child.entry? r c else none
end

end Stored

/-! ## Scattered query (`uncompressed_values.hpp`) -/

section ScatteredQuery

variable {T : Type}

/-- An iterator into a vector of pairs (`IndiceIt`): a position in the vector,
or `none` for the value-initialised iterator a freshly constructed view holds
before anything is assigned to it; two such iterators compare equal. -/
abbrev IndiceIt := Option Int

/-- The element an iterator position designates. -/
def pairAt (q : List (Int × Int)) (i : Int) : Int × Int :=
  q.getD i.toNat (0, 0)

/-- The order `operator<` of `std::pair<int, int>`. -/
def pairLt (a b : Int × Int) : Bool :=
  decide (a.1 < b.1 ∨ (a.1 = b.1 ∧ a.2 < b.2))

/-- The bisection of `std::lower_bound` on `[first, first + len)`. -/
def lowerBoundAux (q : List (Int × Int)) (val : Int × Int) : Nat → Int → Int → Int
  | 0, first, _ => first
  | fuel + 1, first, len =>
      if len ≤ 0 then first
      else
        let half := len / 2
        let middle := first + half
        if pairLt (pairAt q middle) val then lowerBoundAux q val fuel (middle + 1) (len - half - 1)
        else lowerBoundAux q val fuel first half

/-- `std::lower_bound(first, last, val)`. -/
def lower_bound (q : List (Int × Int)) (first last : Int) (val : Int × Int) : Int :=
  lowerBoundAux q val (last - first).toNat.succ first (last - first)

/-- The bisection of `std::upper_bound` on `[first, first + len)`. -/
def upperBoundAux (q : List (Int × Int)) (val : Int × Int) : Nat → Int → Int → Int
  | 0, first, _ => first
  | fuel + 1, first, len =>
      if len ≤ 0 then first
      else
        let half := len / 2
        let middle := first + half
        if pairLt val (pairAt q middle) then upperBoundAux q val fuel first half
        else upperBoundAux q val fuel (middle + 1) (len - half - 1)

/-- `std::upper_bound(first, last, val)`. -/
def upper_bound (q : List (Int × Int)) (first last : Int) (val : Int × Int) : Int :=
  upperBoundAux q val (last - first).toNat.succ first (last - first)

/-- The element an assertion reads through an iterator at position `i`:
none when the position is outside the vector. -/
def readAt (q : List (Int × Int)) (i : Int) : Option (Int × Int) :=
  if 0 ≤ i ∧ i < (q.length : Int) then some (pairAt q i) else none

/-- `UncompressedValuesBase::compatibleQuery(clusterData, begin, end)` on the
vector `q`: returns the new values of the two iterators it receives by
reference.  The assertions are evaluated; one that reads outside the vector
ends the run as a failed one does. -/
def compatibleQuery (q : List (Int × Int)) (clusterData : IndexSet) (begin_ end_ : IndiceIt) :
    Except String (IndiceIt × IndiceIt) :=
  match begin_, end_ with
  | some b, some e =>
    let lb := clusterData.offset
    let ub := lb + clusterData.size - 1
    let lbP : Int × Int := (lb, 0)
    let ubP : Int × Int := (ub, 2147483647)
    let newBegin := lower_bound q b e lbP
    if newBegin = e then .ok (some newBegin, some e)
    else
      match readAt q newBegin with
      | none => .error "assert(newBegin->first >= lb): read outside the vector"
      | some x =>
        if ¬ (x.1 ≥ lb) then .error "assert(newBegin->first >= lb)"
        else
          let newEnd := upper_bound q b e ubP
          match readAt q (newEnd - 1) with
          | none => .error "assert((newEnd-1)->first <= ub): read outside the vector"
          | some y =>
            if ¬ (y.1 ≤ ub) then .error "assert((newEnd-1)->first <= ub)"
            else .ok (some newBegin, some newEnd)
  | _, _ => .error "singular iterator"

/-- `UncompressedValuesBase::createQuery`: the pairs (hmat id, position in the
query), sorted; `std::sort` orders pairs by `operator<`. -/
def createQuery (clusterData : ClusterData) (query : Int → Int) (querySize : Int) :
    List (Int × Int) :=
  let indices : List (Int × Int) :=
    (List.range querySize.toNat).map fun (i : Nat) =>
      (clusterData.indices_rev (query (i : Int) - 1), (i : Int))
  indices.insertionSort fun a b => a.1 < b.1 ∨ (a.1 = b.1 ∧ a.2 ≤ b.2)

/-- The four iterators of a scattered view (`rowStart_`, `rowEnd_`,
`colStart_`, `colEnd_`). -/
structure QueryRange where
  rowStart_ : IndiceIt
  rowEnd_ : IndiceIt
  colStart_ : IndiceIt
  colEnd_ : IndiceIt
  deriving DecidableEq, Repr

/-- The two nested loops over `[rowStart_, rowEnd_)` and `[colStart_,
colEnd_)` of the leaf methods, each pair being written by
`getValue(r, c, v)` at `values_[r->second + valuesLd_ * c->second]`. -/
def scatterLoop (rowsIndices colsIndices : List (Int × Int)) (values ld : Int)
    (qr : QueryRange) (value : Int × Int → Int × Int → T) (buf : Int → T) :
    Except String (Int → T) :=
  match qr.rowStart_, qr.rowEnd_, qr.colStart_, qr.colEnd_ with
  | some rs, some re, some cs, some ce =>
    .ok (forLoop (re - rs) (fun i b =>
      forLoop (ce - cs) (fun j b2 =>
        let r := pairAt rowsIndices (rs + i)
        let c := pairAt colsIndices (cs + j)
        Function.update b2 (values + r.2 + ld * c.2) (value r c)) b) buf)
  | _, _, _, _ => .error "singular iterator"

/-- `UncompressedValues::getLeafValues`.  Modelled from the spec:
`getRkValues` is only declared in the sources; it materialises the entries of
`U * Vᵗ` that are asked for. -/
def UncompressedValues.getLeafValues [Semiring T] (rowsIndices colsIndices : List (Int × Int))
    (values ld : Int) : HMatrix T → QueryRange → (Int → T) → Except String (Int → T)
  | .null _ _, qr, buf => scatterLoop rowsIndices colsIndices values ld qr (fun _ _ => 0) buf
  | .rk rows cols rank rk, qr, buf =>
      scatterLoop rowsIndices colsIndices values ld qr
        (fun r c => dotRow rk.a.m 0 rows.size rk.b.m 0 cols.size
          (r.1 - rows.offset) (c.1 - cols.offset) rank.toNat) buf
  | .full rows cols f, qr, buf =>
      if ¬ (f.pivots.isNone = true) then .error "assert(m.full()->pivots == NULL)"
      else if ¬ (f.diagonal.isNone = true) then .error "assert(m.full()->diagonal == NULL)"
      else
        let ro := rows.offset
        let co := cols.offset
        scatterLoop rowsIndices colsIndices values ld qr
          (fun r c => f.get (r.1 - ro) (c.1 - co)) buf
  | .internal _ _ _, _, _ => .error "assert(false)"

mutual
/-- `UncompressedValuesBase::getValues` on the node with the iterators `qr`:
returns the iterators as the call leaves them, and the buffer. -/
def UncompressedValues.getValues [Semiring T] (rowsIndices colsIndices : List (Int × Int))
    (values ld : Int) : HMatrix T → QueryRange → (Int → T) →
    Except String (QueryRange × (Int → T))
  | .internal _ _ children, qr, buf =>
      if qr.rowStart_ = qr.rowEnd_ ∨ qr.colStart_ = qr.colEnd_ then .ok (qr, buf)
      else UncompressedValues.childrenLoop rowsIndices colsIndices values ld children qr buf
  | .null rows cols, qr, buf =>
      if qr.rowStart_ = qr.rowEnd_ ∨ qr.colStart_ = qr.colEnd_ then .ok (qr, buf)
      else
        match UncompressedValues.getLeafValues rowsIndices colsIndices values ld
          (.null rows cols) qr buf with
        | .error e => .error e
        | .ok buf1 => .ok (qr, buf1)
  | .full rows cols f, qr, buf =>
      if qr.rowStart_ = qr.rowEnd_ ∨ qr.colStart_ = qr.colEnd_ then .ok (qr, buf)
      else
        match UncompressedValues.getLeafValues rowsIndices colsIndices values ld
          (.full rows cols f) qr buf with
        | .error e => .error e
        | .ok buf1 => .ok (qr, buf1)
  | .rk rows cols rank r, qr, buf =>
      if qr.rowStart_ = qr.rowEnd_ ∨ qr.colStart_ = qr.colEnd_ then .ok (qr, buf)
      else
        match UncompressedValues.getLeafValues rowsIndices colsIndices values ld
          (.rk rows cols rank r) qr buf with
        | .error e => .error e
        | .ok buf1 => .ok (qr, buf1)
/-- The loop of `getValues` over the children.  `compatibleQuery` receives the
members `rowStart_`, `rowEnd_`, `colStart_`, `colEnd_` of the node itself by
reference, so it is the node's iterators `qr` that are narrowed; those of the
new `view` are not assigned before `view.getValues()` runs. -/
def UncompressedValues.childrenLoop [Semiring T] (rowsIndices colsIndices : List (Int × Int))
    (values ld : Int) : List (HMatrix T) → QueryRange → (Int → T) →
    Except String (QueryRange × (Int → T))
  | [], qr, buf => .ok (qr, buf)
  | child :: rest, qr, buf =>
      match compatibleQuery rowsIndices child.rows.toIndexSet qr.rowStart_ qr.rowEnd_ with
      | .error e => .error e
      | .ok (rs, re) =>
        match compatibleQuery colsIndices child.cols.toIndexSet qr.colStart_ qr.colEnd_ with
        | .error e => .error e
        | .ok (cs, ce) =>
          match UncompressedValues.getValues rowsIndices colsIndices values ld child
            ⟨none, none, none, none⟩ buf with
          | .error e => .error e
          | .ok (_, buf1) =>
            UncompressedValues.childrenLoop rowsIndices colsIndices values ld rest
              ⟨rs, re, cs, ce⟩ buf1
end

/-- The public `UncompressedValuesBase::uncompress(matrix, rows, rowSize, cols,
colSize, values, ld)`; `fatherIsNull` is `matrix->father == NULL`. -/
def UncompressedValues.uncompress [Semiring T] (matrix : HMatrix T) (fatherIsNull : Bool)
    (rows : Int → Int) (rowSize : Int) (cols : Int → Int) (colSize : Int)
    (values : Int) (ld : Int) (buf : Int → T) : Except String (Int → T) :=
  if ¬ (fatherIsNull = true) then .error "assert(matrix->father == NULL)"
  else
    let valuesLd := if ld = -1 then rowSize else ld
    let rowsIndices := createQuery matrix.rows rows rowSize
    let colsIndices := createQuery matrix.cols cols colSize
    match UncompressedValues.getValues rowsIndices colsIndices values valuesLd matrix
      ⟨some 0, some (rowsIndices.length : Int), some 0, some (colsIndices.length : Int)⟩ buf with
    | .error e => .error e
    | .ok (_, buf1) => .ok buf1

/-- The entry point `get_values` of the C interface. -/
def get_values [Semiring T] (ctx : hmat_get_values_context_t T) (mem : Int → T) :
    Outcome (Int × hmat_get_values_context_t T) T :=
  match UncompressedValues.uncompress ctx.matrix true ctx.row_indices ctx.row_size
      ctx.col_indices ctx.col_size ctx.values (-1) mem with
  | .error e => .aborted e
  | .ok mem1 => .returned (0, ctx) mem1

end ScatteredQuery

/-! ## Assembly and factorization entry points (`c_wrapping.hpp`) -/

section Assembly

/-- Modelled from the spec: the factorization kinds of `hmat.h`. -/
inductive hmat_factorization_t where
  | hmat_factorization_none
  | hmat_factorization_lu
  | hmat_factorization_ldlt
  | hmat_factorization_llt
  | hmat_factorization_hodlr
  | hmat_factorization_hodlrsym
  deriving DecidableEq, Repr

/-- The symmetry flag handed to the assembly. -/
inductive SymmetryFlag where
  | kLowerSymmetric
  | kNotSymmetric
  deriving DecidableEq, Repr

/-- Modelled from the spec: `hmat_assemble_context_t` of `hmat.h`, reduced to
the fields `assemble_generic` reads.  A callback or object pointer is `none`
when `NULL`, and a handle otherwise. -/
structure hmat_assemble_context_t where
  assembly : Option Nat
  simple_compute : Option Nat
  block_compute : Option Nat
  prepare : Option Nat
  user_context : Option Nat
  factorization : hmat_factorization_t
  lower_symmetric : Int
  deriving DecidableEq, Repr

/-- Modelled from the spec: `hmat_assemble_context_init` clears the callbacks
and selects no factorization and no symmetry. -/
def hmat_assemble_context_init : hmat_assemble_context_t :=
  ⟨none, none, none, none, none, .hmat_factorization_none, 0⟩

/-- The evaluator object built by `assemble_generic` for `HMatInterface::assemble`:
the custom assembly, a `BlockAssemblyFunction` or a `SimpleCAssemblyFunction`. -/
inductive Evaluator where
  | custom (assembly : Nat)
  | block (user_context prepare : Option Nat) (block_compute : Nat)
  | simple (user_context simple_compute : Option Nat)
  deriving DecidableEq, Repr

/-- A call of a method of the `HMatInterface` object. -/
inductive Call where
  | assemble (f : Evaluator) (sf : SymmetryFlag) (assembleOnly : Bool)
  | factorize (t : hmat_factorization_t)
  deriving DecidableEq, Repr

/-- Modelled from the spec: the `HMatInterface` object (`hmat_cpp_interface.hpp`,
outside the sources).  Its methods `assemble` and `factorize` either return
(`none`) or throw (`some message`). -/
structure HMatInterface where
  assemble : Evaluator → SymmetryFlag → Bool → Option String
  factorize : hmat_factorization_t → Option String

/-- A run of statements: from the calls made so far to the exception thrown,
if any, and the calls made. -/
abbrev Stmt := List Call → Option String × List Call

/-- Sequence of two statements: the second runs if the first did not throw. -/
def Stmt.andThen (a b : Stmt) : Stmt := fun log =>
  match a log with
  | (some e, log1) => (some e, log1)
  | (none, log1) => b log1

/-- The empty statement. -/
def Stmt.skip : Stmt := fun log => (none, log)

/-- Modelled from the spec: `HMAT_ASSERT(cond)` (`common/my_assert.h`, outside
the sources) throws when the condition fails. -/
def HMAT_ASSERT (cond : Bool) : Stmt := fun log =>
  if cond then (none, log) else (some "HMAT_ASSERT", log)

/-- The statement `hmat->assemble(f, sf, assembleOnly, ctx->progress)`. -/
def callAssemble (hmat : HMatInterface) (f : Evaluator) (sf : SymmetryFlag)
    (assembleOnly : Bool) : Stmt := fun log =>
  (hmat.assemble f sf assembleOnly, log ++ [Call.assemble f sf assembleOnly])

/-- The statement `hmat->factorize(t, ctx->progress)`. -/
def callFactorize (hmat : HMatInterface) (t : hmat_factorization_t) : Stmt := fun log =>
  (hmat.factorize t, log ++ [Call.factorize t])

/-- The function `assemble_generic` of the C interface. -/
def assemble_generic (hmat : HMatInterface) (ctx : hmat_assemble_context_t) : Stmt :=
  let assembleOnly : Bool := decide (ctx.factorization = .hmat_factorization_none)
  let sf : SymmetryFlag :=
    if ctx.lower_symmetric ≠ 0 then .kLowerSymmetric else .kNotSymmetric
  match ctx.assembly with
  | some cppAssembly =>
      (HMAT_ASSERT (decide (ctx.block_compute = none ∧ ctx.simple_compute = none))).andThen
        ((callAssemble hmat (.custom cppAssembly) sf assembleOnly).andThen
          (if !assembleOnly then callFactorize hmat ctx.factorization else Stmt.skip))
  | none =>
    match ctx.block_compute with
    | some blockCompute =>
        (HMAT_ASSERT (decide (ctx.simple_compute = none ∧ ctx.assembly = none))).andThen
          ((callAssemble hmat (.block ctx.user_context ctx.prepare blockCompute) sf
              assembleOnly).andThen
            (if !assembleOnly then callFactorize hmat ctx.factorization else Stmt.skip))
    | none =>
        (HMAT_ASSERT (decide (ctx.block_compute = none ∧ ctx.assembly = none))).andThen
          ((callAssemble hmat (.simple ctx.user_context ctx.simple_compute) sf
              assembleOnly).andThen
            (if !assembleOnly then callFactorize hmat ctx.factorization else Stmt.skip))

/-- How an entry point with an `int` result ends: it returns a status, or a
C++ exception leaves it. -/
inductive Status where
  | returned (status : Int)
  | thrown (msg : String)
  deriving DecidableEq, Repr

/-- A body `stmt; return 0;`, started with no call made: the way the body
ends and the calls made. -/
def thenReturn0 (stmt : Stmt) : Status × List Call :=
  match stmt [] with
  | (some e, log) => (.thrown e, log)
  | (none, log) => (.returned 0, log)

/-- The entry point `assemble`. -/
def assemble (holder : HMatInterface) (user_context prepare compute : Option Nat)
    (lower_symmetric : Int) : Status × List Call :=
  let ctx0 := hmat_assemble_context_init
  let ctx : hmat_assemble_context_t :=
    ⟨ctx0.assembly, ctx0.simple_compute, compute, prepare, user_context, ctx0.factorization,
      lower_symmetric⟩
  thenReturn0 (assemble_generic holder ctx)

end Assembly

end hmat
namespace hmat
section Aux
variable {T : Type}
/-- A block write in canonical form: column after column, the entry `(i, j)`
of the `nr x nc` block at address `tp` (leading dimension `tld`) becomes
`g i j old`, `old` being its content before the write. -/
def blockWrite (g : Int → Int → T → T) (tp tld nr nc : Int) (t : Int → T) : Int → T :=
  forLoop nc (fun j t1 =>
    forLoop nr (fun i t2 =>
      Function.update t2 (tp + i + tld * j) (g i j (t2 (tp + i + tld * j)))) t1) t

/-- The address in the target buffer of the internal position `(r, c)` seen
from a view. -/
def View.addr (v : View) (r c : Int) : Int :=
  v.values_ + (r - v.rowIndexSet_.offset) + v.lDim_ * (c - v.colIndexSet_.offset)
end Aux
end hmat

namespace hmat
section Examples

/-- Two ranges have an index in common: their intersection is not empty. -/
def IndexSet.meets (a b : IndexSet) : Prop :=
  (a.intersection b).size ≠ 0

instance (a b : IndexSet) : Decidable (a.meets b) := by
  unfold IndexSet.meets; exact inferInstance

/-- A cluster `[o, o + s)` of a tree whose permutation is the identity. -/
def exampleCluster (o s : Int) : ClusterData :=
  ⟨⟨o, s⟩, fun i => i, fun i => i⟩

/-- A dense block holding the given values, without side-data. -/
def exampleFull (l : List Int) (rows cols : Int) : FullMatrix Int :=
  ⟨fun i => l.getD i.toNat 0, rows, cols, rows, none, none⟩

/-- A 2 x 2 matrix with four 1 x 1 leaves: Full 5 at (0,0), Full 7 at (1,0),
Null at (0,1) and a LowRank leaf of rank 2 worth 2*4 + 3*5 at (1,1). -/
def exampleTree : HMatrix Int :=
  .internal (exampleCluster 0 2) (exampleCluster 0 2)
    [.full (exampleCluster 0 1) (exampleCluster 0 1) (exampleFull [5] 1 1),
     .full (exampleCluster 1 1) (exampleCluster 0 1) (exampleFull [7] 1 1),
     .null (exampleCluster 0 1) (exampleCluster 1 1),
     .rk (exampleCluster 1 1) (exampleCluster 1 1) 2
       ⟨exampleFull [2, 3] 1 2, exampleFull [4, 5] 1 2⟩]

/-- A lower-symmetric 2 x 2 matrix: the diagonal blocks and the block (1,0)
are stored, the block (0,1) above the diagonal is not. -/
def symmetricTree : HMatrix Int :=
  .internal (exampleCluster 0 2) (exampleCluster 0 2)
    [.full (exampleCluster 0 1) (exampleCluster 0 1) (exampleFull [5] 1 1),
     .full (exampleCluster 1 1) (exampleCluster 0 1) (exampleFull [7] 1 1),
     .full (exampleCluster 1 1) (exampleCluster 1 1) (exampleFull [9] 1 1)]

/-- The same matrix with a Null leaf standing for the block above the
diagonal. -/
def symmetricTreeNull : HMatrix Int :=
  .internal (exampleCluster 0 2) (exampleCluster 0 2)
    [.full (exampleCluster 0 1) (exampleCluster 0 1) (exampleFull [5] 1 1),
     .full (exampleCluster 1 1) (exampleCluster 0 1) (exampleFull [7] 1 1),
     .null (exampleCluster 0 1) (exampleCluster 1 1),
     .full (exampleCluster 1 1) (exampleCluster 1 1) (exampleFull [9] 1 1)]

/-- A 2 x 2 matrix that is a single Null leaf. -/
def nullLeaf : HMatrix Int :=
  .null (exampleCluster 0 2) (exampleCluster 0 2)

end Examples
end hmat

namespace hmat
section Examples2

/-- An interface object whose methods return. -/
def workingInterface : HMatInterface :=
  ⟨fun _ _ _ => none, fun _ => none⟩

/-- A query descriptor on the 2 x 2 example tree. -/
def exampleContext (row_offset row_size col_offset col_size renumber_rows : Int) :
    hmat_get_values_context_t Int :=
  ⟨exampleTree, 0, row_offset, row_size, col_offset, col_size, fun _ => 0, fun _ => 0,
    renumber_rows⟩

end Examples2
end hmat

namespace hmat
section Selection

/-- The evaluator `assemble_generic` hands to the assembly: the custom
assembly if one is set, else the block evaluator if `block_compute` is set,
else the scalar evaluator. -/
def selectedEvaluator (ctx : hmat_assemble_context_t) : Evaluator :=
  match ctx.assembly with
  | some a => .custom a
  | none =>
    match ctx.block_compute with
    | some b => .block ctx.user_context ctx.prepare b
    | none => .simple ctx.user_context ctx.simple_compute

/-- The symmetry flag `assemble_generic` hands to the assembly. -/
def selectedSymmetry (ctx : hmat_assemble_context_t) : SymmetryFlag :=
  if ctx.lower_symmetric ≠ 0 then .kLowerSymmetric else .kNotSymmetric

/-- The call is a call of `factorize`. -/
def Call.isFactorize : Call → Bool
  | .factorize _ => true
  | .assemble _ _ _ => false

end Selection
end hmat

namespace hmat
section Examples3

/-- An assembly context with a block evaluator and an LU factorization. -/
def exampleAssembleContext : hmat_assemble_context_t :=
  ⟨none, none, some 1, some 2, none, .hmat_factorization_lu, 1⟩

/-- A 2 x 2 matrix, a single Full leaf holding 5, 7 (first column) and 8, 9,
whose row permutation exchanges the two rows. -/
def swappedLeaf : HMatrix Int :=
  .full ⟨⟨0, 2⟩, fun i => 1 - i, fun i => 1 - i⟩ (exampleCluster 0 2)
    (exampleFull [5, 7, 8, 9] 2 2)

end Examples3
end hmat

namespace hmat
section Examples4

/-- A 2 x 2 matrix that is a single Full leaf holding 5, 7 (first column)
and 8, 9, with the identity permutation. -/
def fullLeaf : HMatrix Int :=
  .full (exampleCluster 0 2) (exampleCluster 0 2) (exampleFull [5, 7, 8, 9] 2 2)

/-- An `int` array holding the given values. -/
def exampleArray (l : List Int) : Int → Int :=
  fun i => l.getD i.toNat 0

end Examples4
end hmat

namespace hmat

/-! ## Memory instrumentation (`common/memory_instrumentation.cpp`) -/

section Instrumentation

/-- Modelled from the spec: the state of a `MemoryInstrumenter`
(`memory_instrumentation.hpp`, outside the sources) that `addType` reads and
writes: the four vectors with one entry per type, the output file (`none`
for `NULL`), and the static `write_sampling`.  A hook or its parameter is
`none` when `NULL`. -/
structure MemoryInstrumenter where
  labels_ : List String
  cumulatives_ : List Bool
  hooks_ : List (Option Nat)
  hookParams_ : List (Option Nat)
  output_ : Option Nat
  write_sampling : Int
  deriving DecidableEq, Repr

/-- Conversion of an integer to `char`, the result type of `addType`: 8 bits,
signed or not as the platform has it. -/
def toChar (charIsSigned : Bool) (n : Int) : Int :=
  if charIsSigned then (n + 128) % 256 - 128 else n % 256

/-- `MemoryInstrumenter::addType(label, cumul, hook, param)`: the `char`
returned and the new state, or the message of the `HMAT_ASSERT_MSG` that
throws. -/
def MemoryInstrumenter.addType (charIsSigned : Bool) (self : MemoryInstrumenter)
    (label : String) (cumul : Bool) (hook param : Option Nat) :
    Except String (Int × MemoryInstrumenter) :=
  if ¬ (self.output_ = none) then .error "Cannot call addType after setFile"
  else if ¬ (self.write_sampling = 1 ∨ cumul = false) then
    .error "Cannot use write sub sampling with cumulative records."
  else
    let cumulatives := self.cumulatives_ ++ [cumul]
    let labels := self.labels_ ++ [label]
    let hooks := self.hooks_ ++ [hook]
    let hookParams := self.hookParams_ ++ [param]
    .ok (toChar charIsSigned ((labels.length : Int) - 1),
      ⟨labels, cumulatives, hooks, hookParams, self.output_, self.write_sampling⟩)

/-- An instrumenter with `n` types registered, no output file and no write
sub-sampling. -/
def exampleInstrumenter (n : Nat) : MemoryInstrumenter :=
  ⟨List.replicate n "type", List.replicate n false, List.replicate n none,
    List.replicate n none, none, 1⟩

end Instrumentation

/-! ## The example block evaluator (`examples/rbf2.c`) -/

section Example

variable {T : Type}

/-- Modelled from the spec: the scalar types of `hmat.h`. -/
inductive hmat_value_t where
  | HMAT_SIMPLE_PRECISION
  | HMAT_DOUBLE_PRECISION
  | HMAT_SIMPLE_COMPLEX
  | HMAT_DOUBLE_COMPLEX
  deriving DecidableEq, Repr

/-- `interaction_real(points, i, j)` of `rbf2.c`.  The floating-point values
are kept abstract: `ten` is the constant `10.0` and `kernel x y` stands for
`exp(-(x - y) * (x - y))`. -/
def interaction_real (ten : T) (kernel : T → T → T) (points : Int → T) (i j : Int) : T :=
  if i = j then ten else kernel (points i) (points j)

/-- `problem_data_t` of `rbf2.c`. -/
structure problem_data_t (T : Type) where
  type : hmat_value_t
  n : Int
  points : Int → T

/-- `block_data_t` of `rbf2.c`. -/
structure block_data_t (T : Type) where
  row_start : Int
  col_start : Int
  row_hmat2client : Int → Int
  col_hmat2client : Int → Int
  user_context : problem_data_t T

/-- `prepare_hmat` of `rbf2.c`: the block data it stores in `block_info`. -/
def prepare_hmat (row_start _row_count col_start _col_count : Int)
    (row_hmat2client _row_client2hmat col_hmat2client _col_client2hmat : Int → Int)
    (user_context : problem_data_t T) : block_data_t T :=
  ⟨row_start, col_start, row_hmat2client, col_hmat2client, user_context⟩

/-- `compute_hmat` of `rbf2.c` on the buffer `values`: the state of the loops
is the running index `pos` and the buffer. -/
def compute_hmat (ten : T) (kernel : T → T → T) (bdata : block_data_t T)
    (rowBlockBegin rowBlockCount colBlockBegin colBlockCount : Int) (values : Int → T) :
    Int → T :=
  (forLoop colBlockCount
    (fun j (st : Int × (Int → T)) =>
      let col := bdata.col_hmat2client (j + colBlockBegin + bdata.col_start)
      match bdata.user_context.type with
      | .HMAT_DOUBLE_PRECISION =>
        forLoop rowBlockCount
          (fun i (st2 : Int × (Int → T)) =>
            (st2.1 + 1,
              Function.update st2.2 st2.1
                (interaction_real ten kernel bdata.user_context.points
                  (bdata.row_hmat2client (i + rowBlockBegin + bdata.row_start)) col))) st
      | _ => st)
    (0, values)).2

/-- Block data of a double-precision problem on integers standing for the
points, the numberings reversing four indices. -/
def exampleBlockData : block_data_t Int :=
  prepare_hmat 1 2 0 2 (fun i => 3 - i) (fun i => 3 - i) (fun i => 3 - i) (fun i => 3 - i)
    ⟨.HMAT_DOUBLE_PRECISION, 4, fun i => 2 * i⟩

end Example

end hmat

namespace hmat
section Examples5

/-- The order of `std::pair<int, int>` that `std::sort` leaves the query in:
ascending hmat id, then ascending position in the query. -/
def pairLe (a b : Int × Int) : Prop :=
  a.1 < b.1 ∨ (a.1 = b.1 ∧ a.2 ≤ b.2)

/-- A view of the 2 x 3 block at address 1 of a buffer of leading dimension
4, starting at the internal position (3, 5). -/
def exampleView : View :=
  ⟨⟨3, 2⟩, ⟨5, 3⟩, 1, 4⟩

/-- A dense block holding `10 * column + row` on 4 rows. -/
def exampleDense : FullMatrix Int :=
  ⟨fun i => 10 * (i / 4) + i % 4, 4, 4, 4, none, none⟩

end Examples5
end hmat

namespace hmat
section Examples6

/-- A sorted query of four pairs, the hmat id 1 asked for twice. -/
def exampleQuery : List (Int × Int) :=
  [(0, 0), (1, 2), (1, 3), (4, 1)]

/-- The calls `getValue(r, c, m.full()->get(r->first - ro, c->first - co))`
that the two loops of `UncompressedValues::getFullValues` make, in the order
of the calls, for the iterators `[rs, re)` and `[cs, ce)`: each with the
positions `(r->second, c->second)` that `getValue` writes at and with the
arguments `(r->first - ro, c->first - co)` of `get`. -/
def UncompressedValues.fullCalls (rowsIndices colsIndices : List (Int × Int))
    (rows cols : ClusterData) (rs re cs ce : Int) : List ((Int × Int) × (Int × Int)) :=
  (List.range (re - rs).toNat).flatMap fun (i : Nat) =>
    (List.range (ce - cs).toNat).map fun (j : Nat) =>
      (((pairAt rowsIndices (rs + (i : Int))).2, (pairAt colsIndices (cs + (j : Int))).2),
        ((pairAt rowsIndices (rs + (i : Int))).1 - rows.offset,
          (pairAt colsIndices (cs + (j : Int))).1 - cols.offset))

/-- The arguments of the calls of `m.full()->get` in `getFullValues`. -/
def UncompressedValues.fullReads (rowsIndices colsIndices : List (Int × Int))
    (rows cols : ClusterData) (rs re cs ce : Int) : List (Int × Int) :=
  (UncompressedValues.fullCalls rowsIndices colsIndices rows cols rs re cs ce).map Prod.snd

/-- The buffer after the calls of `getValue` of a list, each writing
`get(i, j)` at `values_[r->second + valuesLd_ * c->second]`. -/
def UncompressedValues.runCalls {T : Type} (values ld : Int) (get : Int → Int → T)
    (calls : List ((Int × Int) × (Int × Int))) (buf : Int → T) : Int → T :=
  calls.foldl (fun b call =>
    Function.update b (values + call.1.1 + ld * call.1.2) (get call.2.1 call.2.2)) buf

/-- The first child of the example tree: the Full leaf on row 0 and column 0. -/
def exampleFirstChild : HMatrix Int :=
  .full (exampleCluster 0 1) (exampleCluster 0 1) (exampleFull [5] 1 1)

/-- The second child of the example tree: the Full leaf on row 1 and column 0. -/
def exampleSecondChild : HMatrix Int :=
  .full (exampleCluster 1 1) (exampleCluster 0 1) (exampleFull [7] 1 1)

end Examples6
end hmat
namespace hmat
section Loops
variable {T : Type}

theorem writeLoop_spec (adr : Nat → Int) (val : Nat → T → T) (t : Int → T) (k : Nat)
    (hinj : ∀ i j, i < k → j < k → adr i = adr j → i = j) :
    (∀ i, i < k →
      (List.range k).foldl (fun b i => Function.update b (adr i) (val i (b (adr i)))) t (adr i)
        = val i (t (adr i))) ∧
    (∀ p, (∀ i, i < k → p ≠ adr i) →
      (List.range k).foldl (fun b i => Function.update b (adr i) (val i (b (adr i)))) t p
        = t p) := by
  induction k with
  | zero => simp
  | succ k ih =>
    have ih2 := ih (fun i j hi hj => hinj i j (by omega) (by omega))
    simp only [List.range_succ, List.foldl_append, List.foldl_cons, List.foldl_nil]
    constructor
    · intro i hi
      by_cases hik : i = k
      · subst hik
        rw [Function.update_same]
        congr 1
        apply ih2.2
        intro j hj heq
        have := hinj i j (by omega) (by omega) heq
        omega
      · have hne : adr i ≠ adr k := fun heq => hik (hinj i k hi (by omega) heq)
        rw [Function.update_noteq hne]
        exact ih2.1 i (by omega)
    · intro p hp
      rw [Function.update_noteq (hp k (by omega))]
      exact ih2.2 p (fun i hi => hp i (by omega))

theorem stride_inj {tld nr : Int} (h : nr ≤ tld) (i j i2 j2 : Int)
    (hi : 0 ≤ i) (hi' : i < nr) (hi2 : 0 ≤ i2) (hi2' : i2 < nr)
    (heq : i + tld * j = i2 + tld * j2) : i = i2 ∧ j = j2 := by
  have htld : 0 < tld := by omega
  have hj : j = j2 := by
    rcases lt_trichotomy j j2 with hlt | heq2 | hgt
    · exfalso
      have h1 : tld * (j2 - j) ≥ tld * 1 := mul_le_mul_of_nonneg_left (by omega) (le_of_lt htld)
      have h2 : tld * (j2 - j) = tld * j2 - tld * j := by ring
      omega
    · exact heq2
    · exfalso
      have h1 : tld * (j - j2) ≥ tld * 1 := mul_le_mul_of_nonneg_left (by omega) (le_of_lt htld)
      have h2 : tld * (j - j2) = tld * j - tld * j2 := by ring
      omega
  subst hj
  exact ⟨by omega, rfl⟩

theorem blockLoop_spec (g : Int → Int → T → T) (tp tld : Int) (nr : Nat) (h : (nr : Int) ≤ tld)
    (t : Int → T) (kc : Nat) :
    (∀ i j : Nat, i < nr → j < kc →
      (List.range kc).foldl (fun t1 (j : Nat) =>
        (List.range nr).foldl (fun t2 (i : Nat) =>
          Function.update t2 (tp + (i : Int) + tld * (j : Int))
            (g i j (t2 (tp + (i : Int) + tld * (j : Int))))) t1) t (tp + (i : Int) + tld * (j : Int))
        = g i j (t (tp + (i : Int) + tld * (j : Int)))) ∧
    (∀ p, (∀ i j : Nat, i < nr → j < kc → p ≠ tp + (i : Int) + tld * (j : Int)) →
      (List.range kc).foldl (fun t1 (j : Nat) =>
        (List.range nr).foldl (fun t2 (i : Nat) =>
          Function.update t2 (tp + (i : Int) + tld * (j : Int))
            (g i j (t2 (tp + (i : Int) + tld * (j : Int))))) t1) t p = t p) := by
  induction kc with
  | zero => simp
  | succ kc ih =>
    simp only [List.range_succ, List.foldl_append, List.foldl_cons, List.foldl_nil]
    have hrow := fun (t1 : Int → T) =>
      writeLoop_spec (fun i : Nat => tp + (i : Int) + tld * (kc : Int))
        (fun (i : Nat) old => g i kc old) t1 nr (by intro i j _ _ heq; simp at heq; exact_mod_cast heq)
    simp only at hrow
    constructor
    · intro i j hi hj
      by_cases hjk : j = kc
      · subst hjk
        rw [(hrow _).1 i hi]
        congr 1
        apply ih.2
        intro i2 j2 hi2 hj2 heq
        have := stride_inj h i j i2 j2 (by omega) (by exact_mod_cast hi) (by omega)
          (by exact_mod_cast hi2) (by omega)
        omega
      · rw [(hrow _).2]
        · exact ih.1 i j hi (by omega)
        · intro i2 hi2 heq
          have := stride_inj h i j i2 kc (by omega) (by exact_mod_cast hi) (by omega)
            (by exact_mod_cast hi2) (by omega)
          omega
    · intro p hp
      rw [(hrow _).2 p (fun i hi => hp i kc hi (by omega))]
      exact ih.2 p (fun i j hi hj => hp i j hi (by omega))

theorem blockWrite_spec (g : Int → Int → T → T) (tp tld nr nc : Int) (h : nr ≤ tld)
    (t : Int → T) :
    (∀ i j : Int, 0 ≤ i → i < nr → 0 ≤ j → j < nc →
      blockWrite g tp tld nr nc t (tp + i + tld * j) = g i j (t (tp + i + tld * j))) ∧
    (∀ p, (∀ i j : Int, 0 ≤ i → i < nr → 0 ≤ j → j < nc → p ≠ tp + i + tld * j) →
      blockWrite g tp tld nr nc t p = t p) := by
  unfold blockWrite forLoop
  by_cases hnr : 0 ≤ nr
  · have hs := blockLoop_spec g tp tld nr.toNat (by rw [Int.toNat_of_nonneg hnr]; exact h) t
      nc.toNat
    constructor
    · intro i j hi hi' hj hj'
      have := hs.1 i.toNat j.toNat (by omega) (by omega)
      rw [Int.toNat_of_nonneg hi, Int.toNat_of_nonneg hj] at this
      exact this
    · intro p hp
      apply hs.2
      intro i j hi hj
      exact hp i j (by omega) (by omega) (by omega) (by omega)
  · have h0 : nr.toNat = 0 := by omega
    constructor
    · intro i j hi hi'; omega
    · intro p _
      rw [h0]
      simp only [List.range_zero, List.foldl_nil]
      induction nc.toNat with
      | zero => rfl
      | succ k ih =>
        simp only [List.range_succ, List.foldl_append, List.foldl_cons, List.foldl_nil]
        exact ih

end Loops
end hmat
namespace hmat
section Leaves
variable {T : Type}

theorem blockWrite_view (g : Int → Int → T → T) (v : View)
    (h : v.rowIndexSet_.size ≤ v.lDim_) (t : Int → T) :
    (∀ r c : Int, v.rowIndexSet_.contains r → v.colIndexSet_.contains c →
      blockWrite g v.values_ v.lDim_ v.rowIndexSet_.size v.colIndexSet_.size t (v.addr r c)
        = g (r - v.rowIndexSet_.offset) (c - v.colIndexSet_.offset) (t (v.addr r c))) ∧
    (∀ p, (∀ r c : Int, v.rowIndexSet_.contains r → v.colIndexSet_.contains c →
        p ≠ v.addr r c) →
      blockWrite g v.values_ v.lDim_ v.rowIndexSet_.size v.colIndexSet_.size t p = t p) := by
  have hs := blockWrite_spec g v.values_ v.lDim_ v.rowIndexSet_.size v.colIndexSet_.size h t
  constructor
  · intro r c hr hc
    unfold IndexSet.contains at hr hc
    exact hs.1 (r - v.rowIndexSet_.offset) (c - v.colIndexSet_.offset)
      (by omega) (by omega) (by omega) (by omega)
  · intro p hp
    apply hs.2
    intro i j hi hi' hj hj'
    have := hp (v.rowIndexSet_.offset + i) (v.colIndexSet_.offset + j)
      (by unfold IndexSet.contains; omega) (by unfold IndexSet.contains; omega)
    unfold View.addr at this
    simpa using this

theorem getNullValues_eq [Zero T] (v : View) (buf : Int → T) :
    getNullValues v buf
      = blockWrite (fun _ _ _ => 0) v.values_ v.lDim_ v.rowIndexSet_.size
          v.colIndexSet_.size buf := by
  unfold getNullValues blockWrite forLoop
  generalize v.colIndexSet_.size.toNat = k
  suffices hk :
      (List.range k).foldl
        (fun (st : Int × (Int → T)) (_ : Nat) =>
          (st.1 + v.lDim_,
            (List.range v.rowIndexSet_.size.toNat).foldl
              (fun b (row : Nat) => Function.update b (st.1 + (row : Int)) 0) st.2))
        (v.values_, buf)
      = (v.values_ + v.lDim_ * (k : Int),
          (List.range k).foldl
            (fun t1 (j : Nat) =>
              (List.range v.rowIndexSet_.size.toNat).foldl
                (fun t2 (i : Nat) =>
                  Function.update t2 (v.values_ + (i : Int) + v.lDim_ * (j : Int)) 0) t1) buf) by
    rw [hk]
  induction k with
  | zero => simp
  | succ k ih =>
    simp only [List.range_succ, List.foldl_append, List.foldl_cons, List.foldl_nil]
    rw [ih]
    simp only
    have hadr : ∀ row : Nat, v.values_ + v.lDim_ * (k : Int) + (row : Int)
        = v.values_ + (row : Int) + v.lDim_ * (k : Int) := fun row => by ring
    refine Prod.ext ?_ ?_
    · simp only; push_cast; ring
    · simp only [hadr]

theorem dotRow_eq_sum [Semiring T] (a : Int → T) (ap alda : Int) (b : Int → T) (bp bldb : Int)
    (i j : Int) (n : Nat) :
    dotRow a ap alda b bp bldb i j n
      = (Finset.range n).sum fun l =>
          a (ap + i + alda * (l : Int)) * b (bp + j + bldb * (l : Int)) := by
  induction n with
  | zero => simp [dotRow]
  | succ n ih => rw [dotRow, ih, Finset.sum_range_succ]

/-- What a leaf method of the range query does to the target buffer. -/
theorem leaf_getValues_spec [Semiring T] (m : HMatrix T) (hleaf : m.isLeaf = true) (v : View)
    (hr : 0 < v.rowIndexSet_.size) (hc : 0 < v.colIndexSet_.size)
    (hrs : v.rowIndexSet_.isSubset m.rows.toIndexSet)
    (hcs : v.colIndexSet_.isSubset m.cols.toIndexSet)
    (hld : v.rowIndexSet_.size ≤ v.lDim_) (buf : Int → T) :
    ∃ out, UncompressedBlock.getValues m v buf = .ok out ∧
      (∀ r c : Int, v.rowIndexSet_.contains r → v.colIndexSet_.contains c →
        out (v.addr r c) = leafEntry m r c) ∧
      (∀ p, (∀ r c : Int, v.rowIndexSet_.contains r → v.colIndexSet_.contains c →
        p ≠ v.addr r c) → out p = buf p) := by
  cases m with
  | internal rows cols cs => simp [HMatrix.isLeaf] at hleaf
  | null rows cols =>
    refine ⟨_, rfl, ?_, ?_⟩
    · intro r c hr' hc'
      rw [getNullValues_eq, (blockWrite_view _ v hld buf).1 r c hr' hc']
      rfl
    · intro p hp
      rw [getNullValues_eq]
      exact (blockWrite_view _ v hld buf).2 p hp
  | full rows cols f =>
    unfold IndexSet.isSubset at hrs hcs
    simp only [HMatrix.rows, HMatrix.cols] at hrs hcs
    have h1 : v.rowIndexSet_.offset - rows.offset ≥ 0 := by omega
    have h2 : v.colIndexSet_.offset - cols.offset ≥ 0 := by omega
    have heq : ∀ t : Int → T,
        copyMatrixAtOffset t v.values_ v.lDim_ f.m
          (v.rowIndexSet_.offset - rows.offset + f.lda * (v.colIndexSet_.offset - cols.offset))
          f.lda v.rowIndexSet_.size v.colIndexSet_.size 0 0
        = blockWrite (fun i j _ => f.m ((v.rowIndexSet_.offset - rows.offset
            + f.lda * (v.colIndexSet_.offset - cols.offset)) + i + f.lda * j))
            v.values_ v.lDim_ v.rowIndexSet_.size v.colIndexSet_.size t := by
      intro t
      unfold copyMatrixAtOffset blockWrite
      simp only [add_zero]
    refine ⟨copyMatrixAtOffset buf v.values_ v.lDim_ f.m
          (v.rowIndexSet_.offset - rows.offset + f.lda * (v.colIndexSet_.offset - cols.offset))
          f.lda v.rowIndexSet_.size v.colIndexSet_.size 0 0, ?_, ?_, ?_⟩
    · simp only [UncompressedBlock.getValues, getFullValues, h1, h2, not_true_eq_false,
        if_false]
    · intro r c hr' hc'
      rw [heq, (blockWrite_view _ v hld buf).1 r c hr' hc']
      simp only [leafEntry, FullMatrix.get]
      congr 1
      ring
    · intro p hp
      rw [heq]
      exact (blockWrite_view _ v hld buf).2 p hp
  | rk rows cols rank k =>
    refine ⟨_, rfl, ?_, ?_⟩
    · intro r c hr' hc'
      have hg : ∀ t : Int → T,
          gemmNT t v.values_ v.lDim_ v.rowIndexSet_.size v.colIndexSet_.size rank 1 k.a.m
            (v.rowIndexSet_.offset - rows.offset) rows.size k.b.m
            (v.colIndexSet_.offset - cols.offset) cols.size 0
          = blockWrite (fun i j old =>
              1 * dotRow k.a.m (v.rowIndexSet_.offset - rows.offset) rows.size k.b.m
                (v.colIndexSet_.offset - cols.offset) cols.size i j rank.toNat + 0 * old)
              v.values_ v.lDim_ v.rowIndexSet_.size v.colIndexSet_.size t := fun t => rfl
      unfold getRkValues
      rw [hg, (blockWrite_view _ v hld _).1 r c hr' hc']
      simp only [one_mul, zero_mul, add_zero, leafEntry, dotRow_eq_sum]
      apply Finset.sum_congr rfl
      intro l _
      congr 2 <;> ring
    · intro p hp
      have hg : ∀ t : Int → T,
          gemmNT t v.values_ v.lDim_ v.rowIndexSet_.size v.colIndexSet_.size rank 1 k.a.m
            (v.rowIndexSet_.offset - rows.offset) rows.size k.b.m
            (v.colIndexSet_.offset - cols.offset) cols.size 0
          = blockWrite (fun i j old =>
              1 * dotRow k.a.m (v.rowIndexSet_.offset - rows.offset) rows.size k.b.m
                (v.colIndexSet_.offset - cols.offset) cols.size i j rank.toNat + 0 * old)
              v.values_ v.lDim_ v.rowIndexSet_.size v.colIndexSet_.size t := fun t => rfl
      unfold getRkValues
      rw [hg, (blockWrite_view _ v hld _).2 p hp, getNullValues_eq]
      exact (blockWrite_view _ v hld buf).2 p hp

end Leaves
end hmat
namespace hmat
section Traversal
variable {T : Type}

theorem IndexSet.mem_intersection (a b : IndexSet) (i : Int) :
    (a.intersection b).contains i ↔ a.contains i ∧ b.contains i := by
  unfold IndexSet.intersection IndexSet.contains
  simp only
  omega

theorem IndexSet.intersection_size_nonneg (a b : IndexSet) : 0 ≤ (a.intersection b).size := by
  unfold IndexSet.intersection
  simp only
  omega

theorem IndexSet.intersection_size_le (a b : IndexSet) (h : 0 ≤ a.size) :
    (a.intersection b).size ≤ a.size := by
  unfold IndexSet.intersection
  simp only
  omega

theorem IndexSet.intersection_subset_right (a b : IndexSet) :
    (a.intersection b).isSubset b := by
  unfold IndexSet.intersection IndexSet.isSubset
  simp only
  omega

theorem IndexSet.not_contains_of_size_zero (a : IndexSet) (h : a.size = 0) (i : Int) :
    ¬ a.contains i := by
  unfold IndexSet.contains
  omega

theorem childView_addr (child : HMatrix T) (o : View) (r c : Int) :
    (childView child o).addr r c = o.addr r c := by
  unfold childView View.addr
  simp only
  ring

theorem View.addr_inj (v : View) (hld : v.rowIndexSet_.size ≤ v.lDim_) {r c r2 c2 : Int}
    (hr : v.rowIndexSet_.contains r) (hr2 : v.rowIndexSet_.contains r2)
    (heq : v.addr r c = v.addr r2 c2) : r = r2 ∧ c = c2 := by
  unfold IndexSet.contains at hr hr2
  unfold View.addr at heq
  have := stride_inj hld (r - v.rowIndexSet_.offset) (c - v.colIndexSet_.offset)
    (r2 - v.rowIndexSet_.offset) (c2 - v.colIndexSet_.offset)
    (by omega) (by omega) (by omega) (by omega) (by omega)
  omega

mutual
/-- What the recursion of the range query does to the target buffer: every
position of the view gets the value the tree holds there, or keeps its
content when the tree holds none, and nothing else is written. -/
theorem getValuesImpl_spec [Semiring T] : ∀ (m : HMatrix T) (v : View),
    0 ≤ v.rowIndexSet_.size → 0 ≤ v.colIndexSet_.size →
    v.rowIndexSet_.isSubset m.rows.toIndexSet → v.colIndexSet_.isSubset m.cols.toIndexSet →
    v.rowIndexSet_.size ≤ v.lDim_ → ∀ buf : Int → T,
    ∃ out, getValuesImpl UncompressedBlock.getValues m v buf = .ok out ∧
      (∀ r c : Int, v.rowIndexSet_.contains r → v.colIndexSet_.contains c →
        out (v.addr r c) = (m.entry? r c).getD (buf (v.addr r c))) ∧
      (∀ p, (∀ r c : Int, v.rowIndexSet_.contains r → v.colIndexSet_.contains c →
        p ≠ v.addr r c) → out p = buf p)
  | .internal rows cols children, v, hr, hc, _, _, hld, buf => by
    by_cases hempty : v.rowIndexSet_.size = 0 ∨ v.colIndexSet_.size = 0
    · refine ⟨buf, by simp [getValuesImpl, hempty], ?_, fun _ _ => rfl⟩
      intro r c hr' hc'
      rcases hempty with h | h
      · exact absurd hr' (IndexSet.not_contains_of_size_zero _ h r)
      · exact absurd hc' (IndexSet.not_contains_of_size_zero _ h c)
    · obtain ⟨out, h1, h2, h3⟩ := childrenLoop_spec children v hr hc hld buf
      exact ⟨out, by simp [getValuesImpl, hempty, h1], h2, h3⟩
  | .null rows cols, v, hr, hc, hrs, hcs, hld, buf => by
    by_cases hempty : v.rowIndexSet_.size = 0 ∨ v.colIndexSet_.size = 0
    · refine ⟨buf, by simp [getValuesImpl, hempty], ?_, fun _ _ => rfl⟩
      intro r c hr' hc'
      rcases hempty with h | h
      · exact absurd hr' (IndexSet.not_contains_of_size_zero _ h r)
      · exact absurd hc' (IndexSet.not_contains_of_size_zero _ h c)
    · obtain ⟨out, h1, h2, h3⟩ := leaf_getValues_spec (.null rows cols) rfl v
        (by omega) (by omega) hrs hcs hld buf
      refine ⟨out, by simp [getValuesImpl, hempty, h1], ?_, h3⟩
      intro r c hr' hc'
      rw [h2 r c hr' hc']
      rfl
  | .full rows cols f, v, hr, hc, hrs, hcs, hld, buf => by
    by_cases hempty : v.rowIndexSet_.size = 0 ∨ v.colIndexSet_.size = 0
    · refine ⟨buf, by simp [getValuesImpl, hempty], ?_, fun _ _ => rfl⟩
      intro r c hr' hc'
      rcases hempty with h | h
      · exact absurd hr' (IndexSet.not_contains_of_size_zero _ h r)
      · exact absurd hc' (IndexSet.not_contains_of_size_zero _ h c)
    · obtain ⟨out, h1, h2, h3⟩ := leaf_getValues_spec (.full rows cols f) rfl v
        (by omega) (by omega) hrs hcs hld buf
      refine ⟨out, by simp [getValuesImpl, hempty, h1], ?_, h3⟩
      intro r c hr' hc'
      rw [h2 r c hr' hc']
      rfl
  | .rk rows cols rank k, v, hr, hc, hrs, hcs, hld, buf => by
    by_cases hempty : v.rowIndexSet_.size = 0 ∨ v.colIndexSet_.size = 0
    · refine ⟨buf, by simp [getValuesImpl, hempty], ?_, fun _ _ => rfl⟩
      intro r c hr' hc'
      rcases hempty with h | h
      · exact absurd hr' (IndexSet.not_contains_of_size_zero _ h r)
      · exact absurd hc' (IndexSet.not_contains_of_size_zero _ h c)
    · obtain ⟨out, h1, h2, h3⟩ := leaf_getValues_spec (.rk rows cols rank k) rfl v
        (by omega) (by omega) hrs hcs hld buf
      refine ⟨out, by simp [getValuesImpl, hempty, h1], ?_, h3⟩
      intro r c hr' hc'
      rw [h2 r c hr' hc']
      rfl
/-- The same for the loop over the children of a node. -/
theorem childrenLoop_spec [Semiring T] : ∀ (children : List (HMatrix T)) (o : View),
    0 ≤ o.rowIndexSet_.size → 0 ≤ o.colIndexSet_.size →
    o.rowIndexSet_.size ≤ o.lDim_ → ∀ buf : Int → T,
    ∃ out, childrenLoop UncompressedBlock.getValues children o buf = .ok out ∧
      (∀ r c : Int, o.rowIndexSet_.contains r → o.colIndexSet_.contains c →
        out (o.addr r c) = (entryOfList? children r c).getD (buf (o.addr r c))) ∧
      (∀ p, (∀ r c : Int, o.rowIndexSet_.contains r → o.colIndexSet_.contains c →
        p ≠ o.addr r c) → out p = buf p)
  | [], o, _, _, _, buf => ⟨buf, rfl, fun _ _ _ _ => rfl, fun _ _ => rfl⟩
  | child :: rest, o, hr, hc, hld, buf => by
    have hwr : (childView child o).rowIndexSet_.size ≤ o.rowIndexSet_.size :=
      IndexSet.intersection_size_le _ _ hr
    obtain ⟨out1, h1, h2, h3⟩ := getValuesImpl_spec child (childView child o)
      (IndexSet.intersection_size_nonneg _ _) (IndexSet.intersection_size_nonneg _ _)
      (IndexSet.intersection_subset_right _ _) (IndexSet.intersection_subset_right _ _)
      (show (childView child o).rowIndexSet_.size ≤ o.lDim_ by omega) buf
    obtain ⟨out, g1, g2, g3⟩ := childrenLoop_spec rest o hr hc hld out1
    have hmemr : ∀ r, (childView child o).rowIndexSet_.contains r
        ↔ o.rowIndexSet_.contains r ∧ child.rows.toIndexSet.contains r :=
      fun r => IndexSet.mem_intersection _ _ r
    have hmemc : ∀ c, (childView child o).colIndexSet_.contains c
        ↔ o.colIndexSet_.contains c ∧ child.cols.toIndexSet.contains c :=
      fun c => IndexSet.mem_intersection _ _ c
    refine ⟨out, by simp [childrenLoop, h1, g1], ?_, ?_⟩
    · intro r c hr' hc'
      rw [g2 r c hr' hc']
      simp only [entryOfList?]
      cases hrest : entryOfList? rest r c with
      | some x => rfl
      | none =>
        simp only [Option.getD_none]
        by_cases hcp : child.containsPos r c
        · rw [if_pos hcp]
          have := h2 r c ((hmemr r).2 ⟨hr', hcp.1⟩) ((hmemc c).2 ⟨hc', hcp.2⟩)
          rw [childView_addr] at this
          exact this
        · rw [if_neg hcp]
          simp only [Option.getD_none]
          apply h3
          intro r2 c2 hr2 hc2 heq
          rw [childView_addr] at heq
          have hr2' := (hmemr r2).1 hr2
          have hc2' := (hmemc c2).1 hc2
          obtain ⟨e1, e2⟩ := View.addr_inj o hld hr' hr2'.1 heq
          subst e1; subst e2
          exact hcp ⟨hr2'.2, hc2'.2⟩
    · intro p hp
      rw [g3 p hp]
      apply h3
      intro r c hr' hc'
      rw [childView_addr]
      exact hp r c ((hmemr r).1 hr').1 ((hmemc c).1 hc').1
end

end Traversal
end hmat
namespace hmat
section Shape
variable {T : Type}

theorem IndexSet.contains_of_isSubset {a b : IndexSet} (h : a.isSubset b) {i : Int}
    (hi : a.contains i) : b.contains i := by
  unfold IndexSet.isSubset at h
  unfold IndexSet.contains at hi ⊢
  omega

theorem shaped_internal (ok : Nat → Bool) (rows cols : ClusterData)
    (children : List (HMatrix T)) :
    (HMatrix.internal rows cols children).shaped ok = true ↔
      (∀ child ∈ children, child.rows.toIndexSet.isSubset rows.toIndexSet
        ∧ child.cols.toIndexSet.isSubset cols.toIndexSet) ∧
      (∀ p ∈ positions rows.toIndexSet cols.toIndexSet, ok (holders children p) = true) ∧
      shapedList ok children = true := by
  simp only [HMatrix.shaped, Bool.and_eq_true, List.all_eq_true, decide_eq_true_eq, and_assoc]

theorem shapedList_cons (ok : Nat → Bool) (child : HMatrix T) (rest : List (HMatrix T)) :
    shapedList ok (child :: rest) = true ↔ child.shaped ok = true ∧ shapedList ok rest = true := by
  simp only [shapedList, Bool.and_eq_true]

theorem mem_positions {rows cols : IndexSet} {r c : Int} (hr : rows.contains r)
    (hc : cols.contains c) : (r, c) ∈ positions rows cols := by
  unfold IndexSet.contains at hr hc
  unfold positions
  simp only [List.mem_flatMap, List.mem_map, List.mem_range, Prod.mk.injEq]
  exact ⟨(r - rows.offset).toNat, by omega, (c - cols.offset).toNat, by omega, by omega, by omega⟩

theorem holders_cons (child : HMatrix T) (rest : List (HMatrix T)) (p : Int × Int) :
    holders (child :: rest) p = holders rest p + (if child.containsPos p.1 p.2 then 1 else 0) := by
  unfold holders
  rw [List.countP_cons]
  simp only [decide_eq_true_eq]

theorem holders_pos {children : List (HMatrix T)} {p : Int × Int} {child : HMatrix T}
    (hmem : child ∈ children) (hc : child.containsPos p.1 p.2) : 0 < holders children p := by
  unfold holders
  rw [List.countP_pos_iff]
  exact ⟨child, hmem, by simpa using hc⟩

theorem exists_of_holders_pos {children : List (HMatrix T)} {p : Int × Int}
    (h : 0 < holders children p) : ∃ child ∈ children, child.containsPos p.1 p.2 := by
  unfold holders at h
  rw [List.countP_pos_iff] at h
  obtain ⟨child, hmem, hc⟩ := h
  exact ⟨child, hmem, by simpa using hc⟩

theorem entryOfList?_none [Semiring T] (children : List (HMatrix T)) (r c : Int)
    (h : holders children (r, c) = 0) : entryOfList? children r c = none := by
  induction children with
  | nil => rfl
  | cons child rest ih =>
    rw [holders_cons] at h
    have h1 : holders rest (r, c) = 0 := by omega
    have h2 : ¬ child.containsPos r c := by
      intro hc
      simp only [hc, if_true] at h
      omega
    simp only [entryOfList?, ih h1, if_neg h2]

theorem shaped_mono {ok ok2 : Nat → Bool} (h : ∀ n, ok n = true → ok2 n = true) :
    (∀ m : HMatrix T, m.shaped ok = true → m.shaped ok2 = true) ∧
    (∀ cs : List (HMatrix T), shapedList ok cs = true → shapedList ok2 cs = true) := by
  have key : ∀ n : Nat, (∀ m : HMatrix T, sizeOf m < n → m.shaped ok = true → m.shaped ok2 = true) ∧
      (∀ cs : List (HMatrix T), sizeOf cs < n → shapedList ok cs = true →
        shapedList ok2 cs = true) := by
    intro n
    induction n with
    | zero => exact ⟨fun _ h => absurd h (by omega), fun _ h => absurd h (by omega)⟩
    | succ n ih =>
      constructor
      · intro m hm hs
        cases m with
        | internal rows cols cs =>
          rw [shaped_internal] at hs ⊢
          refine ⟨hs.1, fun p hp => h _ (hs.2.1 p hp), ih.2 cs ?_ hs.2.2⟩
          simp only [HMatrix.internal.sizeOf_spec] at hm
          omega
        | null rows cols => rfl
        | full rows cols f => rfl
        | rk rows cols rank k => rfl
      · intro cs hcs hs
        cases cs with
        | nil => rfl
        | cons child rest =>
          rw [shapedList_cons] at hs ⊢
          simp only [List.cons.sizeOf_spec] at hcs
          exact ⟨ih.1 child (by omega) hs.1, ih.2 rest (by omega) hs.2⟩
  exact ⟨fun m => (key _).1 m (Nat.lt_succ_self _), fun cs => (key _).2 cs (Nat.lt_succ_self _)⟩

mutual
/-- In a shaped tree a leaf lies inside the extent of every node above it. -/
theorem leaf_inside (ok : Nat → Bool) : ∀ (m : HMatrix T), m.shaped ok = true →
    ∀ l ∈ m.leaves, ∀ r c : Int, l.containsPos r c → m.containsPos r c
  | .internal rows cols children, hs, l, hl, r, c, hc => by
    rw [shaped_internal] at hs
    obtain ⟨child, hmem, hcc⟩ := leaf_inside_list ok children hs.2.2 l hl r c hc
    have hsub := hs.1 child hmem
    exact ⟨IndexSet.contains_of_isSubset hsub.1 hcc.1, IndexSet.contains_of_isSubset hsub.2 hcc.2⟩
  | .null rows cols, _, l, hl, r, c, hc => by
    simp only [HMatrix.leaves, List.mem_singleton] at hl
    subst hl; exact hc
  | .full rows cols f, _, l, hl, r, c, hc => by
    simp only [HMatrix.leaves, List.mem_singleton] at hl
    subst hl; exact hc
  | .rk rows cols rank k, _, l, hl, r, c, hc => by
    simp only [HMatrix.leaves, List.mem_singleton] at hl
    subst hl; exact hc
/-- A leaf below a list of shaped trees lies inside one of them. -/
theorem leaf_inside_list (ok : Nat → Bool) : ∀ (children : List (HMatrix T)),
    shapedList ok children = true →
    ∀ l ∈ leavesOfList children, ∀ r c : Int, l.containsPos r c →
      ∃ child ∈ children, child.containsPos r c
  | [], _, l, hl, _, _, _ => by simp [leavesOfList] at hl
  | child :: rest, hs, l, hl, r, c, hc => by
    rw [shapedList_cons] at hs
    simp only [leavesOfList, List.mem_append] at hl
    rcases hl with hl | hl
    · exact ⟨child, List.mem_cons_self _ _, leaf_inside ok child hs.1 l hl r c hc⟩
    · obtain ⟨ch, hmem, hcc⟩ := leaf_inside_list ok rest hs.2 l hl r c hc
      exact ⟨ch, List.mem_cons_of_mem _ hmem, hcc⟩
end

end Shape
end hmat
namespace hmat
section Lookup
variable {T : Type}

mutual
/-- In a tree with disjoint children, the value held at a position of a
leaf is the entry of that leaf. -/
theorem entry?_of_leaf [Semiring T] (ok : Nat → Bool) (hok : ∀ n, ok n = true → n ≤ 1) :
    ∀ (m : HMatrix T), m.shaped ok = true → ∀ l ∈ m.leaves, ∀ r c : Int,
      l.containsPos r c → m.entry? r c = some (leafEntry l r c)
  | .internal rows cols children, hs, l, hl, r, c, hc => by
    have hin := leaf_inside ok (.internal rows cols children) hs l hl r c hc
    rw [shaped_internal] at hs
    have hcount := hok _ (hs.2.1 (r, c) (mem_positions hin.1 hin.2))
    exact entryOfList?_of_leaf ok hok children hs.2.2 l hl r c hc hcount
  | .null rows cols, _, l, hl, r, c, _ => by
    simp only [HMatrix.leaves, List.mem_singleton] at hl
    subst hl; rfl
  | .full rows cols f, _, l, hl, r, c, _ => by
    simp only [HMatrix.leaves, List.mem_singleton] at hl
    subst hl; rfl
  | .rk rows cols rank k, _, l, hl, r, c, _ => by
    simp only [HMatrix.leaves, List.mem_singleton] at hl
    subst hl; rfl
/-- The same for the children of a node. -/
theorem entryOfList?_of_leaf [Semiring T] (ok : Nat → Bool) (hok : ∀ n, ok n = true → n ≤ 1) :
    ∀ (children : List (HMatrix T)), shapedList ok children = true →
      ∀ l ∈ leavesOfList children, ∀ r c : Int, l.containsPos r c →
      holders children (r, c) ≤ 1 → entryOfList? children r c = some (leafEntry l r c)
  | [], _, l, hl, _, _, _, _ => by simp [leavesOfList] at hl
  | child :: rest, hs, l, hl, r, c, hc, hcount => by
    rw [shapedList_cons] at hs
    rw [holders_cons] at hcount
    simp only [leavesOfList, List.mem_append] at hl
    rcases hl with hl | hl
    · have hcc : child.containsPos r c := leaf_inside ok child hs.1 l hl r c hc
      simp only [hcc, if_true] at hcount
      have hnone := entryOfList?_none rest r c (by omega)
      simp only [entryOfList?, hnone, if_pos hcc]
      exact entry?_of_leaf ok hok child hs.1 l hl r c hc
    · have := entryOfList?_of_leaf ok hok rest hs.2 l hl r c hc (by omega)
      simp only [entryOfList?, this]
end

mutual
/-- In a tree whose children cover their father, every position of the
extent lies in a leaf. -/
theorem exists_leaf (ok : Nat → Bool) (hok : ∀ n, ok n = true → 1 ≤ n) :
    ∀ (m : HMatrix T), m.shaped ok = true → ∀ r c : Int, m.containsPos r c →
      ∃ l ∈ m.leaves, l.containsPos r c
  | .internal rows cols children, hs, r, c, hc => by
    rw [shaped_internal] at hs
    have hcount := hok _ (hs.2.1 (r, c) (mem_positions hc.1 hc.2))
    obtain ⟨child, hmem, hcc⟩ := exists_of_holders_pos (show 0 < holders children (r, c) by omega)
    exact exists_leaf_list ok hok children hs.2.2 r c child hmem hcc
  | .null rows cols, _, r, c, hc => ⟨_, by simp [HMatrix.leaves], hc⟩
  | .full rows cols f, _, r, c, hc => ⟨_, by simp [HMatrix.leaves], hc⟩
  | .rk rows cols rank k, _, r, c, hc => ⟨_, by simp [HMatrix.leaves], hc⟩
/-- The same for the children of a node. -/
theorem exists_leaf_list (ok : Nat → Bool) (hok : ∀ n, ok n = true → 1 ≤ n) :
    ∀ (children : List (HMatrix T)), shapedList ok children = true → ∀ r c : Int,
      ∀ child ∈ children, child.containsPos r c →
      ∃ l ∈ leavesOfList children, l.containsPos r c
  | [], _, _, _, child, hmem, _ => by simp at hmem
  | first :: rest, hs, r, c, child, hmem, hcc => by
    rw [shapedList_cons] at hs
    simp only [List.mem_cons] at hmem
    rcases hmem with hmem | hmem
    · subst hmem
      obtain ⟨l, hl, hlc⟩ := exists_leaf ok hok child hs.1 r c hcc
      exact ⟨l, by simp only [leavesOfList, List.mem_append]; exact Or.inl hl, hlc⟩
    · obtain ⟨l, hl, hlc⟩ := exists_leaf_list ok hok rest hs.2 r c child hmem hcc
      exact ⟨l, by simp only [leavesOfList, List.mem_append]; exact Or.inr hl, hlc⟩
end

mutual
/-- In a tree with disjoint children, a position lies in at most one leaf. -/
theorem leaf_unique (ok : Nat → Bool) (hok : ∀ n, ok n = true → n ≤ 1) :
    ∀ (m : HMatrix T), m.shaped ok = true → ∀ l ∈ m.leaves, ∀ l2 ∈ m.leaves, ∀ r c : Int,
      l.containsPos r c → l2.containsPos r c → l2 = l
  | .internal rows cols children, hs, l, hl, l2, hl2, r, c, hc, hc2 => by
    have hin := leaf_inside ok (.internal rows cols children) hs l hl r c hc
    rw [shaped_internal] at hs
    have hcount := hok _ (hs.2.1 (r, c) (mem_positions hin.1 hin.2))
    exact leaf_unique_list ok hok children hs.2.2 l hl l2 hl2 r c hc hc2 hcount
  | .null rows cols, _, l, hl, l2, hl2, _, _, _, _ => by
    simp only [HMatrix.leaves, List.mem_singleton] at hl hl2
    rw [hl, hl2]
  | .full rows cols f, _, l, hl, l2, hl2, _, _, _, _ => by
    simp only [HMatrix.leaves, List.mem_singleton] at hl hl2
    rw [hl, hl2]
  | .rk rows cols rank k, _, l, hl, l2, hl2, _, _, _, _ => by
    simp only [HMatrix.leaves, List.mem_singleton] at hl hl2
    rw [hl, hl2]
/-- The same for the children of a node. -/
theorem leaf_unique_list (ok : Nat → Bool) (hok : ∀ n, ok n = true → n ≤ 1) :
    ∀ (children : List (HMatrix T)), shapedList ok children = true →
      ∀ l ∈ leavesOfList children, ∀ l2 ∈ leavesOfList children, ∀ r c : Int,
      l.containsPos r c → l2.containsPos r c → holders children (r, c) ≤ 1 → l2 = l
  | [], _, l, hl, _, _, _, _, _, _, _ => by simp [leavesOfList] at hl
  | child :: rest, hs, l, hl, l2, hl2, r, c, hc, hc2, hcount => by
    rw [shapedList_cons] at hs
    rw [holders_cons] at hcount
    simp only [leavesOfList, List.mem_append] at hl hl2
    have hrestpos : ∀ x ∈ leavesOfList rest, x.containsPos r c → 0 < holders rest (r, c) := by
      intro x hx hxc
      obtain ⟨ch, hmem, hcc⟩ := leaf_inside_list ok rest hs.2 x hx r c hxc
      exact holders_pos hmem hcc
    have hchild : ∀ x ∈ child.leaves, x.containsPos r c →
        (if child.containsPos (r, c).1 (r, c).2 then 1 else 0) = 1 := by
      intro x hx hxc
      have := leaf_inside ok child hs.1 x hx r c hxc
      simp only [this, if_true]
    rcases hl with hl | hl <;> rcases hl2 with hl2 | hl2
    · exact leaf_unique ok hok child hs.1 l hl l2 hl2 r c hc hc2
    · have h1 := hchild l hl hc
      have h2 := hrestpos l2 hl2 hc2
      omega
    · have h1 := hchild l2 hl2 hc2
      have h2 := hrestpos l hl hc
      omega
    · exact leaf_unique_list ok hok rest hs.2 l hl l2 hl2 r c hc hc2 (by omega)
end

mutual
/-- A value held by the tree at a position comes from a leaf. -/
theorem leaf_of_entry? [Semiring T] : ∀ (m : HMatrix T) (r c : Int) (x : T),
    m.containsPos r c → m.entry? r c = some x →
      ∃ l ∈ m.leaves, l.containsPos r c ∧ x = leafEntry l r c
  | .internal rows cols children, r, c, x, _, he => by
    simp only [HMatrix.entry?] at he
    exact leaf_of_entryOfList? children r c x he
  | .null rows cols, r, c, x, hc, he => by
    simp only [HMatrix.entry?, Option.some.injEq] at he
    exact ⟨_, by simp [HMatrix.leaves], hc, he.symm⟩
  | .full rows cols f, r, c, x, hc, he => by
    simp only [HMatrix.entry?, Option.some.injEq] at he
    exact ⟨_, by simp [HMatrix.leaves], hc, he.symm⟩
  | .rk rows cols rank k, r, c, x, hc, he => by
    simp only [HMatrix.entry?, Option.some.injEq] at he
    exact ⟨_, by simp [HMatrix.leaves], hc, he.symm⟩
/-- The same for the children of a node. -/
theorem leaf_of_entryOfList? [Semiring T] : ∀ (children : List (HMatrix T)) (r c : Int) (x : T),
    entryOfList? children r c = some x →
      ∃ l ∈ leavesOfList children, l.containsPos r c ∧ x = leafEntry l r c
  | [], _, _, _, he => by simp [entryOfList?] at he
  | child :: rest, r, c, x, he => by
    simp only [entryOfList?] at he
    cases hrest : entryOfList? rest r c with
    | some y =>
      rw [hrest] at he
      simp only [Option.some.injEq] at he
      subst he
      obtain ⟨l, hl, hlc, hx⟩ := leaf_of_entryOfList? rest r c y hrest
      exact ⟨l, by simp only [leavesOfList, List.mem_append]; exact Or.inr hl, hlc, hx⟩
    | none =>
      rw [hrest] at he
      simp only at he
      by_cases hcc : child.containsPos r c
      · rw [if_pos hcc] at he
        obtain ⟨l, hl, hlc, hx⟩ := leaf_of_entry? child r c x hcc he
        exact ⟨l, by simp only [leavesOfList, List.mem_append]; exact Or.inl hl, hlc, hx⟩
      · rw [if_neg hcc] at he
        exact absurd he (by simp)
end

end Lookup
end hmat
namespace hmat
section Claims
variable {T : Type}

theorem coversDisjointly_stores (m : HMatrix T) (h : m.coversDisjointly = true) :
    m.storesDisjointly = true :=
  (shaped_mono (fun n hn => by simp only [beq_iff_eq] at hn; simp [hn])).1 m h

theorem storesDisjointly_nested (m : HMatrix T) (h : m.storesDisjointly = true) :
    m.nested = true :=
  (shaped_mono (fun _ _ => rfl)).1 m h

/-- The range query run from the root: the call returns, each position of
the query holds the value the tree holds there or its former content, and
the rest of the buffer is as before. -/
theorem uncompress_spec [Semiring T] (root : HMatrix T) (rows cols : IndexSet) (values ld : Int)
    (buf : Int → T) (hrows : rows.isSubset root.rows.toIndexSet)
    (hcols : cols.isSubset root.cols.toIndexSet) (hr : 0 ≤ rows.size) (hc : 0 ≤ cols.size)
    (hld : rows.size ≤ ld) :
    ∃ out, UncompressedBlock.uncompress root rows cols values ld buf = .ok out ∧
      (∀ i j : Int, 0 ≤ i → i < rows.size → 0 ≤ j → j < cols.size →
        out (values + (i + ld * j))
          = (root.entry? (rows.offset + i) (cols.offset + j)).getD (buf (values + (i + ld * j)))) ∧
      (∀ p, (∀ i j : Int, 0 ≤ i → i < rows.size → 0 ≤ j → j < cols.size →
        p ≠ values + (i + ld * j)) → out p = buf p) := by
  have hne : ld ≠ -1 := by omega
  have hv : UncompressedBlock.rootView rows cols values ld = ⟨rows, cols, values, ld⟩ := by
    simp [UncompressedBlock.rootView, hne]
  obtain ⟨out, h1, h2, h3⟩ := getValuesImpl_spec root ⟨rows, cols, values, ld⟩ hr hc hrows hcols
    hld buf
  refine ⟨out, by rw [UncompressedBlock.uncompress, hv]; exact h1, ?_, ?_⟩
  · intro i j hi hi' hj hj'
    have := h2 (rows.offset + i) (cols.offset + j) (by unfold IndexSet.contains; simp; omega)
      (by unfold IndexSet.contains; simp; omega)
    simp only [View.addr, add_sub_cancel_left] at this
    rw [← add_assoc]
    exact this
  · intro p hp
    apply h3
    intro r c hr' hc'
    unfold IndexSet.contains at hr' hc'
    simp only at hr' hc'
    have := hp (r - rows.offset) (c - cols.offset) (by omega) (by omega) (by omega) (by omega)
    simp only [View.addr]
    rw [← add_assoc] at this
    exact this

/-- C1: range query correctness.  For every matrix tree in which each
Internal node's children cover its extent disjointly, and every row range
and column range contained in the root's extent, the range query with a
leading dimension `ld >= rows.size` returns, and for every `i < rows.size`
and `j < cols.size` the buffer entry `values[i + ld*j]` is the entry, at the
internal position `(rows.offset + i, cols.offset + j)`, of the unique leaf
that contains this position (0 for Null, the stored dense value for Full,
the sum over `k < rank` of `a[r,k] * b[c,k]` for LowRank). -/
theorem range_query_correct [Semiring T] (root : HMatrix T) (rows cols : IndexSet)
    (values ld : Int) (buf : Int → T) (hcover : root.coversDisjointly = true)
    (hrows : rows.isSubset root.rows.toIndexSet) (hcols : cols.isSubset root.cols.toIndexSet)
    (hr : 0 ≤ rows.size) (hc : 0 ≤ cols.size) (hld : rows.size ≤ ld) :
    ∃ out, UncompressedBlock.uncompress root rows cols values ld buf = .ok out ∧
      ∀ i j : Int, 0 ≤ i → i < rows.size → 0 ≤ j → j < cols.size →
        ∃ l ∈ root.leaves, l.containsPos (rows.offset + i) (cols.offset + j) ∧
          (∀ l2 ∈ root.leaves, l2.containsPos (rows.offset + i) (cols.offset + j) → l2 = l) ∧
          out (values + (i + ld * j)) = leafEntry l (rows.offset + i) (cols.offset + j) := by
  obtain ⟨out, h1, h2, _⟩ := uncompress_spec root rows cols values ld buf hrows hcols hr hc hld
  refine ⟨out, h1, ?_⟩
  intro i j hi hi' hj hj'
  have hstore := coversDisjointly_stores root hcover
  have hpos : root.containsPos (rows.offset + i) (cols.offset + j) := by
    unfold IndexSet.isSubset at hrows hcols
    unfold HMatrix.containsPos IndexSet.contains
    omega
  obtain ⟨l, hl, hlc⟩ := exists_leaf _ (fun n hn => by simp only [beq_iff_eq] at hn; omega)
    root hcover _ _ hpos
  refine ⟨l, hl, hlc, ?_, ?_⟩
  · intro l2 hl2 hl2c
    exact leaf_unique _ (fun n hn => by simpa using hn) root hstore l hl l2 hl2 _ _ hlc hl2c
  · rw [h2 i j hi hi' hj hj',
      entry?_of_leaf _ (fun n hn => by simpa using hn) root hstore l hl _ _ hlc]
    rfl

theorem range_query_correct_witness :
    ∃ out, UncompressedBlock.uncompress exampleTree ⟨0, 2⟩ ⟨0, 2⟩ 0 3 (fun _ => -1) = .ok out ∧
      ∀ i j : Int, 0 ≤ i → i < 2 → 0 ≤ j → j < 2 →
        ∃ l ∈ exampleTree.leaves, l.containsPos (0 + i) (0 + j) ∧
          (∀ l2 ∈ exampleTree.leaves, l2.containsPos (0 + i) (0 + j) → l2 = l) ∧
          out (0 + (i + 3 * j)) = leafEntry l (0 + i) (0 + j) :=
  range_query_correct exampleTree ⟨0, 2⟩ ⟨0, 2⟩ 0 3 (fun _ => -1) (by decide) (by decide)
    (by decide) (by decide) (by decide) (by decide)

end Claims
end hmat
namespace hmat
section Claims2
variable {T : Type}

/-- A freshly constructed view of the scattered query, whose iterators were
never assigned, returns at once: nothing is written. -/
theorem getValues_unassigned [Semiring T] (rowsIndices colsIndices : List (Int × Int))
    (values ld : Int) (m : HMatrix T) (buf : Int → T) :
    UncompressedValues.getValues rowsIndices colsIndices values ld m ⟨none, none, none, none⟩ buf
      = .ok (⟨none, none, none, none⟩, buf) := by
  cases m <;> simp [UncompressedValues.getValues]

/-- The loop over the children of the scattered query leaves the buffer as it
was, whatever the children and the query. -/
theorem scattered_childrenLoop_writes_nothing [Semiring T]
    (rowsIndices colsIndices : List (Int × Int)) (values ld : Int) :
    ∀ (children : List (HMatrix T)) (qr qr2 : QueryRange) (buf out : Int → T),
      UncompressedValues.childrenLoop rowsIndices colsIndices values ld children qr buf
        = .ok (qr2, out) → out = buf
  | [], qr, qr2, buf, out, h => by
    simp only [UncompressedValues.childrenLoop, Except.ok.injEq, Prod.mk.injEq] at h
    exact h.2.symm
  | child :: rest, qr, qr2, buf, out, h => by
    simp only [UncompressedValues.childrenLoop] at h
    split at h
    · exact absurd h (by simp)
    · split at h
      · exact absurd h (by simp)
      · rw [getValues_unassigned] at h
        exact scattered_childrenLoop_writes_nothing rowsIndices colsIndices values ld rest _ qr2
          buf out h

/-- On an Internal root the scattered query writes nothing at all. -/
theorem scattered_internal_writes_nothing [Semiring T] (rows cols : ClusterData)
    (children : List (HMatrix T)) (fatherIsNull : Bool) (qrows : Int → Int) (rowSize : Int)
    (qcols : Int → Int) (colSize : Int) (values ld : Int) (buf out : Int → T)
    (h : UncompressedValues.uncompress (.internal rows cols children) fatherIsNull qrows rowSize
      qcols colSize values ld buf = .ok out) : out = buf := by
  unfold UncompressedValues.uncompress at h
  split at h
  · exact absurd h (by simp)
  · simp only [UncompressedValues.getValues] at h
    split at h
    · exact absurd h (by simp)
    · rename_i q b heq
      simp only [Except.ok.injEq] at h
      subst h
      split at heq
      · simp only [Except.ok.injEq, Prod.mk.injEq] at heq
        exact heq.2.symm
      · exact scattered_childrenLoop_writes_nothing _ _ _ _ children _ q buf b heq

/-- C2 (code as it is): on the 2 x 2 example tree, whose root is Internal,
the scattered query for the single external pair (1, 1), that is the
internal position (0, 0) where the tree stores 5, returns and leaves
`values[0]` at its former content -1. -/
theorem scattered_query_internal_root_unwritten :
    (∃ out, UncompressedValues.uncompress exampleTree true (fun _ => 1) 1 (fun _ => 1) 1 0 (-1)
        (fun _ => -1) = .ok out ∧ out 0 = -1) ∧
      exampleTree.entry? ((exampleCluster 0 2).indices_rev (1 - 1))
        ((exampleCluster 0 2).indices_rev (1 - 1)) = some 5 := by
  refine ⟨⟨_, rfl, ?_⟩, by decide⟩
  decide

end Claims2
end hmat
namespace hmat
section Claims3
variable {T : Type}

theorem IndexSet.isSubset_refl (a : IndexSet) : a.isSubset a := by
  unfold IndexSet.isSubset
  omega

/-- C3 (as stated, refuted): on the lower-symmetric 2 x 2 matrix that stores
5, 7 and 9 in its diagonal and lower blocks, the range query over the full
matrix leaves the upper-triangle position (0, 1) at the former content of the
buffer, here -1, while the mirrored position (1, 0) holds 7; with a Null leaf
standing for the upper block the position (0, 1) receives 0. -/
theorem symmetric_upper_not_mirrored :
    (∃ out, UncompressedBlock.uncompress symmetricTree ⟨0, 2⟩ ⟨0, 2⟩ 0 (-1) (fun _ => -1)
        = .ok out ∧ out (0 + 2 * 1) = -1 ∧ out (1 + 2 * 0) = 7 ∧ out (0 + 2 * 1) ≠ out (1 + 2 * 0)) ∧
    (∃ out, UncompressedBlock.uncompress symmetricTreeNull ⟨0, 2⟩ ⟨0, 2⟩ 0 (-1) (fun _ => -1)
        = .ok out ∧ out (0 + 2 * 1) = 0 ∧ out (1 + 2 * 0) = 7 ∧ out (0 + 2 * 1) ≠ out (1 + 2 * 0)) := by
  refine ⟨⟨_, rfl, ?_, ?_, ?_⟩, ⟨_, rfl, ?_, ?_, ?_⟩⟩ <;> decide

/-- C3 (amended): for a matrix whose stored blocks are disjoint parts of
their father, as when only the lower triangle and the diagonal are stored,
the range query over the full matrix returns; a position that lies in a
stored leaf receives the entry of that leaf, and a position that lies in no
stored leaf, such as an upper-triangle position whose block is not stored,
keeps the former content of the buffer: nothing is mirrored. -/
theorem symmetric_range_query [Semiring T] (root : HMatrix T) (values ld : Int)
    (buf : Int → T) (hstore : root.storesDisjointly = true)
    (hr : 0 ≤ root.rows.size) (hc : 0 ≤ root.cols.size) (hld : root.rows.size ≤ ld) :
    ∃ out, UncompressedBlock.uncompress root root.rows.toIndexSet root.cols.toIndexSet
        values ld buf = .ok out ∧
      ∀ i j : Int, 0 ≤ i → i < root.rows.size → 0 ≤ j → j < root.cols.size →
        (∀ l ∈ root.leaves, l.containsPos (root.rows.offset + i) (root.cols.offset + j) →
          out (values + (i + ld * j))
            = leafEntry l (root.rows.offset + i) (root.cols.offset + j)) ∧
        ((∀ l ∈ root.leaves, ¬ l.containsPos (root.rows.offset + i) (root.cols.offset + j)) →
          out (values + (i + ld * j)) = buf (values + (i + ld * j))) := by
  obtain ⟨out, h1, h2, _⟩ := uncompress_spec root root.rows.toIndexSet root.cols.toIndexSet
    values ld buf (IndexSet.isSubset_refl _) (IndexSet.isSubset_refl _) hr hc hld
  refine ⟨out, h1, ?_⟩
  intro i j hi hi' hj hj'
  have hpos : root.containsPos (root.rows.offset + i) (root.cols.offset + j) := by
    unfold HMatrix.containsPos IndexSet.contains
    omega
  constructor
  · intro l hl hlc
    rw [h2 i j hi hi' hj hj',
      entry?_of_leaf _ (fun n hn => by simpa using hn) root hstore l hl _ _ hlc]
    rfl
  · intro hnone
    rw [h2 i j hi hi' hj hj']
    cases he : root.entry? (root.rows.offset + i) (root.cols.offset + j) with
    | none => rfl
    | some x =>
      obtain ⟨l, hl, hlc, _⟩ := leaf_of_entry? root _ _ x hpos he
      exact absurd hlc (hnone l hl)

theorem symmetric_range_query_witness :
    ∃ out, UncompressedBlock.uncompress symmetricTree symmetricTree.rows.toIndexSet
        symmetricTree.cols.toIndexSet 0 2 (fun _ => -1) = .ok out ∧
      ∀ i j : Int, 0 ≤ i → i < symmetricTree.rows.size → 0 ≤ j → j < symmetricTree.cols.size →
        (∀ l ∈ symmetricTree.leaves,
          l.containsPos (symmetricTree.rows.offset + i) (symmetricTree.cols.offset + j) →
          out (0 + (i + 2 * j))
            = leafEntry l (symmetricTree.rows.offset + i) (symmetricTree.cols.offset + j)) ∧
        ((∀ l ∈ symmetricTree.leaves,
            ¬ l.containsPos (symmetricTree.rows.offset + i) (symmetricTree.cols.offset + j)) →
          out (0 + (i + 2 * j)) = (fun _ => (-1 : Int)) (0 + (i + 2 * j))) :=
  symmetric_range_query symmetricTree 0 2 (fun _ => -1) (by decide) (by decide) (by decide)
    (by decide)

end Claims3
end hmat
namespace hmat
section Claims4
variable {T : Type}

theorem runLeaves_append {σ : Type} (act : HMatrix T → View → σ → Except String σ)
    (a b : List (HMatrix T × View)) (s : σ) :
    runLeaves act (a ++ b) s
      = match runLeaves act a s with
        | .error e => .error e
        | .ok s1 => runLeaves act b s1 := by
  induction a generalizing s with
  | nil => rfl
  | cons x rest ih =>
    obtain ⟨m, v⟩ := x
    simp only [List.cons_append, runLeaves]
    cases act m v s with
    | error e => rfl
    | ok s1 => exact ih s1

mutual
/-- The recursion of the range query runs the leaf method on the entered
leaves, in their order, and does nothing else. -/
theorem getValuesImpl_eq_runLeaves {σ : Type} (act : HMatrix T → View → σ → Except String σ) :
    ∀ (m : HMatrix T) (v : View) (s : σ),
      getValuesImpl act m v s
        = runLeaves act ((enteredNodes m v).filter fun p => p.1.isLeaf) s
  | .internal rows cols children, v, s => by
    by_cases hempty : v.rowIndexSet_.size = 0 ∨ v.colIndexSet_.size = 0
    · simp [getValuesImpl, enteredNodes, hempty, runLeaves]
    · simp only [getValuesImpl, enteredNodes, hempty, if_false, List.filter_cons,
        HMatrix.isLeaf]
      exact childrenLoop_eq_runLeaves act children v s
  | .null rows cols, v, s => by
    by_cases hempty : v.rowIndexSet_.size = 0 ∨ v.colIndexSet_.size = 0
    · simp [getValuesImpl, enteredNodes, hempty, runLeaves]
    · simp only [getValuesImpl, enteredNodes, hempty, if_false, List.filter_cons,
        HMatrix.isLeaf, if_true, List.filter_nil, runLeaves]
      cases act (.null rows cols) v s <;> rfl
  | .full rows cols f, v, s => by
    by_cases hempty : v.rowIndexSet_.size = 0 ∨ v.colIndexSet_.size = 0
    · simp [getValuesImpl, enteredNodes, hempty, runLeaves]
    · simp only [getValuesImpl, enteredNodes, hempty, if_false, List.filter_cons,
        HMatrix.isLeaf, if_true, List.filter_nil, runLeaves]
      cases act (.full rows cols f) v s <;> rfl
  | .rk rows cols rank k, v, s => by
    by_cases hempty : v.rowIndexSet_.size = 0 ∨ v.colIndexSet_.size = 0
    · simp [getValuesImpl, enteredNodes, hempty, runLeaves]
    · simp only [getValuesImpl, enteredNodes, hempty, if_false, List.filter_cons,
        HMatrix.isLeaf, if_true, List.filter_nil, runLeaves]
      cases act (.rk rows cols rank k) v s <;> rfl
/-- The same for the loop over the children. -/
theorem childrenLoop_eq_runLeaves {σ : Type} (act : HMatrix T → View → σ → Except String σ) :
    ∀ (children : List (HMatrix T)) (o : View) (s : σ),
      childrenLoop act children o s
        = runLeaves act ((enteredChildren children o).filter fun p => p.1.isLeaf) s
  | [], _, _ => rfl
  | child :: rest, o, s => by
    simp only [childrenLoop, enteredChildren, List.filter_append, runLeaves_append]
    rw [getValuesImpl_eq_runLeaves act child (childView child o) s]
    cases runLeaves act ((enteredNodes child (childView child o)).filter fun p => p.1.isLeaf) s with
    | error e => rfl
    | ok s1 => exact childrenLoop_eq_runLeaves act rest o s1
end

theorem entered_self (m : HMatrix T) (v : View) (hr : v.rowIndexSet_.size ≠ 0)
    (hc : v.colIndexSet_.size ≠ 0) : (m, v) ∈ enteredNodes m v := by
  cases m <;> simp [enteredNodes, hr, hc]

theorem IndexSet.meets_of_meets_intersection {a b c : IndexSet}
    (h : (a.intersection b).meets c) : a.meets c := by
  unfold IndexSet.meets IndexSet.intersection at *
  simp only at *
  omega

theorem IndexSet.meets_of_subset {a n c : IndexSet} (h : a.meets n) (hs : n.isSubset c) :
    a.meets c ∧ (a.intersection c).meets n := by
  unfold IndexSet.meets IndexSet.intersection IndexSet.isSubset at *
  simp only at *
  omega

theorem IndexSet.isSubset_trans {a b c : IndexSet} (h1 : a.isSubset b) (h2 : b.isSubset c) :
    a.isSubset c := by
  unfold IndexSet.isSubset at *
  omega

mutual
/-- A node that is entered is the node the call starts from, or a node below
it whose rows and columns both meet the view; the view is not empty. -/
theorem entered_forward : ∀ (m : HMatrix T) (v : View) (n : HMatrix T) (w : View),
    (n, w) ∈ enteredNodes m v →
      (v.rowIndexSet_.size ≠ 0 ∧ v.colIndexSet_.size ≠ 0) ∧
      ((n = m ∧ w = v) ∨ (n ∈ m.descendants ∧ v.rowIndexSet_.meets n.rows.toIndexSet
        ∧ v.colIndexSet_.meets n.cols.toIndexSet))
  | .internal rows cols children, v, n, w, h => by
    by_cases hempty : v.rowIndexSet_.size = 0 ∨ v.colIndexSet_.size = 0
    · simp [enteredNodes, hempty] at h
    · simp only [enteredNodes, hempty, if_false, List.mem_cons, Prod.mk.injEq] at h
      refine ⟨by omega, ?_⟩
      rcases h with h | h
      · exact Or.inl h
      · exact Or.inr (entered_forward_list children v n w h)
  | .null rows cols, v, n, w, h => by
    by_cases hempty : v.rowIndexSet_.size = 0 ∨ v.colIndexSet_.size = 0
    · simp [enteredNodes, hempty] at h
    · simp only [enteredNodes, hempty, if_false, List.mem_singleton, Prod.mk.injEq] at h
      exact ⟨by omega, Or.inl h⟩
  | .full rows cols f, v, n, w, h => by
    by_cases hempty : v.rowIndexSet_.size = 0 ∨ v.colIndexSet_.size = 0
    · simp [enteredNodes, hempty] at h
    · simp only [enteredNodes, hempty, if_false, List.mem_singleton, Prod.mk.injEq] at h
      exact ⟨by omega, Or.inl h⟩
  | .rk rows cols rank k, v, n, w, h => by
    by_cases hempty : v.rowIndexSet_.size = 0 ∨ v.colIndexSet_.size = 0
    · simp [enteredNodes, hempty] at h
    · simp only [enteredNodes, hempty, if_false, List.mem_singleton, Prod.mk.injEq] at h
      exact ⟨by omega, Or.inl h⟩
/-- The same for the children of a node with view `o`. -/
theorem entered_forward_list : ∀ (children : List (HMatrix T)) (o : View) (n : HMatrix T)
    (w : View), (n, w) ∈ enteredChildren children o →
      n ∈ descendantsOfList children ∧ o.rowIndexSet_.meets n.rows.toIndexSet
        ∧ o.colIndexSet_.meets n.cols.toIndexSet
  | [], _, _, _, h => by simp [enteredChildren] at h
  | child :: rest, o, n, w, h => by
    simp only [enteredChildren, List.mem_append] at h
    simp only [descendantsOfList, List.mem_cons, List.mem_append]
    rcases h with h | h
    · obtain ⟨hne, hcase⟩ := entered_forward child (childView child o) n w h
      rcases hcase with ⟨hn, _⟩ | ⟨hd, hmr, hmc⟩
      · subst hn
        exact ⟨Or.inl rfl, hne.1, hne.2⟩
      · exact ⟨Or.inr (Or.inl hd), IndexSet.meets_of_meets_intersection hmr,
          IndexSet.meets_of_meets_intersection hmc⟩
    · obtain ⟨hd, hm⟩ := entered_forward_list rest o n w h
      exact ⟨Or.inr (Or.inr hd), hm⟩
end

mutual
/-- In a shaped tree every node lies inside the extent of the nodes above
it. -/
theorem descendant_inside (ok : Nat → Bool) : ∀ (m : HMatrix T), m.shaped ok = true →
    ∀ d ∈ m.descendants, d.rows.toIndexSet.isSubset m.rows.toIndexSet
      ∧ d.cols.toIndexSet.isSubset m.cols.toIndexSet
  | .internal rows cols children, hs, d, hd => by
    rw [shaped_internal] at hs
    obtain ⟨child, hmem, h1, h2⟩ := descendant_inside_list ok children hs.2.2 d hd
    have hsub := hs.1 child hmem
    exact ⟨IndexSet.isSubset_trans h1 hsub.1, IndexSet.isSubset_trans h2 hsub.2⟩
  | .null _ _, _, d, hd => by simp [HMatrix.descendants] at hd
  | .full _ _ _, _, d, hd => by simp [HMatrix.descendants] at hd
  | .rk _ _ _ _, _, d, hd => by simp [HMatrix.descendants] at hd
/-- The same for a list of trees. -/
theorem descendant_inside_list (ok : Nat → Bool) : ∀ (children : List (HMatrix T)),
    shapedList ok children = true → ∀ d ∈ descendantsOfList children,
      ∃ child ∈ children, d.rows.toIndexSet.isSubset child.rows.toIndexSet
        ∧ d.cols.toIndexSet.isSubset child.cols.toIndexSet
  | [], _, d, hd => by simp [descendantsOfList] at hd
  | child :: rest, hs, d, hd => by
    rw [shapedList_cons] at hs
    simp only [descendantsOfList, List.mem_cons, List.mem_append] at hd
    rcases hd with hd | hd | hd
    · subst hd
      exact ⟨d, List.mem_cons_self _ _, IndexSet.isSubset_refl _, IndexSet.isSubset_refl _⟩
    · exact ⟨child, List.mem_cons_self _ _, descendant_inside ok child hs.1 d hd⟩
    · obtain ⟨ch, hmem, h⟩ := descendant_inside_list ok rest hs.2 d hd
      exact ⟨ch, List.mem_cons_of_mem _ hmem, h⟩
end

mutual
/-- A node below a shaped tree is a shaped tree. -/
theorem descendant_shaped (ok : Nat → Bool) : ∀ (m : HMatrix T), m.shaped ok = true →
    ∀ d ∈ m.descendants, d.shaped ok = true
  | .internal rows cols children, hs, d, hd => by
    rw [shaped_internal] at hs
    exact descendant_shaped_list ok children hs.2.2 d hd
  | .null _ _, _, d, hd => by simp [HMatrix.descendants] at hd
  | .full _ _ _, _, d, hd => by simp [HMatrix.descendants] at hd
  | .rk _ _ _ _, _, d, hd => by simp [HMatrix.descendants] at hd
/-- The same for a list of trees. -/
theorem descendant_shaped_list (ok : Nat → Bool) : ∀ (children : List (HMatrix T)),
    shapedList ok children = true → ∀ d ∈ descendantsOfList children, d.shaped ok = true
  | [], _, d, hd => by simp [descendantsOfList] at hd
  | child :: rest, hs, d, hd => by
    rw [shapedList_cons] at hs
    simp only [descendantsOfList, List.mem_cons, List.mem_append] at hd
    rcases hd with hd | hd | hd
    · subst hd; exact hs.1
    · exact descendant_shaped ok child hs.1 d hd
    · exact descendant_shaped_list ok rest hs.2 d hd
end

mutual
/-- A node below another is smaller. -/
theorem descendant_sizeOf : ∀ (m : HMatrix T), ∀ d ∈ m.descendants, sizeOf d < sizeOf m
  | .internal rows cols children, d, hd => by
    have := descendant_sizeOf_list children d hd
    simp only [HMatrix.internal.sizeOf_spec]
    omega
  | .null _ _, d, hd => by simp [HMatrix.descendants] at hd
  | .full _ _ _, d, hd => by simp [HMatrix.descendants] at hd
  | .rk _ _ _ _, d, hd => by simp [HMatrix.descendants] at hd
/-- The same for a list of trees. -/
theorem descendant_sizeOf_list : ∀ (children : List (HMatrix T)),
    ∀ d ∈ descendantsOfList children, sizeOf d < sizeOf children
  | [], d, hd => by simp [descendantsOfList] at hd
  | child :: rest, d, hd => by
    simp only [descendantsOfList, List.mem_cons, List.mem_append] at hd
    simp only [List.cons.sizeOf_spec]
    rcases hd with hd | hd | hd
    · subst hd; omega
    · have := descendant_sizeOf child d hd; omega
    · have := descendant_sizeOf_list rest d hd; omega
end

mutual
/-- In a tree whose nodes lie inside their father, a node whose rows and
columns both meet a non-empty view is entered. -/
theorem entered_backward : ∀ (m : HMatrix T), m.nested = true → ∀ (v : View),
    v.rowIndexSet_.size ≠ 0 → v.colIndexSet_.size ≠ 0 → ∀ n ∈ m.descendants,
    v.rowIndexSet_.meets n.rows.toIndexSet → v.colIndexSet_.meets n.cols.toIndexSet →
      ∃ w, (n, w) ∈ enteredNodes m v
  | .internal rows cols children, hs, v, hr, hc, n, hn, hmr, hmc => by
    unfold HMatrix.nested at hs
    rw [shaped_internal] at hs
    obtain ⟨w, hw⟩ := entered_backward_list children hs.2.2 v n hn hmr hmc
    refine ⟨w, ?_⟩
    have hempty : ¬ (v.rowIndexSet_.size = 0 ∨ v.colIndexSet_.size = 0) := by omega
    simp only [enteredNodes, hempty, if_false, List.mem_cons]
    exact Or.inr hw
  | .null _ _, _, _, _, _, n, hn, _, _ => by simp [HMatrix.descendants] at hn
  | .full _ _ _, _, _, _, _, n, hn, _, _ => by simp [HMatrix.descendants] at hn
  | .rk _ _ _ _, _, _, _, _, n, hn, _, _ => by simp [HMatrix.descendants] at hn
/-- The same for the children of a node with view `o`. -/
theorem entered_backward_list : ∀ (children : List (HMatrix T)),
    shapedList (fun _ => true) children = true → ∀ (o : View), ∀ n ∈ descendantsOfList children,
    o.rowIndexSet_.meets n.rows.toIndexSet → o.colIndexSet_.meets n.cols.toIndexSet →
      ∃ w, (n, w) ∈ enteredChildren children o
  | [], _, _, n, hn, _, _ => by simp [descendantsOfList] at hn
  | child :: rest, hs, o, n, hn, hmr, hmc => by
    rw [shapedList_cons] at hs
    simp only [descendantsOfList, List.mem_cons, List.mem_append] at hn
    simp only [enteredChildren, List.mem_append]
    rcases hn with hn | hn | hn
    · subst hn
      exact ⟨childView n o, Or.inl (entered_self n (childView n o) hmr hmc)⟩
    · obtain ⟨h1, h2⟩ := descendant_inside _ child hs.1 n hn
      have hr := IndexSet.meets_of_subset hmr h1
      have hc := IndexSet.meets_of_subset hmc h2
      obtain ⟨w, hw⟩ := entered_backward child hs.1 (childView child o) hr.1 hc.1 n hn
        hr.2 hc.2
      exact ⟨w, Or.inl hw⟩
    · obtain ⟨w, hw⟩ := entered_backward_list rest hs.2 o n hn hmr hmc
      exact ⟨w, Or.inr hw⟩
end

/-- Outside the matrix the root is not tested: the query of row 5 on a 2 x 2
matrix that is a single Null leaf does not meet the rows `[0, 2)` of the
leaf, and yet the leaf is entered and its `getValues` writes `values[0]`.
The public `uncompress` takes the query as it is given; a query is meant to
lie inside the matrix. -/
theorem root_leaf_materialised_outside_extent :
    ¬ (IndexSet.mk 5 1).meets nullLeaf.rows.toIndexSet ∧
    (∃ w, (nullLeaf, w) ∈ enteredNodes nullLeaf (UncompressedBlock.rootView ⟨5, 1⟩ ⟨0, 1⟩ 0 (-1))) ∧
    (∃ out, UncompressedBlock.uncompress nullLeaf ⟨5, 1⟩ ⟨0, 1⟩ 0 (-1) (fun _ => 7) = .ok out
      ∧ out 0 = 0) := by
  refine ⟨by decide, ⟨UncompressedBlock.rootView ⟨5, 1⟩ ⟨0, 1⟩ 0 (-1), ?_⟩, ⟨_, rfl, by decide⟩⟩
  exact entered_self nullLeaf _ (by decide) (by decide)

/-- The nodes the range query enters, for any query: in a tree whose nodes
lie inside the extent of their father, the leaf method runs exactly on the
entered leaves; the root is entered if and only if the query has a non-zero
number of rows and of columns; a node below the root is entered if and only
if its rows and its columns both meet the query, and then so do those of
every node above it; nothing below a node under the root that the query does
not meet is entered. -/
theorem range_query_visits (root : HMatrix T) (rows cols : IndexSet) (values ld : Int)
    (hnested : root.nested = true) :
    (∀ (σ : Type) (act : HMatrix T → View → σ → Except String σ) (s : σ),
      getValuesImpl act root (UncompressedBlock.rootView rows cols values ld) s
        = runLeaves act
            ((enteredNodes root (UncompressedBlock.rootView rows cols values ld)).filter
              fun p => p.1.isLeaf) s) ∧
    ((∃ w, (root, w) ∈ enteredNodes root (UncompressedBlock.rootView rows cols values ld))
      ↔ rows.size ≠ 0 ∧ cols.size ≠ 0) ∧
    (∀ n ∈ root.descendants,
      ((∃ w, (n, w) ∈ enteredNodes root (UncompressedBlock.rootView rows cols values ld))
        ↔ rows.meets n.rows.toIndexSet ∧ cols.meets n.cols.toIndexSet)) ∧
    (∀ n ∈ root.descendants,
      (∃ w, (n, w) ∈ enteredNodes root (UncompressedBlock.rootView rows cols values ld)) →
      ∀ a ∈ root.descendants, n ∈ a.descendants →
        rows.meets a.rows.toIndexSet ∧ cols.meets a.cols.toIndexSet) ∧
    (∀ a ∈ root.descendants, ¬ (rows.meets a.rows.toIndexSet ∧ cols.meets a.cols.toIndexSet) →
      ∀ d ∈ a.descendants,
        ¬ ∃ w, (d, w) ∈ enteredNodes root (UncompressedBlock.rootView rows cols values ld)) := by
  have hfw : ∀ n ∈ root.descendants,
      (∃ w, (n, w) ∈ enteredNodes root (UncompressedBlock.rootView rows cols values ld)) →
        rows.meets n.rows.toIndexSet ∧ cols.meets n.cols.toIndexSet := by
    intro n hn ⟨w, hw⟩
    obtain ⟨_, hcase⟩ := entered_forward root _ n w hw
    rcases hcase with ⟨heq, _⟩ | ⟨_, hm⟩
    · have := descendant_sizeOf root n hn
      rw [heq] at this
      omega
    · exact hm
  have habove : ∀ n ∈ root.descendants,
      rows.meets n.rows.toIndexSet ∧ cols.meets n.cols.toIndexSet →
      ∀ a ∈ root.descendants, n ∈ a.descendants →
        rows.meets a.rows.toIndexSet ∧ cols.meets a.cols.toIndexSet := by
    intro n _ hm a ha hna
    have hsa := descendant_shaped _ root hnested a ha
    obtain ⟨h1, h2⟩ := descendant_inside _ a hsa n hna
    exact ⟨(IndexSet.meets_of_subset hm.1 h1).1, (IndexSet.meets_of_subset hm.2 h2).1⟩
  refine ⟨fun σ act s => getValuesImpl_eq_runLeaves act root _ s, ?_, ?_, ?_, ?_⟩
  · constructor
    · rintro ⟨w, hw⟩
      exact (entered_forward root _ root w hw).1
    · intro h
      exact ⟨_, entered_self root _ h.1 h.2⟩
  · intro n hn
    constructor
    · exact hfw n hn
    · intro hm
      have hr : rows.size ≠ 0 := by
        have := hm.1
        unfold IndexSet.meets IndexSet.intersection at this
        simp only at this
        omega
      have hc : cols.size ≠ 0 := by
        have := hm.2
        unfold IndexSet.meets IndexSet.intersection at this
        simp only at this
        omega
      exact entered_backward root hnested _ hr hc n hn hm.1 hm.2
  · intro n hn hent a ha hna
    exact habove n hn (hfw n hn hent) a ha hna
  · intro a ha hnot d hd hent
    have hsa := descendant_shaped _ root hnested a ha
    obtain ⟨w, hw⟩ := hent
    obtain ⟨_, hcase⟩ := entered_forward root _ d w hw
    rcases hcase with ⟨heq, _⟩ | ⟨_, hm⟩
    · have h1 := descendant_sizeOf root a ha
      have h2 := descendant_sizeOf a d hd
      rw [heq] at h2
      omega
    · obtain ⟨h1, h2⟩ := descendant_inside _ a hsa d hd
      exact hnot ⟨(IndexSet.meets_of_subset hm.1 h1).1, (IndexSet.meets_of_subset hm.2 h2).1⟩

theorem range_query_visits_witness :
    (∀ (σ : Type) (act : HMatrix Int → View → σ → Except String σ) (s : σ),
      getValuesImpl act exampleTree (UncompressedBlock.rootView ⟨1, 1⟩ ⟨0, 2⟩ 0 (-1)) s
        = runLeaves act
            ((enteredNodes exampleTree (UncompressedBlock.rootView ⟨1, 1⟩ ⟨0, 2⟩ 0 (-1))).filter
              fun p => p.1.isLeaf) s) ∧
    ((∃ w, (exampleTree, w) ∈ enteredNodes exampleTree
        (UncompressedBlock.rootView ⟨1, 1⟩ ⟨0, 2⟩ 0 (-1)))
      ↔ (IndexSet.mk 1 1).size ≠ 0 ∧ (IndexSet.mk 0 2).size ≠ 0) ∧
    (∀ n ∈ exampleTree.descendants,
      ((∃ w, (n, w) ∈ enteredNodes exampleTree (UncompressedBlock.rootView ⟨1, 1⟩ ⟨0, 2⟩ 0 (-1)))
        ↔ (IndexSet.mk 1 1).meets n.rows.toIndexSet ∧ (IndexSet.mk 0 2).meets n.cols.toIndexSet)) ∧
    (∀ n ∈ exampleTree.descendants,
      (∃ w, (n, w) ∈ enteredNodes exampleTree (UncompressedBlock.rootView ⟨1, 1⟩ ⟨0, 2⟩ 0 (-1))) →
      ∀ a ∈ exampleTree.descendants, n ∈ a.descendants →
        (IndexSet.mk 1 1).meets a.rows.toIndexSet ∧ (IndexSet.mk 0 2).meets a.cols.toIndexSet) ∧
    (∀ a ∈ exampleTree.descendants,
      ¬ ((IndexSet.mk 1 1).meets a.rows.toIndexSet ∧ (IndexSet.mk 0 2).meets a.cols.toIndexSet) →
      ∀ d ∈ a.descendants,
        ¬ ∃ w, (d, w) ∈ enteredNodes exampleTree
          (UncompressedBlock.rootView ⟨1, 1⟩ ⟨0, 2⟩ 0 (-1))) :=
  range_query_visits exampleTree ⟨1, 1⟩ ⟨0, 2⟩ 0 (-1) (by decide)

end Claims4
end hmat
namespace hmat
section Scatter
variable {T : Type}

theorem scatterInner_spec (C : List (Int × Int)) (adr : Int × Int → Int) (val : Int × Int → T)
    (hinj : ∀ c ∈ C, ∀ c2 ∈ C, adr c = adr c2 → c = c2) (buf : Int → T) :
    (∀ c ∈ C, C.foldl (fun b c => Function.update b (adr c) (val c)) buf (adr c) = val c) ∧
    (∀ p, (∀ c ∈ C, p ≠ adr c) →
      C.foldl (fun b c => Function.update b (adr c) (val c)) buf p = buf p) := by
  induction C generalizing buf with
  | nil => simp
  | cons c0 rest ih =>
    have ih2 := ih (fun c hc c2 hc2 => hinj c (List.mem_cons_of_mem _ hc) c2
      (List.mem_cons_of_mem _ hc2)) (Function.update buf (adr c0) (val c0))
    simp only [List.foldl_cons]
    constructor
    · intro c hc
      by_cases hmem : c ∈ rest
      · exact ih2.1 c hmem
      · have hc0 : c = c0 := by
          rcases List.mem_cons.1 hc with h | h
          · exact h
          · exact absurd h hmem
        subst hc0
        rw [ih2.2]
        · exact Function.update_same _ _ _
        · intro c2 hc2 heq
          have := hinj c (List.mem_cons_self _ _) c2 (List.mem_cons_of_mem _ hc2) heq
          rw [this] at hmem
          exact hmem hc2
    · intro p hp
      rw [ih2.2 p (fun c hc => hp c (List.mem_cons_of_mem _ hc))]
      exact Function.update_noteq (hp c0 (List.mem_cons_self _ _)) _ _

theorem scatterFold_spec (R C : List (Int × Int)) (adr : Int × Int → Int × Int → Int)
    (val : Int × Int → Int × Int → T)
    (hinj : ∀ r ∈ R, ∀ c ∈ C, ∀ r2 ∈ R, ∀ c2 ∈ C, adr r c = adr r2 c2 → r = r2 ∧ c = c2)
    (buf : Int → T) :
    (∀ r ∈ R, ∀ c ∈ C,
      R.foldl (fun b r => C.foldl (fun b2 c => Function.update b2 (adr r c) (val r c)) b) buf
        (adr r c) = val r c) ∧
    (∀ p, (∀ r ∈ R, ∀ c ∈ C, p ≠ adr r c) →
      R.foldl (fun b r => C.foldl (fun b2 c => Function.update b2 (adr r c) (val r c)) b) buf p
        = buf p) := by
  induction R generalizing buf with
  | nil => simp
  | cons r0 rest ih =>
    have hinner := scatterInner_spec C (adr r0) (val r0)
      (fun c hc c2 hc2 heq =>
        (hinj r0 (List.mem_cons_self _ _) c hc r0 (List.mem_cons_self _ _) c2 hc2 heq).2) buf
    have ih2 := ih (fun r hr c hc r2 hr2 c2 hc2 => hinj r (List.mem_cons_of_mem _ hr) c hc r2
      (List.mem_cons_of_mem _ hr2) c2 hc2)
      (C.foldl (fun b2 c => Function.update b2 (adr r0 c) (val r0 c)) buf)
    simp only [List.foldl_cons]
    constructor
    · intro r hr c hc
      by_cases hmem : r ∈ rest
      · exact ih2.1 r hmem c hc
      · have hr0 : r = r0 := by
          rcases List.mem_cons.1 hr with h | h
          · exact h
          · exact absurd h hmem
        subst hr0
        rw [ih2.2]
        · exact hinner.1 c hc
        · intro r2 hr2 c2 hc2 heq
          have := (hinj r (List.mem_cons_self _ _) c hc r2 (List.mem_cons_of_mem _ hr2) c2 hc2
            heq).1
          rw [this] at hmem
          exact hmem hr2
    · intro p hp
      rw [ih2.2 p (fun r hr c hc => hp r (List.mem_cons_of_mem _ hr) c hc)]
      exact hinner.2 p (fun c hc => hp r0 (List.mem_cons_self _ _) c hc)

theorem foldl_range_getD {σ : Type} (f : Int × Int → σ → σ) (d : Int × Int) :
    ∀ (q pre : List (Int × Int)) (s : σ),
      (List.range q.length).foldl
          (fun b (i : Nat) => f ((pre ++ q).getD (pre.length + i) d) b) s
        = q.foldl (fun b x => f x b) s
  | [], _, _ => rfl
  | x :: rest, pre, s => by
    rw [List.length_cons, List.range_succ_eq_map, List.foldl_cons, List.foldl_map]
    have hx : (pre ++ x :: rest).getD (pre.length + 0) d = x := by
      simp [List.getD_eq_getElem?_getD, List.getElem_append_right]
    rw [hx]
    have := foldl_range_getD f d rest (pre ++ [x]) (f x s)
    simp only [List.append_assoc, List.singleton_append, List.length_append,
      List.length_singleton] at this
    simp only [List.foldl_cons]
    rw [← this]
    congr 1
    funext b i
    congr 2
    omega

theorem forLoop_pairAt {σ : Type} (f : Int × Int → σ → σ) (q : List (Int × Int)) (s : σ) :
    forLoop ((q.length : Int) - 0) (fun i b => f (pairAt q (0 + i)) b) s
      = q.foldl (fun b x => f x b) s := by
  unfold forLoop pairAt
  have h := foldl_range_getD f (0, 0) q [] s
  simp only [List.nil_append, List.length_nil, Nat.zero_add] at h
  simp only [sub_zero, Int.toNat_ofNat, zero_add]
  exact h

end Scatter
end hmat
namespace hmat
section Scatter2
variable {T : Type}

theorem scatterLoop_eq (R C : List (Int × Int)) (values ld : Int)
    (value : Int × Int → Int × Int → T) (buf : Int → T) :
    scatterLoop R C values ld ⟨some 0, some (R.length : Int), some 0, some (C.length : Int)⟩
        value buf
      = .ok (R.foldl (fun b r =>
          C.foldl (fun b2 c => Function.update b2 (values + r.2 + ld * c.2) (value r c)) b) buf) := by
  unfold scatterLoop
  simp only
  have inner : ∀ (r : Int × Int) (b : Int → T),
      forLoop ((C.length : Int) - 0)
        (fun j b2 => Function.update b2 (values + r.2 + ld * (pairAt C (0 + j)).2)
          (value r (pairAt C (0 + j)))) b
      = C.foldl (fun b2 c => Function.update b2 (values + r.2 + ld * c.2) (value r c)) b :=
    fun r b => forLoop_pairAt
      (fun c b2 => Function.update b2 (values + r.2 + ld * c.2) (value r c)) C b
  simp only [inner]
  exact congrArg Except.ok (forLoop_pairAt
    (fun r b => C.foldl
      (fun b2 c => Function.update b2 (values + r.2 + ld * c.2) (value r c)) b) R buf)

theorem createQuery_length (cd : ClusterData) (query : Int → Int) (n : Int) :
    (createQuery cd query n).length = n.toNat := by
  unfold createQuery
  simp only [List.length_insertionSort, List.length_map, List.length_range]

theorem mem_createQuery (cd : ClusterData) (query : Int → Int) (n : Int) (x : Int × Int) :
    x ∈ createQuery cd query n
      ↔ ∃ i : Nat, i < n.toNat ∧ x = (cd.indices_rev (query (i : Int) - 1), (i : Int)) := by
  unfold createQuery
  simp only
  rw [(List.perm_insertionSort _ _).mem_iff]
  simp only [List.mem_map, List.mem_range]
  constructor
  · rintro ⟨i, hi, rfl⟩
    exact ⟨i, hi, rfl⟩
  · rintro ⟨i, hi, rfl⟩
    exact ⟨i, hi, rfl⟩

/-- The effect of the two nested loops of a scattered leaf method run on the
whole sorted query: the pair `(i, j)` of the query is written at
`values + i + ld * j`. -/
theorem scatter_createQuery_spec (rcd ccd : ClusterData) (qrows : Int → Int) (rowSize : Int)
    (qcols : Int → Int) (colSize : Int) (values ld : Int)
    (value : Int × Int → Int × Int → T) (buf : Int → T) (hld : rowSize ≤ ld) :
    ∀ i j : Int, 0 ≤ i → i < rowSize → 0 ≤ j → j < colSize →
      (createQuery rcd qrows rowSize).foldl (fun b r =>
        (createQuery ccd qcols colSize).foldl (fun b2 c =>
          Function.update b2 (values + r.2 + ld * c.2) (value r c)) b) buf (values + (i + ld * j))
        = value (rcd.indices_rev (qrows i - 1), i) (ccd.indices_rev (qcols j - 1), j) := by
  intro i j hi hi' hj hj'
  have hspec := scatterFold_spec (createQuery rcd qrows rowSize) (createQuery ccd qcols colSize)
    (fun r c => values + r.2 + ld * c.2) value
    (by
      intro r hr c hc r2 hr2 c2 hc2 heq
      rw [mem_createQuery] at hr hc hr2 hc2
      obtain ⟨a, ha, rfl⟩ := hr
      obtain ⟨b, hb, rfl⟩ := hc
      obtain ⟨a2, ha2, rfl⟩ := hr2
      obtain ⟨b2, hb2, rfl⟩ := hc2
      simp only at heq
      have := stride_inj hld a b a2 b2 (by omega) (by omega) (by omega) (by omega) (by omega)
      have h1 : a = a2 := by omega
      have h2 : b = b2 := by omega
      subst h1; subst h2
      exact ⟨rfl, rfl⟩) buf
  have hr : (rcd.indices_rev (qrows i - 1), i) ∈ createQuery rcd qrows rowSize := by
    rw [mem_createQuery]
    exact ⟨i.toNat, by omega, by rw [Int.toNat_of_nonneg hi]⟩
  have hc : (ccd.indices_rev (qcols j - 1), j) ∈ createQuery ccd qcols colSize := by
    rw [mem_createQuery]
    exact ⟨j.toNat, by omega, by rw [Int.toNat_of_nonneg hj]⟩
  have := hspec.1 _ hr _ hc
  simp only at this
  rw [← add_assoc]
  exact this

/-- On a root that is a single leaf (a Full leaf carrying neither pivots nor
a diagonal) the scattered query returns and the pair `(i, j)` of the query
receives, at `values[i + ld*j]`, the entry of the leaf at the internal
position the pair designates. -/
theorem scattered_leaf_spec [Semiring T] (m : HMatrix T) (hleaf : m.isLeaf = true)
    (hfull : ∀ rows cols f, m = .full rows cols f → f.pivots = none ∧ f.diagonal = none)
    (qrows : Int → Int) (rowSize : Int) (qcols : Int → Int) (colSize : Int) (values ld : Int)
    (buf : Int → T) (hld : rowSize ≤ (if ld = -1 then rowSize else ld)) :
    ∃ out, UncompressedValues.uncompress m true qrows rowSize qcols colSize values ld buf
        = .ok out ∧
      ∀ i j : Int, 0 ≤ i → i < rowSize → 0 ≤ j → j < colSize →
        out (values + (i + (if ld = -1 then rowSize else ld) * j))
          = leafEntry m (m.rows.indices_rev (qrows i - 1)) (m.cols.indices_rev (qcols j - 1)) := by
  have hlenR := createQuery_length m.rows qrows rowSize
  have hlenC := createQuery_length m.cols qcols colSize
  have hvac : (some (0 : Int) = some ((createQuery m.rows qrows rowSize).length : Int)
      ∨ some (0 : Int) = some ((createQuery m.cols qcols colSize).length : Int)) →
      ∀ i j : Int, 0 ≤ i → i < rowSize → 0 ≤ j → j < colSize → False := by
    intro h i j hi hi' hj hj'
    simp only [Option.some.injEq] at h
    omega
  unfold UncompressedValues.uncompress
  simp only [not_true_eq_false, if_false]
  cases m with
  | internal rows cols cs => simp [HMatrix.isLeaf] at hleaf
  | null rows cols =>
    by_cases hempty : (some (0 : Int) = some ((createQuery rows qrows rowSize).length : Int)
      ∨ some (0 : Int) = some ((createQuery cols qcols colSize).length : Int))
    · refine ⟨buf, by simp only [UncompressedValues.getValues, HMatrix.rows, HMatrix.cols,
        hempty, if_true], ?_⟩
      intro i j hi hi' hj hj'
      exact absurd (hvac hempty i j hi hi' hj hj') id
    · refine ⟨_, by simp only [UncompressedValues.getValues, HMatrix.rows, HMatrix.cols,
        hempty, if_false, UncompressedValues.getLeafValues, scatterLoop_eq]; rfl, ?_⟩
      intro i j hi hi' hj hj'
      rw [scatter_createQuery_spec rows cols qrows rowSize qcols colSize values _ _ buf hld
        i j hi hi' hj hj']
      rfl
  | full rows cols f =>
    obtain ⟨hp, hd⟩ := hfull rows cols f rfl
    by_cases hempty : (some (0 : Int) = some ((createQuery rows qrows rowSize).length : Int)
      ∨ some (0 : Int) = some ((createQuery cols qcols colSize).length : Int))
    · refine ⟨buf, by simp only [UncompressedValues.getValues, HMatrix.rows, HMatrix.cols,
        hempty, if_true], ?_⟩
      intro i j hi hi' hj hj'
      exact absurd (hvac hempty i j hi hi' hj hj') id
    · refine ⟨_, by simp only [UncompressedValues.getValues, HMatrix.rows, HMatrix.cols,
        hempty, if_false, UncompressedValues.getLeafValues, hp, hd, Option.isNone_none,
        not_true_eq_false, scatterLoop_eq]; rfl, ?_⟩
      intro i j hi hi' hj hj'
      rw [scatter_createQuery_spec rows cols qrows rowSize qcols colSize values _ _ buf hld
        i j hi hi' hj hj']
      rfl
  | rk rows cols rank k =>
    by_cases hempty : (some (0 : Int) = some ((createQuery rows qrows rowSize).length : Int)
      ∨ some (0 : Int) = some ((createQuery cols qcols colSize).length : Int))
    · refine ⟨buf, by simp only [UncompressedValues.getValues, HMatrix.rows, HMatrix.cols,
        hempty, if_true], ?_⟩
      intro i j hi hi' hj hj'
      exact absurd (hvac hempty i j hi hi' hj hj') id
    · refine ⟨_, by simp only [UncompressedValues.getValues, HMatrix.rows, HMatrix.cols,
        hempty, if_false, UncompressedValues.getLeafValues, scatterLoop_eq]; rfl, ?_⟩
      intro i j hi hi' hj hj'
      rw [scatter_createQuery_spec rows cols qrows rowSize qcols colSize values _ _ buf hld
        i j hi hi' hj hj']
      simp only [leafEntry, dotRow_eq_sum, zero_add, HMatrix.rows, HMatrix.cols]

end Scatter2
end hmat
namespace hmat
section Claims6
variable {T : Type}

/-- What `get_block` returns when the extraction succeeds and no renumbering
is asked for. -/
theorem get_block_eq_of_uncompress [Semiring T] (ctx : hmat_get_values_context_t T)
    (mem mem1 : Int → T)
    (h : UncompressedBlock.uncompress ctx.matrix ⟨ctx.row_offset, ctx.row_size⟩
      ⟨ctx.col_offset, ctx.col_size⟩ ctx.values (-1) mem = .ok mem1)
    (hren : ctx.renumber_rows = 0) :
    get_block ctx mem = .returned (0, ⟨ctx.matrix, ctx.values, ctx.row_offset, ctx.row_size,
      ctx.col_offset, ctx.col_size,
      fun t => ctx.matrix.rows.indices (ctx.row_offset + t),
      fun t => ctx.matrix.cols.indices (ctx.col_offset + t), ctx.renumber_rows⟩) mem1 := by
  unfold get_block
  simp only [h, hren, ne_eq, not_true_eq_false, if_false]
  rfl

/-- C6: numbering returned by the range extraction.  Whenever `get_block`
returns, its status is 0 and `ctx.row_indices[t]` is the root permutation
array read at `row_offset + t`, `ctx.col_indices[t]` the column permutation
array read at `col_offset + t`; and it does return, when no renumbering is
asked for, for every query inside the root's extent. -/
theorem get_block_numbering [Semiring T] (ctx : hmat_get_values_context_t T) (mem : Int → T) :
    (∀ (status : Int) (ctx2 : hmat_get_values_context_t T) (mem2 : Int → T),
      get_block ctx mem = .returned (status, ctx2) mem2 →
        status = 0 ∧
        (∀ t : Int, ctx2.row_indices t = ctx.matrix.rows.indices (ctx.row_offset + t)) ∧
        (∀ t : Int, ctx2.col_indices t = ctx.matrix.cols.indices (ctx.col_offset + t))) ∧
    (ctx.renumber_rows = 0 → 0 ≤ ctx.row_size → 0 ≤ ctx.col_size →
      (IndexSet.mk ctx.row_offset ctx.row_size).isSubset ctx.matrix.rows.toIndexSet →
      (IndexSet.mk ctx.col_offset ctx.col_size).isSubset ctx.matrix.cols.toIndexSet →
      ∃ ctx2 mem2, get_block ctx mem = .returned (0, ctx2) mem2) := by
  constructor
  · intro status ctx2 mem2 h
    unfold get_block at h
    simp only at h
    split at h
    · exact absurd h (by simp)
    · split at h
      · split at h
        · simp only [Outcome.returned.injEq, Prod.mk.injEq] at h
          obtain ⟨⟨h1, h2⟩, _⟩ := h
          subst h1; subst h2
          exact ⟨rfl, fun _ => rfl, fun _ => rfl⟩
        · exact absurd h (by simp)
        · exact absurd h (by simp)
      · simp only [Outcome.returned.injEq, Prod.mk.injEq] at h
        obtain ⟨⟨h1, h2⟩, _⟩ := h
        subst h1; subst h2
        exact ⟨rfl, fun _ => rfl, fun _ => rfl⟩
  · intro hren hr hc hrs hcs
    have hrv : UncompressedBlock.uncompress ctx.matrix ⟨ctx.row_offset, ctx.row_size⟩
        ⟨ctx.col_offset, ctx.col_size⟩ ctx.values (-1) mem
        = UncompressedBlock.uncompress ctx.matrix ⟨ctx.row_offset, ctx.row_size⟩
        ⟨ctx.col_offset, ctx.col_size⟩ ctx.values ctx.row_size mem := by
      unfold UncompressedBlock.uncompress UncompressedBlock.rootView
      by_cases h1 : ctx.row_size = -1
      · simp [h1]
      · simp [h1]
    obtain ⟨out, h1, _⟩ := uncompress_spec ctx.matrix ⟨ctx.row_offset, ctx.row_size⟩
      ⟨ctx.col_offset, ctx.col_size⟩ ctx.values ctx.row_size mem hrs hcs hr hc (le_refl _)
    exact ⟨_, _, get_block_eq_of_uncompress ctx mem out (hrv.trans h1) hren⟩

theorem get_block_numbering_witness :
    ∃ ctx2 mem2, get_block (exampleContext 1 1 0 2 0) (fun _ => 0) = .returned (0, ctx2) mem2 ∧
      (∀ t : Int, ctx2.row_indices t = exampleTree.rows.indices (1 + t)) ∧
      (∀ t : Int, ctx2.col_indices t = exampleTree.cols.indices (0 + t)) := by
  obtain ⟨ctx2, mem2, h⟩ := (get_block_numbering (exampleContext 1 1 0 2 0) (fun _ => 0)).2
    (by decide) (by decide) (by decide) (by decide) (by decide)
  exact ⟨ctx2, mem2, h,
    ((get_block_numbering (exampleContext 1 1 0 2 0) (fun _ => 0)).1 0 ctx2 mem2 h).2⟩

/-- C8: `renumberRows` throws "Cannot renumber" if and only if the view's
matrix has a father or the view's row range is not the whole row range of
the matrix, and the values buffer is then as it was; otherwise it returns. -/
theorem renumberRows_guard [Zero T] (matrix : HMatrix T) (fatherIsNull : Bool) (v : View)
    (mem : Int → T) :
    ((∃ mem2, UncompressedBlock.renumberRows matrix fatherIsNull v mem
        = .thrown "Cannot renumber" mem2)
      ↔ (fatherIsNull = false ∨ v.rowIndexSet_ ≠ matrix.rows.toIndexSet)) ∧
    (∀ msg mem2, UncompressedBlock.renumberRows matrix fatherIsNull v mem = .thrown msg mem2 →
      msg = "Cannot renumber" ∧ mem2 = mem) ∧
    (¬ (fatherIsNull = false ∨ v.rowIndexSet_ ≠ matrix.rows.toIndexSet) →
      ∃ mem2, UncompressedBlock.renumberRows matrix fatherIsNull v mem = .returned () mem2) ∧
    (∀ msg, UncompressedBlock.renumberRows matrix fatherIsNull v mem ≠ .aborted msg) := by
  unfold UncompressedBlock.renumberRows
  by_cases h : fatherIsNull = true ∧ v.rowIndexSet_ = matrix.rows.toIndexSet
  · rw [if_neg (not_not.mpr h)]
    refine ⟨⟨fun ⟨_, h2⟩ => absurd h2 (by simp), ?_⟩, fun _ _ h2 => absurd h2 (by simp),
      fun _ => ⟨_, rfl⟩, fun _ => by simp⟩
    intro h2
    rcases h2 with h2 | h2
    · rw [h.1] at h2; exact absurd h2 (by simp)
    · exact absurd h.2 h2
  · rw [if_pos h]
    refine ⟨⟨fun _ => ?_, fun _ => ⟨mem, rfl⟩⟩, ?_, ?_, fun _ => by simp⟩
    · by_cases hf : fatherIsNull = true
      · right
        intro hrows
        exact h ⟨hf, hrows⟩
      · left
        simpa using hf
    · intro msg mem2 h2
      simp only [Outcome.thrown.injEq] at h2
      exact ⟨h2.1.symm, h2.2.symm⟩
    · intro h2
      exfalso
      apply h
      constructor
      · by_contra hf
        exact h2 (Or.inl (by simpa using hf))
      · by_contra hr
        exact h2 (Or.inr hr)

end Claims6
end hmat
namespace hmat
section Claims5
variable {T : Type}

/-- The default leading dimension where the code gets the landing right.
For the range query the leading dimension of the view is `rows.size()` when
`ld` is `-1` (or omitted) and `ld` otherwise; the scattered query with
`ld = -1` is the scattered query with `ld = rowSize`; `get_block`, which
omits `ld`, returns a buffer without padding, the entry `(i, j)` of the
query being at `values[i + row_size*j]`; so does `get_values` on a root that
is a leaf, and with a given `ld` the scattered query puts the pair `(i, j)`
at `values[i + ld*j]`. -/
theorem default_leading_dimension [Semiring T] (ctx : hmat_get_values_context_t T)
    (mem : Int → T) :
    (∀ (rows cols : IndexSet) (values : Int),
      (UncompressedBlock.rootView rows cols values (-1)).lDim_ = rows.size ∧
      ∀ ld : Int, ld ≠ -1 → (UncompressedBlock.rootView rows cols values ld).lDim_ = ld) ∧
    (∀ (m : HMatrix T) (f : Bool) (qrows : Int → Int) (rowSize : Int) (qcols : Int → Int)
        (colSize values : Int) (buf : Int → T),
      UncompressedValues.uncompress m f qrows rowSize qcols colSize values (-1) buf
        = UncompressedValues.uncompress m f qrows rowSize qcols colSize values rowSize buf) ∧
    (ctx.matrix.coversDisjointly = true → ctx.renumber_rows = 0 →
      0 ≤ ctx.row_size → 0 ≤ ctx.col_size →
      (IndexSet.mk ctx.row_offset ctx.row_size).isSubset ctx.matrix.rows.toIndexSet →
      (IndexSet.mk ctx.col_offset ctx.col_size).isSubset ctx.matrix.cols.toIndexSet →
      ∃ ctx2 out, get_block ctx mem = .returned (0, ctx2) out ∧
        ∀ i j : Int, 0 ≤ i → i < ctx.row_size → 0 ≤ j → j < ctx.col_size →
          ∃ l ∈ ctx.matrix.leaves, l.containsPos (ctx.row_offset + i) (ctx.col_offset + j) ∧
            out (ctx.values + (i + ctx.row_size * j))
              = leafEntry l (ctx.row_offset + i) (ctx.col_offset + j)) ∧
    (ctx.matrix.isLeaf = true →
      (∀ rows cols f, ctx.matrix = .full rows cols f → f.pivots = none ∧ f.diagonal = none) →
      (∃ out, get_values ctx mem = .returned (0, ctx) out ∧
        ∀ i j : Int, 0 ≤ i → i < ctx.row_size → 0 ≤ j → j < ctx.col_size →
          out (ctx.values + (i + ctx.row_size * j))
            = leafEntry ctx.matrix (ctx.matrix.rows.indices_rev (ctx.row_indices i - 1))
                (ctx.matrix.cols.indices_rev (ctx.col_indices j - 1))) ∧
      (∀ ld : Int, ld ≠ -1 → ctx.row_size ≤ ld →
        ∃ out, UncompressedValues.uncompress ctx.matrix true ctx.row_indices ctx.row_size
            ctx.col_indices ctx.col_size ctx.values ld mem = .ok out ∧
          ∀ i j : Int, 0 ≤ i → i < ctx.row_size → 0 ≤ j → j < ctx.col_size →
            out (ctx.values + (i + ld * j))
              = leafEntry ctx.matrix (ctx.matrix.rows.indices_rev (ctx.row_indices i - 1))
                  (ctx.matrix.cols.indices_rev (ctx.col_indices j - 1)))) := by
  refine ⟨?_, ?_, ?_, ?_⟩
  · intro rows cols values
    refine ⟨by simp [UncompressedBlock.rootView], ?_⟩
    intro ld hld
    simp [UncompressedBlock.rootView, hld]
  · intro m f qrows rowSize qcols colSize values buf
    unfold UncompressedValues.uncompress
    by_cases h : rowSize = -1
    · simp [h]
    · simp [h]
  · intro hcover hren hr hc hrs hcs
    have hrv : UncompressedBlock.uncompress ctx.matrix ⟨ctx.row_offset, ctx.row_size⟩
        ⟨ctx.col_offset, ctx.col_size⟩ ctx.values (-1) mem
        = UncompressedBlock.uncompress ctx.matrix ⟨ctx.row_offset, ctx.row_size⟩
        ⟨ctx.col_offset, ctx.col_size⟩ ctx.values ctx.row_size mem := by
      unfold UncompressedBlock.uncompress UncompressedBlock.rootView
      by_cases h1 : ctx.row_size = -1
      · simp [h1]
      · simp [h1]
    obtain ⟨out, h1, h2, _⟩ := uncompress_spec ctx.matrix ⟨ctx.row_offset, ctx.row_size⟩
      ⟨ctx.col_offset, ctx.col_size⟩ ctx.values ctx.row_size mem hrs hcs hr hc (le_refl _)
    refine ⟨_, out, get_block_eq_of_uncompress ctx mem out (hrv.trans h1) hren, ?_⟩
    intro i j hi hi' hj hj'
    have hstore := coversDisjointly_stores ctx.matrix hcover
    have hpos : ctx.matrix.containsPos (ctx.row_offset + i) (ctx.col_offset + j) := by
      unfold IndexSet.isSubset at hrs hcs
      unfold HMatrix.containsPos IndexSet.contains
      simp only at hrs hcs
      omega
    obtain ⟨l, hl, hlc⟩ := exists_leaf _ (fun n hn => by simp only [beq_iff_eq] at hn; omega)
      ctx.matrix hcover _ _ hpos
    refine ⟨l, hl, hlc, ?_⟩
    rw [h2 i j hi hi' hj hj',
      entry?_of_leaf _ (fun n hn => by simpa using hn) ctx.matrix hstore l hl _ _ hlc]
    rfl
  · intro hleaf hfull
    constructor
    · obtain ⟨out, h1, h2⟩ := scattered_leaf_spec ctx.matrix hleaf hfull ctx.row_indices
        ctx.row_size ctx.col_indices ctx.col_size ctx.values (-1) mem (by simp)
      refine ⟨out, by unfold get_values; rw [h1], ?_⟩
      intro i j hi hi' hj hj'
      have := h2 i j hi hi' hj hj'
      simpa using this
    · intro ld hld hle
      obtain ⟨out, h1, h2⟩ := scattered_leaf_spec ctx.matrix hleaf hfull ctx.row_indices
        ctx.row_size ctx.col_indices ctx.col_size ctx.values ld mem (by simp [hld, hle])
      refine ⟨out, h1, ?_⟩
      intro i j hi hi' hj hj'
      have := h2 i j hi hi' hj hj'
      simpa [hld] using this

theorem default_leading_dimension_witness :
    (∃ ctx2 out, get_block (exampleContext 0 2 0 2 0) (fun _ => -1) = .returned (0, ctx2) out ∧
      ∀ i j : Int, 0 ≤ i → i < 2 → 0 ≤ j → j < 2 →
        ∃ l ∈ exampleTree.leaves, l.containsPos (0 + i) (0 + j) ∧
          out (0 + (i + 2 * j)) = leafEntry l (0 + i) (0 + j)) ∧
    (∃ out, get_values ⟨fullLeaf, 0, 0, 3, 0, 2, exampleArray [2, 1, 2], exampleArray [1, 2], 0⟩
        (fun _ => -1)
        = .returned (0, ⟨fullLeaf, 0, 0, 3, 0, 2, exampleArray [2, 1, 2], exampleArray [1, 2], 0⟩)
            out ∧
      ∀ i j : Int, 0 ≤ i → i < 3 → 0 ≤ j → j < 2 →
        out (0 + (i + 3 * j))
          = leafEntry fullLeaf (fullLeaf.rows.indices_rev (exampleArray [2, 1, 2] i - 1))
              (fullLeaf.cols.indices_rev (exampleArray [1, 2] j - 1))) :=
  ⟨(default_leading_dimension (exampleContext 0 2 0 2 0) (fun _ => -1)).2.2.1
      (by decide) (by decide) (by decide) (by decide) (by decide) (by decide),
    ((default_leading_dimension
      ⟨fullLeaf, 0, 0, 3, 0, 2, exampleArray [2, 1, 2], exampleArray [1, 2], 0⟩
      (fun _ => -1)).2.2.2 (by decide)
      (by
        intro rows cols f h
        simp only [fullLeaf, HMatrix.full.injEq] at h
        rw [← h.2.2]
        exact ⟨rfl, rfl⟩)).1⟩

/-- C5 (code as it is): `get_values` on a root that is not a leaf fills
nothing.  On the 2 x 2 example tree, whose root is Internal, `get_values`
for the rows 1, 2 and the columns 1, 2 returns 0 and leaves the four
positions `values[i + 2*j]` at their former content -1, although the tree
holds 5, 7, 0 and 23 there; `get_block` for the same four entries, with the
same default leading dimension, returns them at `values[i + 2*j]`. -/
theorem get_values_internal_root_unfilled :
    get_values ⟨exampleTree, 0, 0, 2, 0, 2, exampleArray [1, 2], exampleArray [1, 2], 0⟩
        (fun _ => -1)
      = .returned
          (0, ⟨exampleTree, 0, 0, 2, 0, 2, exampleArray [1, 2], exampleArray [1, 2], 0⟩)
          (fun _ => -1) ∧
    (exampleTree.entry? 0 0 = some 5 ∧ exampleTree.entry? 1 0 = some 7 ∧
      exampleTree.entry? 0 1 = some 0 ∧ exampleTree.entry? 1 1 = some 23) ∧
    (∃ ctx2 out,
      get_block ⟨exampleTree, 0, 0, 2, 0, 2, exampleArray [1, 2], exampleArray [1, 2], 0⟩
          (fun _ => -1) = .returned (0, ctx2) out ∧
        out 0 = 5 ∧ out 1 = 7 ∧ out 2 = 0 ∧ out 3 = 23) := by
  refine ⟨rfl, by decide, ⟨_, _, rfl, ?_⟩⟩
  decide

end Claims5
end hmat
namespace hmat
section Claims7
variable {T : Type}

/-- One column of `restoreVectorOrder`: the value of row `i` moves to row
`indices i`, the rest of the memory is as before. -/
theorem restoreColumn_spec [Zero T] (t : Int → T) (vp lda j : Int) (n : Nat)
    (indices : Int → Int)
    (hind : ∀ i : Nat, i < n → 0 ≤ indices i ∧ indices i < n)
    (hinj : ∀ i i2 : Nat, i < n → i2 < n → indices i = indices i2 → i = i2) :
    (∀ i : Nat, i < n →
      (List.range n).foldl (fun t2 (i : Nat) =>
        Function.update t2 (vp + (i : Int) + lda * j)
          ((List.range n).foldl (fun tm (i : Nat) =>
            Function.update tm (indices i) (t (vp + (i : Int) + lda * j))) (fun _ => 0) i)) t
        (vp + indices i + lda * j) = t (vp + (i : Int) + lda * j)) ∧
    (∀ p, (∀ k : Nat, k < n → p ≠ vp + (k : Int) + lda * j) →
      (List.range n).foldl (fun t2 (i : Nat) =>
        Function.update t2 (vp + (i : Int) + lda * j)
          ((List.range n).foldl (fun tm (i : Nat) =>
            Function.update tm (indices i) (t (vp + (i : Int) + lda * j))) (fun _ => 0) i)) t p
        = t p) := by
  have htmp := writeLoop_spec (fun i : Nat => indices i)
    (fun (i : Nat) (_ : T) => t (vp + (i : Int) + lda * j)) (fun _ => 0) n hinj
  have hcol := writeLoop_spec (fun k : Nat => vp + (k : Int) + lda * j)
    (fun (k : Nat) (_ : T) =>
      ((List.range n).foldl (fun tm (i : Nat) =>
        Function.update tm (indices i) (t (vp + (i : Int) + lda * j))) (fun _ => (0 : T)))
        (k : Int)) t n
    (by intro a b _ _ heq; simp only at heq; omega)
  simp only at htmp hcol
  constructor
  · intro i hi
    obtain ⟨h0, h1⟩ := hind i hi
    have hk := hcol.1 (indices i).toNat (by omega)
    rw [Int.toNat_of_nonneg h0] at hk
    rw [hk]
    exact htmp.1 i hi
  · exact hcol.2

/-- The effect of `restoreVectorOrder` on a block whose leading dimension is
at least its row count, when `indices` maps the rows one-to-one into
themselves. -/
theorem restoreVectorOrder_spec [Zero T] (mem : Int → T) (vp rows cols lda : Int)
    (indices : Int → Int) (hlda : rows ≤ lda)
    (hind : ∀ i : Int, 0 ≤ i → i < rows → 0 ≤ indices i ∧ indices i < rows)
    (hinj : ∀ i i2 : Int, 0 ≤ i → i < rows → 0 ≤ i2 → i2 < rows →
      indices i = indices i2 → i = i2) :
    ∀ i j : Int, 0 ≤ i → i < rows → 0 ≤ j → j < cols →
      restoreVectorOrder mem vp rows cols lda indices (vp + indices i + lda * j)
        = mem (vp + i + lda * j) := by
  have hindN : ∀ i : Nat, i < rows.toNat → 0 ≤ indices i ∧ indices i < (rows.toNat : Int) := by
    intro i hi
    have := hind i (by omega) (by omega)
    omega
  have hinjN : ∀ i i2 : Nat, i < rows.toNat → i2 < rows.toNat → indices i = indices i2 →
      i = i2 := by
    intro i i2 hi hi2 heq
    have := hinj i i2 (by omega) (by omega) (by omega) (by omega) heq
    omega
  have key : ∀ kc : Nat,
      (∀ i j : Nat, i < rows.toNat → j < kc →
        (List.range kc).foldl (fun t (col : Nat) =>
          (List.range rows.toNat).foldl (fun t2 (i : Nat) =>
            Function.update t2 (vp + (i : Int) + lda * (col : Int))
              ((List.range rows.toNat).foldl (fun tm (i : Nat) =>
                Function.update tm (indices i) (t (vp + (i : Int) + lda * (col : Int))))
                (fun _ => 0) i)) t) mem (vp + indices i + lda * (j : Int))
          = mem (vp + (i : Int) + lda * (j : Int))) ∧
      (∀ p, (∀ k j : Nat, k < rows.toNat → j < kc → p ≠ vp + (k : Int) + lda * (j : Int)) →
        (List.range kc).foldl (fun t (col : Nat) =>
          (List.range rows.toNat).foldl (fun t2 (i : Nat) =>
            Function.update t2 (vp + (i : Int) + lda * (col : Int))
              ((List.range rows.toNat).foldl (fun tm (i : Nat) =>
                Function.update tm (indices i) (t (vp + (i : Int) + lda * (col : Int))))
                (fun _ => 0) i)) t) mem p = mem p) := by
    intro kc
    induction kc with
    | zero => simp
    | succ kc ih =>
      simp only [List.range_succ, List.foldl_append, List.foldl_cons, List.foldl_nil]
      have hcol := fun (t : Int → T) =>
        restoreColumn_spec t vp lda (kc : Int) rows.toNat indices hindN hinjN
      constructor
      · intro i j hi hj
        by_cases hjk : j = kc
        · subst hjk
          rw [(hcol _).1 i hi]
          apply ih.2
          intro k j2 hk hj2 heq
          have := stride_inj hlda i j k j2 (by omega) (by omega) (by omega) (by omega)
            (by omega)
          omega
        · rw [(hcol _).2]
          · exact ih.1 i j hi (by omega)
          · intro k hk heq
            obtain ⟨h0, h1⟩ := hindN i hi
            have := stride_inj hlda (indices i) j k kc h0 (by omega) (by omega) (by omega)
              (by omega)
            omega
      · intro p hp
        rw [(hcol _).2 p (fun k hk => hp k kc hk (by omega))]
        exact ih.2 p (fun k j hk hj => hp k j hk (by omega))
  intro i j hi hi' hj hj'
  have := (key cols.toNat).1 i.toNat j.toNat (by omega) (by omega)
  rw [Int.toNat_of_nonneg hi, Int.toNat_of_nonneg hj] at this
  unfold restoreVectorOrder forLoop
  exact this

/-- C7 (as stated, refuted): with `renumber_rows` set, `get_block` on the
block made of row 1 alone of the 2 x 2 example matrix does not return a
renumbered buffer: it ends with the exception "Cannot renumber". -/
theorem get_block_renumber_partial_rows :
    ∃ mem2, get_block (exampleContext 1 1 0 2 1) (fun _ => 0)
      = .thrown "Cannot renumber" mem2 :=
  ⟨_, rfl⟩

/-- C7 (amended): for a block inside the matrix, `get_block` extracts the
values and, when `renumber_rows` is zero, returns them in internal row order;
when `renumber_rows` is non-zero and the requested rows are the whole row
range of the matrix, the root permutation mapping them one-to-one onto
`0 .. row_size - 1`, it returns and, for every row `i` and column `j` of the
block, `out[rowsNumbering[i] + ld*j]` is the value extracted for `(i, j)`,
with `ld = row_size`; when `renumber_rows` is non-zero and the requested rows
are not the whole row range, it ends with the exception "Cannot renumber",
the buffer holding the extracted values. -/
theorem get_block_renumbers [Semiring T] (ctx : hmat_get_values_context_t T) (mem : Int → T)
    (hrows : (IndexSet.mk ctx.row_offset ctx.row_size).isSubset ctx.matrix.rows.toIndexSet)
    (hcols : (IndexSet.mk ctx.col_offset ctx.col_size).isSubset ctx.matrix.cols.toIndexSet)
    (hr : 0 ≤ ctx.row_size) (hc : 0 ≤ ctx.col_size) :
    ∃ extracted, UncompressedBlock.uncompress ctx.matrix ⟨ctx.row_offset, ctx.row_size⟩
        ⟨ctx.col_offset, ctx.col_size⟩ ctx.values (-1) mem = .ok extracted ∧
      (ctx.renumber_rows = 0 → ∃ ctx2, get_block ctx mem = .returned (0, ctx2) extracted) ∧
      (ctx.renumber_rows ≠ 0 →
        IndexSet.mk ctx.row_offset ctx.row_size = ctx.matrix.rows.toIndexSet →
        (∀ i : Int, 0 ≤ i → i < ctx.row_size →
          0 ≤ ctx.matrix.rows.indices (ctx.row_offset + i)
            ∧ ctx.matrix.rows.indices (ctx.row_offset + i) < ctx.row_size) →
        (∀ i i2 : Int, 0 ≤ i → i < ctx.row_size → 0 ≤ i2 → i2 < ctx.row_size →
          ctx.matrix.rows.indices (ctx.row_offset + i)
            = ctx.matrix.rows.indices (ctx.row_offset + i2) → i = i2) →
        ∃ ctx2 out, get_block ctx mem = .returned (0, ctx2) out ∧
          ∀ i j : Int, 0 ≤ i → i < ctx.row_size → 0 ≤ j → j < ctx.col_size →
            out (ctx.values + ctx2.row_indices i + ctx.row_size * j)
              = extracted (ctx.values + i + ctx.row_size * j)) ∧
      (ctx.renumber_rows ≠ 0 →
        IndexSet.mk ctx.row_offset ctx.row_size ≠ ctx.matrix.rows.toIndexSet →
        get_block ctx mem = .thrown "Cannot renumber" extracted) := by
  have hrv : UncompressedBlock.uncompress ctx.matrix ⟨ctx.row_offset, ctx.row_size⟩
      ⟨ctx.col_offset, ctx.col_size⟩ ctx.values (-1) mem
      = UncompressedBlock.uncompress ctx.matrix ⟨ctx.row_offset, ctx.row_size⟩
      ⟨ctx.col_offset, ctx.col_size⟩ ctx.values ctx.row_size mem := by
    unfold UncompressedBlock.uncompress UncompressedBlock.rootView
    by_cases h1 : ctx.row_size = -1
    · simp [h1]
    · simp [h1]
  obtain ⟨ext, h1, _⟩ := uncompress_spec ctx.matrix ⟨ctx.row_offset, ctx.row_size⟩
    ⟨ctx.col_offset, ctx.col_size⟩ ctx.values ctx.row_size mem hrows hcols hr hc (le_refl _)
  have hext := hrv.trans h1
  refine ⟨ext, hext, fun hren => ⟨_, get_block_eq_of_uncompress ctx mem ext hext hren⟩, ?_, ?_⟩
  · intro hren hwhole hind hinj
    have hguard : (true = true ∧ (UncompressedBlock.rootView ⟨ctx.row_offset, ctx.row_size⟩
        ⟨ctx.col_offset, ctx.col_size⟩ ctx.values (-1)).rowIndexSet_
          = ctx.matrix.rows.toIndexSet) := ⟨rfl, hwhole⟩
    refine ⟨⟨ctx.matrix, ctx.values, ctx.row_offset, ctx.row_size, ctx.col_offset,
        ctx.col_size,
        UncompressedBlock.rowsNumbering ctx.matrix (UncompressedBlock.rootView
          ⟨ctx.row_offset, ctx.row_size⟩ ⟨ctx.col_offset, ctx.col_size⟩ ctx.values (-1)),
        UncompressedBlock.colsNumbering ctx.matrix (UncompressedBlock.rootView
          ⟨ctx.row_offset, ctx.row_size⟩ ⟨ctx.col_offset, ctx.col_size⟩ ctx.values (-1)),
        ctx.renumber_rows⟩,
      restoreVectorOrder ext ctx.values ctx.row_size ctx.col_size ctx.row_size
        (UncompressedBlock.rowsNumbering ctx.matrix (UncompressedBlock.rootView
          ⟨ctx.row_offset, ctx.row_size⟩ ⟨ctx.col_offset, ctx.col_size⟩ ctx.values (-1))),
      ?_, ?_⟩
    · have hren2 : UncompressedBlock.renumberRows ctx.matrix true
          (UncompressedBlock.rootView ⟨ctx.row_offset, ctx.row_size⟩
            ⟨ctx.col_offset, ctx.col_size⟩ ctx.values (-1)) ext
          = .returned () (restoreVectorOrder ext ctx.values ctx.row_size ctx.col_size
            ctx.row_size
            (UncompressedBlock.rowsNumbering ctx.matrix (UncompressedBlock.rootView
              ⟨ctx.row_offset, ctx.row_size⟩ ⟨ctx.col_offset, ctx.col_size⟩ ctx.values
              (-1)))) := by
        unfold UncompressedBlock.renumberRows
        rw [if_neg (not_not.mpr hguard)]
        rfl
      unfold get_block
      simp only [hext, hren, ne_eq, not_false_eq_true, if_true, hren2]
    · intro i j hi hi' hj hj'
      simp only [UncompressedBlock.rootView, if_true, UncompressedBlock.rowsNumbering]
      exact restoreVectorOrder_spec ext ctx.values ctx.row_size ctx.col_size ctx.row_size _
        (le_refl _) hind hinj i j hi hi' hj hj'
  · intro hren hpart
    have hguard : ¬ (true = true ∧ (UncompressedBlock.rootView ⟨ctx.row_offset, ctx.row_size⟩
        ⟨ctx.col_offset, ctx.col_size⟩ ctx.values (-1)).rowIndexSet_
          = ctx.matrix.rows.toIndexSet) := fun h => hpart h.2
    have hren2 : UncompressedBlock.renumberRows ctx.matrix true
        (UncompressedBlock.rootView ⟨ctx.row_offset, ctx.row_size⟩
          ⟨ctx.col_offset, ctx.col_size⟩ ctx.values (-1)) ext
        = .thrown "Cannot renumber" ext := by
      unfold UncompressedBlock.renumberRows
      rw [if_pos hguard]
    unfold get_block
    simp only [hext, hren, ne_eq, not_false_eq_true, if_true, hren2]

theorem get_block_renumbers_witness :
    ∃ extracted, UncompressedBlock.uncompress swappedLeaf ⟨0, 2⟩ ⟨0, 2⟩ 0 (-1) (fun _ => 0)
        = .ok extracted ∧
      ∃ ctx2 out, get_block ⟨swappedLeaf, 0, 0, 2, 0, 2, fun _ => 0, fun _ => 0, 1⟩
          (fun _ => 0) = .returned (0, ctx2) out ∧
        ∀ i j : Int, 0 ≤ i → i < 2 → 0 ≤ j → j < 2 →
          out (0 + ctx2.row_indices i + 2 * j) = extracted (0 + i + 2 * j) := by
  obtain ⟨extracted, h1, _, h3, _⟩ :=
    get_block_renumbers ⟨swappedLeaf, 0, 0, 2, 0, 2, fun _ => 0, fun _ => 0, 1⟩ (fun _ => 0)
      (by decide) (by decide) (by decide) (by decide)
  refine ⟨extracted, h1, h3 (by decide) (by decide) ?_ ?_⟩
  · intro i h0 h1
    have h2 : i < 2 := h1
    show 0 ≤ 1 - (0 + i) ∧ 1 - (0 + i) < 2
    omega
  · intro i i2 _ _ _ _ h
    have h2 : 1 - (0 + i) = 1 - (0 + i2) := h
    omega

end Claims7
end hmat
namespace hmat
section Claims9

/-- With at most one evaluator set, `assemble_generic` does one assembly,
followed by the factorization if one is selected and the assembly returned. -/
theorem assemble_generic_run (hmat : HMatInterface) (ctx : hmat_assemble_context_t)
    (h1 : ctx.assembly.isSome = true → ctx.block_compute = none ∧ ctx.simple_compute = none)
    (h2 : ctx.block_compute.isSome = true → ctx.simple_compute = none) :
    assemble_generic hmat ctx []
      = (match hmat.assemble (selectedEvaluator ctx) (selectedSymmetry ctx)
            (decide (ctx.factorization = .hmat_factorization_none)) with
        | some e => (some e, [Call.assemble (selectedEvaluator ctx) (selectedSymmetry ctx)
            (decide (ctx.factorization = .hmat_factorization_none))])
        | none =>
          if ctx.factorization = .hmat_factorization_none then
            (none, [Call.assemble (selectedEvaluator ctx) (selectedSymmetry ctx) true])
          else
            (hmat.factorize ctx.factorization,
              [Call.assemble (selectedEvaluator ctx) (selectedSymmetry ctx) false,
                Call.factorize ctx.factorization])) := by
  unfold assemble_generic selectedEvaluator selectedSymmetry
  cases ha : ctx.assembly with
  | some a =>
    obtain ⟨hb, hs⟩ := h1 (by simp [ha])
    simp only [hb, hs, and_self, decide_True, HMAT_ASSERT, Stmt.andThen, callAssemble,
      callFactorize, Stmt.skip, if_true, List.nil_append]
    cases hmat.assemble (.custom a)
      (if ctx.lower_symmetric ≠ 0 then .kLowerSymmetric else .kNotSymmetric)
      (decide (ctx.factorization = .hmat_factorization_none)) with
    | some e => rfl
    | none =>
      by_cases hf : ctx.factorization = .hmat_factorization_none
      · simp [hf, Stmt.skip]
      · simp [hf, callFactorize]
  | none =>
    cases hb : ctx.block_compute with
    | some b =>
      have hs := h2 (by simp [hb])
      simp only [hs, and_self, decide_True, HMAT_ASSERT, Stmt.andThen, callAssemble,
        callFactorize, Stmt.skip, if_true, List.nil_append]
      cases hmat.assemble (.block ctx.user_context ctx.prepare b)
        (if ctx.lower_symmetric ≠ 0 then .kLowerSymmetric else .kNotSymmetric)
        (decide (ctx.factorization = .hmat_factorization_none)) with
      | some e => rfl
      | none =>
        by_cases hf : ctx.factorization = .hmat_factorization_none
        · simp [hf, Stmt.skip]
        · simp [hf, callFactorize]
    | none =>
      simp only [and_self, decide_True, HMAT_ASSERT, Stmt.andThen, callAssemble,
        callFactorize, Stmt.skip, if_true, List.nil_append]
      cases hmat.assemble (.simple ctx.user_context ctx.simple_compute)
        (if ctx.lower_symmetric ≠ 0 then .kLowerSymmetric else .kNotSymmetric)
        (decide (ctx.factorization = .hmat_factorization_none)) with
      | some e => rfl
      | none =>
        by_cases hf : ctx.factorization = .hmat_factorization_none
        · simp [hf, Stmt.skip]
        · simp [hf, callFactorize]

/-- C10: assembly followed by factorization.  When `assemble_generic` selects
an evaluator (at most one of the three being set), it calls `assemble` once,
with the flag `assembleOnly` true exactly when `ctx.factorization` is
`hmat_factorization_none`; then, the assembly having returned, it calls
`factorize(ctx.factorization)` once if the factorization is not
`hmat_factorization_none`, and never otherwise; these are all its calls. -/
theorem assemble_generic_factorizes (hmat : HMatInterface) (ctx : hmat_assemble_context_t)
    (h1 : ctx.assembly.isSome = true → ctx.block_compute = none ∧ ctx.simple_compute = none)
    (h2 : ctx.block_compute.isSome = true → ctx.simple_compute = none) :
    ∃ assembleOnly : Bool,
      (assembleOnly = true ↔ ctx.factorization = .hmat_factorization_none) ∧
      (assemble_generic hmat ctx []).2
        = Call.assemble (selectedEvaluator ctx) (selectedSymmetry ctx) assembleOnly ::
            (if hmat.assemble (selectedEvaluator ctx) (selectedSymmetry ctx) assembleOnly = none
                ∧ ctx.factorization ≠ .hmat_factorization_none
              then [Call.factorize ctx.factorization] else []) ∧
      (ctx.factorization = .hmat_factorization_none →
        ∀ t, Call.factorize t ∉ (assemble_generic hmat ctx []).2) ∧
      (ctx.factorization ≠ .hmat_factorization_none →
        hmat.assemble (selectedEvaluator ctx) (selectedSymmetry ctx) assembleOnly = none →
        ((assemble_generic hmat ctx []).2.filter Call.isFactorize).length = 1) := by
  have hrun := assemble_generic_run hmat ctx h1 h2
  refine ⟨decide (ctx.factorization = .hmat_factorization_none), by simp, ?_, ?_, ?_⟩
  · rw [hrun]
    cases hmat.assemble (selectedEvaluator ctx) (selectedSymmetry ctx)
      (decide (ctx.factorization = .hmat_factorization_none)) with
    | some e => simp
    | none =>
      by_cases hf : ctx.factorization = .hmat_factorization_none
      · simp [hf]
      · simp [hf]
  · intro hf t
    rw [hrun]
    cases hmat.assemble (selectedEvaluator ctx) (selectedSymmetry ctx)
      (decide (ctx.factorization = .hmat_factorization_none)) with
    | some e => simp
    | none => simp [hf]
  · intro hf ha
    rw [hrun, ha]
    simp [hf, Call.isFactorize]

theorem assemble_generic_factorizes_witness :
    ∃ assembleOnly : Bool,
      (assembleOnly = true
        ↔ exampleAssembleContext.factorization = .hmat_factorization_none) ∧
      (assemble_generic workingInterface exampleAssembleContext []).2
        = Call.assemble (selectedEvaluator exampleAssembleContext)
            (selectedSymmetry exampleAssembleContext) assembleOnly ::
            (if workingInterface.assemble (selectedEvaluator exampleAssembleContext)
                  (selectedSymmetry exampleAssembleContext) assembleOnly = none
                ∧ exampleAssembleContext.factorization ≠ .hmat_factorization_none
              then [Call.factorize exampleAssembleContext.factorization] else []) ∧
      (exampleAssembleContext.factorization = .hmat_factorization_none →
        ∀ t, Call.factorize t ∉ (assemble_generic workingInterface exampleAssembleContext []).2) ∧
      (exampleAssembleContext.factorization ≠ .hmat_factorization_none →
        workingInterface.assemble (selectedEvaluator exampleAssembleContext)
          (selectedSymmetry exampleAssembleContext) assembleOnly = none →
        ((assemble_generic workingInterface exampleAssembleContext []).2.filter
          Call.isFactorize).length = 1) :=
  assemble_generic_factorizes workingInterface exampleAssembleContext (by decide) (by decide)

end Claims9
end hmat
namespace hmat
section Claims11

/-- With two evaluators set, `assemble_generic` throws at its assertion
before any call. -/
theorem assemble_generic_two_set (hmat : HMatInterface) (ctx : hmat_assemble_context_t)
    (h : (ctx.assembly.isSome = true ∧ ctx.block_compute.isSome = true)
      ∨ (ctx.assembly.isSome = true ∧ ctx.simple_compute.isSome = true)
      ∨ (ctx.block_compute.isSome = true ∧ ctx.simple_compute.isSome = true)) :
    assemble_generic hmat ctx [] = (some "HMAT_ASSERT", []) := by
  unfold assemble_generic
  cases ha : ctx.assembly with
  | some a =>
    cases hb : ctx.block_compute with
    | some b => simp [HMAT_ASSERT, Stmt.andThen]
    | none =>
      cases hs : ctx.simple_compute with
      | some s => simp [HMAT_ASSERT, Stmt.andThen]
      | none => simp [ha, hb, hs] at h
  | none =>
    cases hb : ctx.block_compute with
    | some b =>
      cases hs : ctx.simple_compute with
      | some s => simp [HMAT_ASSERT, Stmt.andThen]
      | none => simp [ha, hb, hs] at h
    | none => simp [ha, hb] at h

/-- The calls of `assemble_generic` start with the assembly when at most one
evaluator is set. -/
theorem assemble_generic_first_call (hmat : HMatInterface) (ctx : hmat_assemble_context_t)
    (h1 : ctx.assembly.isSome = true → ctx.block_compute = none ∧ ctx.simple_compute = none)
    (h2 : ctx.block_compute.isSome = true → ctx.simple_compute = none) :
    (assemble_generic hmat ctx []).2.head?
      = some (Call.assemble (selectedEvaluator ctx) (selectedSymmetry ctx)
          (decide (ctx.factorization = .hmat_factorization_none))) := by
  rw [assemble_generic_run hmat ctx h1 h2]
  cases hmat.assemble (selectedEvaluator ctx) (selectedSymmetry ctx)
    (decide (ctx.factorization = .hmat_factorization_none)) with
  | some e => rfl
  | none =>
    by_cases hf : ctx.factorization = .hmat_factorization_none
    · simp [hf]
    · simp [hf]

/-- C11: exactly one evaluator strategy per assembly call.  `assemble_generic`
throws at its `HMAT_ASSERT`, no call of `assemble` or `factorize` having been
made, if and only if at least two of `ctx.assembly`, `ctx.block_compute` and
`ctx.simple_compute` are set; otherwise its first call is the assembly, with
the custom assembly if `ctx.assembly` is set, else the block evaluator
(`prepare` and `block_compute`) if `ctx.block_compute` is set, else the
scalar evaluator `simple_compute`. -/
theorem assemble_generic_strategy (hmat : HMatInterface) (ctx : hmat_assemble_context_t) :
    (assemble_generic hmat ctx [] = (some "HMAT_ASSERT", [])
      ↔ ((ctx.assembly.isSome = true ∧ ctx.block_compute.isSome = true)
        ∨ (ctx.assembly.isSome = true ∧ ctx.simple_compute.isSome = true)
        ∨ (ctx.block_compute.isSome = true ∧ ctx.simple_compute.isSome = true))) ∧
    (¬ ((ctx.assembly.isSome = true ∧ ctx.block_compute.isSome = true)
        ∨ (ctx.assembly.isSome = true ∧ ctx.simple_compute.isSome = true)
        ∨ (ctx.block_compute.isSome = true ∧ ctx.simple_compute.isSome = true)) →
      ∃ f, (assemble_generic hmat ctx []).2.head?
          = some (Call.assemble f (selectedSymmetry ctx)
              (decide (ctx.factorization = .hmat_factorization_none))) ∧
        (∀ a, ctx.assembly = some a → f = .custom a) ∧
        (ctx.assembly = none → ∀ b, ctx.block_compute = some b →
          f = .block ctx.user_context ctx.prepare b) ∧
        (ctx.assembly = none → ctx.block_compute = none →
          f = .simple ctx.user_context ctx.simple_compute)) := by
  have hone : ¬ ((ctx.assembly.isSome = true ∧ ctx.block_compute.isSome = true)
        ∨ (ctx.assembly.isSome = true ∧ ctx.simple_compute.isSome = true)
        ∨ (ctx.block_compute.isSome = true ∧ ctx.simple_compute.isSome = true)) →
      (ctx.assembly.isSome = true → ctx.block_compute = none ∧ ctx.simple_compute = none)
        ∧ (ctx.block_compute.isSome = true → ctx.simple_compute = none) := by
    intro h
    cases ha : ctx.assembly <;> cases hb : ctx.block_compute <;>
      cases hs : ctx.simple_compute <;> simp [ha, hb, hs] at h ⊢
  constructor
  · constructor
    · intro hfail
      by_contra htwo
      obtain ⟨h1, h2⟩ := hone htwo
      have hfirst := assemble_generic_first_call hmat ctx h1 h2
      rw [hfail] at hfirst
      simp at hfirst
    · exact assemble_generic_two_set hmat ctx
  · intro htwo
    obtain ⟨h1, h2⟩ := hone htwo
    refine ⟨selectedEvaluator ctx, assemble_generic_first_call hmat ctx h1 h2, ?_, ?_, ?_⟩
    · intro a ha
      simp [selectedEvaluator, ha]
    · intro ha b hb
      simp [selectedEvaluator, ha, hb]
    · intro ha hb
      simp [selectedEvaluator, ha, hb]

theorem assemble_generic_strategy_witness :
    ∃ f, (assemble_generic workingInterface exampleAssembleContext []).2.head?
        = some (Call.assemble f (selectedSymmetry exampleAssembleContext)
            (decide (exampleAssembleContext.factorization = .hmat_factorization_none))) ∧
      (∀ a, exampleAssembleContext.assembly = some a → f = .custom a) ∧
      (exampleAssembleContext.assembly = none →
        ∀ b, exampleAssembleContext.block_compute = some b →
          f = .block exampleAssembleContext.user_context exampleAssembleContext.prepare b) ∧
      (exampleAssembleContext.assembly = none → exampleAssembleContext.block_compute = none →
        f = .simple exampleAssembleContext.user_context exampleAssembleContext.simple_compute) :=
  (assemble_generic_strategy workingInterface exampleAssembleContext).2 (by decide)

end Claims11
end hmat
namespace hmat
section Claims12

/-- C12 (as stated, refuted): with 256 types registered, `addType` returns
the `char` 0, whether `char` is signed or not, and not the number 256 of
types registered before the call. -/
theorem addType_index_wraps :
    (exampleInstrumenter 256).labels_.length = 256 ∧
    (∀ charIsSigned : Bool,
      ∃ s, MemoryInstrumenter.addType charIsSigned (exampleInstrumenter 256) "type" false
        none none = .ok (0, s)) := by
  have hlen0 : (exampleInstrumenter 256).labels_.length = 256 :=
    List.length_replicate 256 "type"
  refine ⟨hlen0, ?_⟩
  intro charIsSigned
  have hlen : ((exampleInstrumenter 256).labels_ ++ ["type"]).length = 257 := by
    rw [List.length_append, hlen0]
    rfl
  refine ⟨⟨(exampleInstrumenter 256).labels_ ++ ["type"],
    (exampleInstrumenter 256).cumulatives_ ++ [false], (exampleInstrumenter 256).hooks_ ++ [none],
    (exampleInstrumenter 256).hookParams_ ++ [none], (exampleInstrumenter 256).output_,
    (exampleInstrumenter 256).write_sampling⟩, ?_⟩
  have ho : (exampleInstrumenter 256).output_ = none := rfl
  have hw : (exampleInstrumenter 256).write_sampling = 1 ∨ false = false := Or.inr rfl
  unfold MemoryInstrumenter.addType
  rw [if_neg (not_not.mpr ho), if_neg (not_not.mpr hw)]
  simp only [hlen]
  cases charIsSigned
  · rfl
  · rfl

/-- C12 (amended): `addType` throws if and only if an output file is already
open ("Cannot call addType after setFile") or the type is cumulative while
`write_sampling` is not 1; otherwise it appends one entry to each of
`labels_`, `cumulatives_`, `hooks_` and `hookParams_`, which keep the same
length if they had it, and returns the zero-based index of the new type
converted to `char`: the number of types registered before the call
whenever that number is at most 127. -/
theorem addType_spec (charIsSigned : Bool) (self : MemoryInstrumenter) (label : String)
    (cumul : Bool) (hook param : Option Nat) :
    ((∃ e, MemoryInstrumenter.addType charIsSigned self label cumul hook param = .error e)
      ↔ (self.output_ ≠ none ∨ (cumul = true ∧ self.write_sampling ≠ 1))) ∧
    (self.output_ ≠ none →
      MemoryInstrumenter.addType charIsSigned self label cumul hook param
        = .error "Cannot call addType after setFile") ∧
    (¬ (self.output_ ≠ none ∨ (cumul = true ∧ self.write_sampling ≠ 1)) →
      MemoryInstrumenter.addType charIsSigned self label cumul hook param
        = .ok (toChar charIsSigned (self.labels_.length : Int),
            ⟨self.labels_ ++ [label], self.cumulatives_ ++ [cumul], self.hooks_ ++ [hook],
              self.hookParams_ ++ [param], self.output_, self.write_sampling⟩)) ∧
    (∀ idx s, MemoryInstrumenter.addType charIsSigned self label cumul hook param = .ok (idx, s) →
      s.labels_.length = self.labels_.length + 1 ∧
      s.cumulatives_.length = self.cumulatives_.length + 1 ∧
      s.hooks_.length = self.hooks_.length + 1 ∧
      s.hookParams_.length = self.hookParams_.length + 1 ∧
      (self.labels_.length ≤ 127 → idx = (self.labels_.length : Int))) := by
  have hchar : self.labels_.length ≤ 127 →
      toChar charIsSigned (self.labels_.length : Int) = (self.labels_.length : Int) := by
    intro h
    unfold toChar
    cases charIsSigned
    · simp only [Bool.false_eq_true, if_false]
      omega
    · simp only [if_true]
      omega
  have hok : ¬ (self.output_ ≠ none ∨ (cumul = true ∧ self.write_sampling ≠ 1)) →
      MemoryInstrumenter.addType charIsSigned self label cumul hook param
        = .ok (toChar charIsSigned (self.labels_.length : Int),
            ⟨self.labels_ ++ [label], self.cumulatives_ ++ [cumul], self.hooks_ ++ [hook],
              self.hookParams_ ++ [param], self.output_, self.write_sampling⟩) := by
    intro h
    have ho : self.output_ = none := by
      by_contra ho
      exact h (Or.inl ho)
    have hw : self.write_sampling = 1 ∨ cumul = false := by
      by_contra hw
      apply h
      right
      constructor
      · cases cumul
        · exact absurd (Or.inr rfl) hw
        · rfl
      · intro h1
        exact hw (Or.inl h1)
    unfold MemoryInstrumenter.addType
    rw [if_neg (not_not.mpr ho), if_neg (not_not.mpr hw)]
    simp only [List.length_append, List.length_singleton, Nat.cast_add, Nat.cast_one,
      add_sub_cancel_right]
  have herr : (self.output_ ≠ none ∨ (cumul = true ∧ self.write_sampling ≠ 1)) →
      ∃ e, MemoryInstrumenter.addType charIsSigned self label cumul hook param = .error e := by
    intro h
    unfold MemoryInstrumenter.addType
    by_cases ho : self.output_ = none
    · rw [if_neg (not_not.mpr ho)]
      have hw : ¬ (self.write_sampling = 1 ∨ cumul = false) := by
        rcases h with h | h
        · exact absurd ho h
        · intro hw
          rcases hw with hw | hw
          · exact h.2 hw
          · rw [h.1] at hw
            exact absurd hw (by simp)
      rw [if_pos hw]
      exact ⟨_, rfl⟩
    · rw [if_pos ho]
      exact ⟨_, rfl⟩
  refine ⟨⟨?_, herr⟩, ?_, hok, ?_⟩
  · rintro ⟨e, he⟩
    by_contra h
    rw [hok h] at he
    exact absurd he (by simp)
  · intro ho
    unfold MemoryInstrumenter.addType
    rw [if_pos ho]
  · intro idx s hs
    by_cases h : (self.output_ ≠ none ∨ (cumul = true ∧ self.write_sampling ≠ 1))
    · obtain ⟨e, he⟩ := herr h
      rw [he] at hs
      exact absurd hs (by simp)
    · rw [hok h] at hs
      simp only [Except.ok.injEq, Prod.mk.injEq] at hs
      obtain ⟨h1, h2⟩ := hs
      subst h2
      simp only [List.length_append, List.length_singleton, true_and]
      intro hle
      rw [← h1]
      exact hchar hle

theorem addType_spec_witness :
    MemoryInstrumenter.addType true (exampleInstrumenter 2) "RSS" false (some 1) none
      = .ok (toChar true ((exampleInstrumenter 2).labels_.length : Int),
          ⟨(exampleInstrumenter 2).labels_ ++ ["RSS"],
            (exampleInstrumenter 2).cumulatives_ ++ [false],
            (exampleInstrumenter 2).hooks_ ++ [some 1],
            (exampleInstrumenter 2).hookParams_ ++ [none],
            (exampleInstrumenter 2).output_, (exampleInstrumenter 2).write_sampling⟩) :=
  (addType_spec true (exampleInstrumenter 2) "RSS" false (some 1) none).2.2.1 (by decide)

end Claims12
end hmat
namespace hmat
section Claims13
variable {T : Type}

/-- C13: exactness on a Full leaf.  When the root is a single Full leaf
without pivot or diagonal side-data, for every scattered query (of any
length, in any order, indices repeated or not) written with a leading
dimension that is at least `rowSize`, the call returns and for every
`i < rowSize` and `j < colSize` the buffer entry `values[i + ld*j]` is
`full.get(rowRev[rows[i]-1] - rowOffset, colRev[cols[j]-1] - colOffset)`; in
particular a query of one row and one column gets the stored value of that
entry at `values[0]`. -/
theorem scattered_full_leaf_exact [Semiring T] (rows cols : ClusterData) (f : FullMatrix T)
    (qrows : Int → Int) (rowSize : Int) (qcols : Int → Int) (colSize : Int) (values ld : Int)
    (buf : Int → T) (hp : f.pivots = none) (hd : f.diagonal = none)
    (hld : rowSize ≤ (if ld = -1 then rowSize else ld)) :
    ∃ out, UncompressedValues.uncompress (.full rows cols f) true qrows rowSize qcols colSize
        values ld buf = .ok out ∧
      (∀ i j : Int, 0 ≤ i → i < rowSize → 0 ≤ j → j < colSize →
        out (values + (i + (if ld = -1 then rowSize else ld) * j))
          = f.get (rows.indices_rev (qrows i - 1) - rows.offset)
              (cols.indices_rev (qcols j - 1) - cols.offset)) ∧
      (rowSize = 1 → colSize = 1 →
        out values = f.get (rows.indices_rev (qrows 0 - 1) - rows.offset)
          (cols.indices_rev (qcols 0 - 1) - cols.offset)) := by
  obtain ⟨out, h1, h2⟩ := scattered_leaf_spec (.full rows cols f) rfl
    (by
      intro r c g h
      simp only [HMatrix.full.injEq] at h
      rw [← h.2.2]
      exact ⟨hp, hd⟩)
    qrows rowSize qcols colSize values ld buf hld
  refine ⟨out, h1, ?_, ?_⟩
  · intro i j hi hi' hj hj'
    exact h2 i j hi hi' hj hj'
  · intro hr hc
    have := h2 0 0 (le_refl _) (by omega) (le_refl _) (by omega)
    simpa [leafEntry, HMatrix.rows, HMatrix.cols] using this

theorem scattered_full_leaf_exact_witness :
    ∃ out, UncompressedValues.uncompress
        (.full (exampleCluster 0 2) (exampleCluster 0 2) (exampleFull [5, 7, 8, 9] 2 2)) true
        (exampleArray [2, 1, 2]) 3 (exampleArray [1, 2]) 2 0 (-1) (fun _ => -1) = .ok out ∧
      (∀ i j : Int, 0 ≤ i → i < 3 → 0 ≤ j → j < 2 →
        out (0 + (i + (if (-1 : Int) = -1 then 3 else -1) * j))
          = (exampleFull [5, 7, 8, 9] 2 2).get
              ((exampleCluster 0 2).indices_rev (exampleArray [2, 1, 2] i - 1)
                - (exampleCluster 0 2).offset)
              ((exampleCluster 0 2).indices_rev (exampleArray [1, 2] j - 1)
                - (exampleCluster 0 2).offset)) ∧
      ((3 : Int) = 1 → (2 : Int) = 1 →
        out 0 = (exampleFull [5, 7, 8, 9] 2 2).get
          ((exampleCluster 0 2).indices_rev (exampleArray [2, 1, 2] 0 - 1)
            - (exampleCluster 0 2).offset)
          ((exampleCluster 0 2).indices_rev (exampleArray [1, 2] 0 - 1)
            - (exampleCluster 0 2).offset)) :=
  scattered_full_leaf_exact (exampleCluster 0 2) (exampleCluster 0 2)
    (exampleFull [5, 7, 8, 9] 2 2) (exampleArray [2, 1, 2]) 3 (exampleArray [1, 2]) 2 0 (-1)
    (fun _ => -1) rfl rfl (by decide)

/-- The low-rank leaf method as two block writes: zeros, then the product. -/
theorem getRkValues_eq [Semiring T] (rows cols : ClusterData) (rank : Int) (rk : RkMatrix T)
    (v : View) (buf : Int → T) :
    getRkValues rows cols rank rk v buf
      = blockWrite (fun i j old =>
          1 * dotRow rk.a.m (v.rowIndexSet_.offset - rows.offset) rows.size rk.b.m
            (v.colIndexSet_.offset - cols.offset) cols.size i j rank.toNat + 0 * old)
          v.values_ v.lDim_ v.rowIndexSet_.size v.colIndexSet_.size
          (blockWrite (fun _ _ _ => 0) v.values_ v.lDim_ v.rowIndexSet_.size
            v.colIndexSet_.size buf) := by
  unfold getRkValues
  rw [getNullValues_eq]
  rfl

/-- C14: LowRank leaf materialisation restricted to the sub-range.  For a
LowRank leaf of rank `k` with factors `a` and `b` of leading dimensions the
leaf's row and column counts, and a view whose leading dimension is at least
its row count, `getRkValues` puts at `values[i + ld*j]`, for every `i < nr`
and `j < nc`, the sum over `l < k` of
`a[(rows.offset - leaf.rows.offset) + i, l] * b[(cols.offset - leaf.cols.offset) + j, l]`;
the previous content of the buffer does not contribute, and for rank 0 the
block written is all zeros. -/
theorem getRkValues_spec [Semiring T] (rows cols : ClusterData) (rank : Int) (rk : RkMatrix T)
    (v : View) (buf : Int → T) (hld : v.rowIndexSet_.size ≤ v.lDim_) :
    ∀ i j : Int, 0 ≤ i → i < v.rowIndexSet_.size → 0 ≤ j → j < v.colIndexSet_.size →
      getRkValues rows cols rank rk v buf (v.values_ + (i + v.lDim_ * j))
        = ((Finset.range rank.toNat).sum fun l =>
            rk.a.m (((v.rowIndexSet_.offset - rows.offset) + i) + rows.size * (l : Int))
              * rk.b.m (((v.colIndexSet_.offset - cols.offset) + j) + cols.size * (l : Int))) ∧
      (∀ buf2 : Int → T,
        getRkValues rows cols rank rk v buf2 (v.values_ + (i + v.lDim_ * j))
          = getRkValues rows cols rank rk v buf (v.values_ + (i + v.lDim_ * j))) ∧
      (rank = 0 → getRkValues rows cols rank rk v buf (v.values_ + (i + v.lDim_ * j)) = 0) := by
  intro i j hi hi' hj hj'
  have key : ∀ b : Int → T,
      getRkValues rows cols rank rk v b (v.values_ + (i + v.lDim_ * j))
        = ((Finset.range rank.toNat).sum fun l =>
            rk.a.m (((v.rowIndexSet_.offset - rows.offset) + i) + rows.size * (l : Int))
              * rk.b.m (((v.colIndexSet_.offset - cols.offset) + j) + cols.size * (l : Int))) := by
    intro b
    rw [getRkValues_eq, ← add_assoc,
      (blockWrite_spec _ v.values_ v.lDim_ v.rowIndexSet_.size v.colIndexSet_.size hld _).1
        i j hi hi' hj hj']
    simp only [one_mul, zero_mul, add_zero, dotRow_eq_sum]
  refine ⟨key buf, fun buf2 => (key buf2).trans (key buf).symm, ?_⟩
  intro h0
  rw [key buf, h0]
  simp

theorem getRkValues_spec_witness :
    getRkValues (exampleCluster 2 4) (exampleCluster 4 4) 2 ⟨exampleDense, exampleDense⟩
        exampleView (fun _ => -1) (exampleView.values_ + (1 + exampleView.lDim_ * 2))
      = ((Finset.range (2 : Int).toNat).sum fun l =>
          exampleDense.m (((exampleView.rowIndexSet_.offset - (exampleCluster 2 4).offset) + 1)
              + (exampleCluster 2 4).size * (l : Int))
            * exampleDense.m
              (((exampleView.colIndexSet_.offset - (exampleCluster 4 4).offset) + 2)
                + (exampleCluster 4 4).size * (l : Int))) ∧
    (∀ buf2 : Int → Int,
      getRkValues (exampleCluster 2 4) (exampleCluster 4 4) 2 ⟨exampleDense, exampleDense⟩
          exampleView buf2 (exampleView.values_ + (1 + exampleView.lDim_ * 2))
        = getRkValues (exampleCluster 2 4) (exampleCluster 4 4) 2 ⟨exampleDense, exampleDense⟩
          exampleView (fun _ => -1) (exampleView.values_ + (1 + exampleView.lDim_ * 2))) ∧
    ((2 : Int) = 0 →
      getRkValues (exampleCluster 2 4) (exampleCluster 4 4) 2 ⟨exampleDense, exampleDense⟩
        exampleView (fun _ => -1) (exampleView.values_ + (1 + exampleView.lDim_ * 2)) = 0) :=
  getRkValues_spec (exampleCluster 2 4) (exampleCluster 4 4) 2 ⟨exampleDense, exampleDense⟩
    exampleView (fun _ => -1) (by decide) 1 2 (by decide) (by decide) (by decide) (by decide)

/-- C15: Full leaf offset copy.  For a Full leaf with dense buffer `m` and
leading dimension `lda` and a non-empty view that lies inside the leaf's
extent, with a leading dimension at least its row count, `getFullValues`
returns and puts at `values[i + ld*j]`, for every `i < nr` and `j < nc`,
the value `m[(localRowOffset + i) + lda*(localColOffset + j)]`, the offsets
being `rows.offset - leaf.rows.offset` and `cols.offset - leaf.cols.offset`;
the rest of the target is as before, and the leaf, which the method only
reads, is the same after the call. -/
theorem getFullValues_spec (rows cols : ClusterData) (f : FullMatrix T) (v : View)
    (buf : Int → T) (hr : 0 < v.rowIndexSet_.size) (hc : 0 < v.colIndexSet_.size)
    (hrs : v.rowIndexSet_.isSubset rows.toIndexSet) (hcs : v.colIndexSet_.isSubset cols.toIndexSet)
    (hld : v.rowIndexSet_.size ≤ v.lDim_) :
    ∃ out, getFullValues rows cols f v buf = .ok out ∧
      (∀ i j : Int, 0 ≤ i → i < v.rowIndexSet_.size → 0 ≤ j → j < v.colIndexSet_.size →
        out (v.values_ + (i + v.lDim_ * j))
          = f.m (((v.rowIndexSet_.offset - rows.offset) + i)
              + f.lda * ((v.colIndexSet_.offset - cols.offset) + j))) ∧
      (∀ p, (∀ i j : Int, 0 ≤ i → i < v.rowIndexSet_.size → 0 ≤ j → j < v.colIndexSet_.size →
        p ≠ v.values_ + (i + v.lDim_ * j)) → out p = buf p) := by
  unfold IndexSet.isSubset at hrs hcs
  have h1 : v.rowIndexSet_.offset - rows.offset ≥ 0 := by omega
  have h2 : v.colIndexSet_.offset - cols.offset ≥ 0 := by omega
  have heq : copyMatrixAtOffset buf v.values_ v.lDim_ f.m
        (v.rowIndexSet_.offset - rows.offset + f.lda * (v.colIndexSet_.offset - cols.offset))
        f.lda v.rowIndexSet_.size v.colIndexSet_.size 0 0
      = blockWrite (fun i j _ => f.m ((v.rowIndexSet_.offset - rows.offset
          + f.lda * (v.colIndexSet_.offset - cols.offset)) + i + f.lda * j))
          v.values_ v.lDim_ v.rowIndexSet_.size v.colIndexSet_.size buf := by
    unfold copyMatrixAtOffset blockWrite
    simp only [add_zero]
  have hs := blockWrite_spec (fun i j (_ : T) => f.m ((v.rowIndexSet_.offset - rows.offset
      + f.lda * (v.colIndexSet_.offset - cols.offset)) + i + f.lda * j))
    v.values_ v.lDim_ v.rowIndexSet_.size v.colIndexSet_.size hld buf
  refine ⟨copyMatrixAtOffset buf v.values_ v.lDim_ f.m
        (v.rowIndexSet_.offset - rows.offset + f.lda * (v.colIndexSet_.offset - cols.offset))
        f.lda v.rowIndexSet_.size v.colIndexSet_.size 0 0, ?_, ?_, ?_⟩
  · simp only [getFullValues, h1, h2, not_true_eq_false, if_false]
  · intro i j hi hi' hj hj'
    rw [heq, ← add_assoc, hs.1 i j hi hi' hj hj']
    congr 1
    ring
  · intro p hp
    rw [heq]
    apply hs.2
    intro i j hi hi' hj hj'
    rw [add_assoc]
    exact hp i j hi hi' hj hj'

theorem getFullValues_spec_witness :
    ∃ out, getFullValues (exampleCluster 2 4) (exampleCluster 4 4) exampleDense exampleView
        (fun _ => -1) = .ok out ∧
      (∀ i j : Int, 0 ≤ i → i < exampleView.rowIndexSet_.size → 0 ≤ j →
        j < exampleView.colIndexSet_.size →
        out (exampleView.values_ + (i + exampleView.lDim_ * j))
          = exampleDense.m (((exampleView.rowIndexSet_.offset - (exampleCluster 2 4).offset) + i)
              + exampleDense.lda
                * ((exampleView.colIndexSet_.offset - (exampleCluster 4 4).offset) + j))) ∧
      (∀ p, (∀ i j : Int, 0 ≤ i → i < exampleView.rowIndexSet_.size → 0 ≤ j →
        j < exampleView.colIndexSet_.size →
        p ≠ exampleView.values_ + (i + exampleView.lDim_ * j)) →
        out p = (fun _ => (-1 : Int)) p) :=
  getFullValues_spec (exampleCluster 2 4) (exampleCluster 4 4) exampleDense exampleView
    (fun _ => -1) (by decide) (by decide) (by decide) (by decide) (by decide)

end Claims13
end hmat
namespace hmat
section Claims16

theorem pairLe_total (a b : Int × Int) : pairLe a b ∨ pairLe b a := by
  unfold pairLe
  omega

theorem pairLe_trans (a b c : Int × Int) (h1 : pairLe a b) (h2 : pairLe b c) : pairLe a c := by
  unfold pairLe at *
  omega

/-- The query `createQuery` builds is sorted. -/
theorem createQuery_sorted (cd : ClusterData) (query : Int → Int) (n : Int) :
    (createQuery cd query n).Sorted pairLe := by
  haveI : IsTotal (Int × Int) (fun a b : Int × Int => a.1 < b.1 ∨ (a.1 = b.1 ∧ a.2 ≤ b.2)) :=
    ⟨pairLe_total⟩
  haveI : IsTrans (Int × Int) (fun a b : Int × Int => a.1 < b.1 ∨ (a.1 = b.1 ∧ a.2 ≤ b.2)) :=
    ⟨pairLe_trans⟩
  show List.Sorted (fun a b : Int × Int => a.1 < b.1 ∨ (a.1 = b.1 ∧ a.2 ≤ b.2)) _
  unfold createQuery
  exact List.sorted_insertionSort _ _

/-- The query `createQuery` builds is a rearrangement of the pairs. -/
theorem createQuery_perm (cd : ClusterData) (query : Int → Int) (n : Int) :
    (createQuery cd query n).Perm
      ((List.range n.toNat).map fun (i : Nat) =>
        (cd.indices_rev (query (i : Int) - 1), (i : Int))) := by
  unfold createQuery
  exact List.perm_insertionSort _ _

/-- C16: `createQuery` converts a query of the C interface into pairs
(hmat id, original position).  For a query array of length `n` the result
has length `n`, is sorted in ascending lexicographic order of (hmat id,
original position), and is a permutation of the pairs
`(indices_rev[query[i] - 1], i)` for `i` in `0..n-1`; in particular its
second components are a permutation of `0..n-1`.  The query array is an
input only. -/
theorem createQuery_contract (cd : ClusterData) (query : Int → Int) (n : Int) (hn : 0 ≤ n) :
    ((createQuery cd query n).length : Int) = n ∧
    (createQuery cd query n).Sorted pairLe ∧
    (createQuery cd query n).Perm
      ((List.range n.toNat).map fun (i : Nat) =>
        (cd.indices_rev (query (i : Int) - 1), (i : Int))) ∧
    ((createQuery cd query n).map Prod.snd).Perm
      ((List.range n.toNat).map fun (i : Nat) => (i : Int)) := by
  refine ⟨?_, createQuery_sorted cd query n, createQuery_perm cd query n, ?_⟩
  · rw [createQuery_length]
    omega
  · have h := (createQuery_perm cd query n).map Prod.snd
    simpa [List.map_map, Function.comp_def] using h

theorem createQuery_contract_witness :
    ((createQuery (exampleCluster 0 3) (exampleArray [3, 1, 3, 2]) 4).length : Int) = 4 ∧
    (createQuery (exampleCluster 0 3) (exampleArray [3, 1, 3, 2]) 4).Sorted pairLe ∧
    (createQuery (exampleCluster 0 3) (exampleArray [3, 1, 3, 2]) 4).Perm
      ((List.range (4 : Int).toNat).map fun (i : Nat) =>
        ((exampleCluster 0 3).indices_rev (exampleArray [3, 1, 3, 2] (i : Int) - 1), (i : Int))) ∧
    ((createQuery (exampleCluster 0 3) (exampleArray [3, 1, 3, 2]) 4).map Prod.snd).Perm
      ((List.range (4 : Int).toNat).map fun (i : Nat) => (i : Int)) :=
  createQuery_contract (exampleCluster 0 3) (exampleArray [3, 1, 3, 2]) 4 (by decide)

end Claims16
end hmat
namespace hmat
section Claims17

/-- The bisection of `std::lower_bound` returns the partition point of a
range partitioned by `< val`. -/
theorem lowerBoundAux_spec (q : List (Int × Int)) (val : Int × Int) :
    ∀ (fuel : Nat) (first len : Int), 0 ≤ len → len < (fuel : Int) →
      (∀ i j, first ≤ i → i ≤ j → j < first + len →
        pairLt (pairAt q j) val = true → pairLt (pairAt q i) val = true) →
      first ≤ lowerBoundAux q val fuel first len ∧
      lowerBoundAux q val fuel first len ≤ first + len ∧
      (∀ i, first ≤ i → i < lowerBoundAux q val fuel first len →
        pairLt (pairAt q i) val = true) ∧
      (∀ i, lowerBoundAux q val fuel first len ≤ i → i < first + len →
        pairLt (pairAt q i) val = false) := by
  intro fuel
  induction fuel with
  | zero =>
    intro first len h0 h1
    exact absurd h1 (by simp only [Nat.cast_zero]; omega)
  | succ n ih =>
    intro first len h0 h1 hmono
    have h1' : len < (n : Int) + 1 := by exact_mod_cast h1
    unfold lowerBoundAux
    by_cases hl : len ≤ 0
    · rw [if_pos hl]
      exact ⟨le_refl _, by omega, fun i a b => absurd b (by omega),
        fun i a b => absurd b (by omega)⟩
    · rw [if_neg hl]
      simp only
      by_cases hm : pairLt (pairAt q (first + len / 2)) val = true
      · rw [if_pos hm]
        obtain ⟨r1, r2, r3, r4⟩ := ih (first + len / 2 + 1) (len - len / 2 - 1) (by omega)
          (by omega)
          (fun i j a b c d => hmono i j (by omega) b (by omega) d)
        refine ⟨by omega, by omega, ?_, ?_⟩
        · intro i a b
          by_cases hi : i ≤ first + len / 2
          · exact hmono i (first + len / 2) a hi (by omega) hm
          · exact r3 i (by omega) b
        · intro i a b
          exact r4 i a (by omega)
      · rw [if_neg hm]
        obtain ⟨r1, r2, r3, r4⟩ := ih first (len / 2) (by omega) (by omega)
          (fun i j a b c d => hmono i j a b (by omega) d)
        refine ⟨r1, by omega, r3, ?_⟩
        intro i a b
        by_cases hi : i < first + len / 2
        · exact r4 i a hi
        · cases hv : pairLt (pairAt q i) val with
          | false => rfl
          | true => exact absurd (hmono (first + len / 2) i (by omega) (by omega) b hv) hm

/-- The bisection of `std::upper_bound` returns the partition point of a
range partitioned by `not (val < .)`. -/
theorem upperBoundAux_spec (q : List (Int × Int)) (val : Int × Int) :
    ∀ (fuel : Nat) (first len : Int), 0 ≤ len → len < (fuel : Int) →
      (∀ i j, first ≤ i → i ≤ j → j < first + len →
        pairLt val (pairAt q i) = true → pairLt val (pairAt q j) = true) →
      first ≤ upperBoundAux q val fuel first len ∧
      upperBoundAux q val fuel first len ≤ first + len ∧
      (∀ i, first ≤ i → i < upperBoundAux q val fuel first len →
        pairLt val (pairAt q i) = false) ∧
      (∀ i, upperBoundAux q val fuel first len ≤ i → i < first + len →
        pairLt val (pairAt q i) = true) := by
  intro fuel
  induction fuel with
  | zero =>
    intro first len h0 h1
    exact absurd h1 (by simp only [Nat.cast_zero]; omega)
  | succ n ih =>
    intro first len h0 h1 hmono
    have h1' : len < (n : Int) + 1 := by exact_mod_cast h1
    unfold upperBoundAux
    by_cases hl : len ≤ 0
    · rw [if_pos hl]
      exact ⟨le_refl _, by omega, fun i a b => absurd b (by omega),
        fun i a b => absurd b (by omega)⟩
    · rw [if_neg hl]
      simp only
      by_cases hm : pairLt val (pairAt q (first + len / 2)) = true
      · rw [if_pos hm]
        obtain ⟨r1, r2, r3, r4⟩ := ih first (len / 2) (by omega) (by omega)
          (fun i j a b c d => hmono i j a b (by omega) d)
        refine ⟨r1, by omega, r3, ?_⟩
        intro i a b
        by_cases hi : i < first + len / 2
        · exact r4 i a hi
        · exact hmono (first + len / 2) i (by omega) (by omega) b hm
      · rw [if_neg hm]
        obtain ⟨r1, r2, r3, r4⟩ := ih (first + len / 2 + 1) (len - len / 2 - 1) (by omega)
          (by omega)
          (fun i j a b c d => hmono i j (by omega) b (by omega) d)
        refine ⟨by omega, by omega, ?_, ?_⟩
        · intro i a b
          by_cases hi : i ≤ first + len / 2
          · cases hv : pairLt val (pairAt q i) with
            | false => rfl
            | true => exact absurd (hmono i (first + len / 2) a hi (by omega) hv) hm
          · exact r3 i (by omega) b
        · intro i a b
          exact r4 i a (by omega)

theorem pairLt_lower (x : Int × Int) (lb : Int) (h : 0 ≤ x.2) :
    pairLt x (lb, 0) = true ↔ x.1 < lb := by
  simp only [pairLt, decide_eq_true_eq]
  omega

theorem pairLt_upper (x : Int × Int) (ub : Int) (h : x.2 ≤ 2147483647) :
    pairLt (ub, 2147483647) x = true ↔ ub < x.1 := by
  simp only [pairLt, decide_eq_true_eq]
  omega

/-- On a sorted range with non-negative positions `std::lower_bound` with
`(lb, 0)` finds the first pair whose hmat id is at least `lb`. -/
theorem lower_bound_spec (q : List (Int × Int)) (b e lb : Int) (hbe : b ≤ e)
    (hsorted : ∀ i j, b ≤ i → i ≤ j → j < e → pairLe (pairAt q i) (pairAt q j))
    (hsec : ∀ i, b ≤ i → i < e → 0 ≤ (pairAt q i).2) :
    b ≤ lower_bound q b e (lb, 0) ∧ lower_bound q b e (lb, 0) ≤ e ∧
    (∀ i, b ≤ i → i < lower_bound q b e (lb, 0) → (pairAt q i).1 < lb) ∧
    (∀ i, lower_bound q b e (lb, 0) ≤ i → i < e → lb ≤ (pairAt q i).1) := by
  have h := lowerBoundAux_spec q (lb, 0) (e - b).toNat.succ b (e - b) (by omega)
    (by rw [Nat.succ_eq_add_one]; push_cast; omega)
    (by
      intro i j hi hij hj hlt
      have hj' : j < e := by omega
      rw [pairLt_lower _ _ (hsec j (by omega) hj')] at hlt
      rw [pairLt_lower _ _ (hsec i hi (by omega))]
      have := hsorted i j hi hij hj'
      unfold pairLe at this
      omega)
  have e1 : b + (e - b) = e := by omega
  rw [e1] at h
  obtain ⟨h1, h2, h3, h4⟩ := h
  refine ⟨h1, h2, ?_, ?_⟩
  · intro i hi hi'
    have hi2 : i < e := lt_of_lt_of_le hi' h2
    exact (pairLt_lower _ _ (hsec i hi hi2)).1 (h3 i hi hi')
  · intro i hi hi'
    have hb : b ≤ i := le_trans h1 hi
    have := h4 i hi hi'
    by_contra hc
    have := (pairLt_lower _ lb (hsec i hb hi')).2 (by omega)
    simp_all

/-- On a sorted range with positions below the largest `int`,
`std::upper_bound` with `(ub, INT_MAX)` finds the first pair whose hmat id is
greater than `ub`. -/
theorem upper_bound_spec (q : List (Int × Int)) (b e ub : Int) (hbe : b ≤ e)
    (hsorted : ∀ i j, b ≤ i → i ≤ j → j < e → pairLe (pairAt q i) (pairAt q j))
    (hsec : ∀ i, b ≤ i → i < e → (pairAt q i).2 ≤ 2147483647) :
    b ≤ upper_bound q b e (ub, 2147483647) ∧ upper_bound q b e (ub, 2147483647) ≤ e ∧
    (∀ i, b ≤ i → i < upper_bound q b e (ub, 2147483647) → (pairAt q i).1 ≤ ub) ∧
    (∀ i, upper_bound q b e (ub, 2147483647) ≤ i → i < e → ub < (pairAt q i).1) := by
  have h := upperBoundAux_spec q (ub, 2147483647) (e - b).toNat.succ b (e - b) (by omega)
    (by rw [Nat.succ_eq_add_one]; push_cast; omega)
    (by
      intro i j hi hij hj hlt
      have hj' : j < e := by omega
      rw [pairLt_upper _ _ (hsec i hi (by omega))] at hlt
      rw [pairLt_upper _ _ (hsec j (by omega) hj')]
      have := hsorted i j hi hij hj'
      unfold pairLe at this
      omega)
  have e1 : b + (e - b) = e := by omega
  rw [e1] at h
  obtain ⟨h1, h2, h3, h4⟩ := h
  refine ⟨h1, h2, ?_, ?_⟩
  · intro i hi hi'
    have hi2 : i < e := lt_of_lt_of_le hi' h2
    have := h3 i hi hi'
    by_contra hc
    have := (pairLt_upper _ ub (hsec i hi hi2)).2 (by omega)
    simp_all
  · intro i hi hi'
    have hb : b ≤ i := le_trans h1 hi
    exact (pairLt_upper _ _ (hsec i hb hi')).1 (h4 i hi hi')

/-- What `compatibleQuery` leaves in the two iterators when it returns. -/
theorem compatibleQuery_post (q : List (Int × Int)) (cd : IndexSet) (b e : Int) (hbe : b ≤ e)
    (hsorted : ∀ i j, b ≤ i → i ≤ j → j < e → pairLe (pairAt q i) (pairAt q j))
    (hsec : ∀ i, b ≤ i → i < e → 0 ≤ (pairAt q i).2 ∧ (pairAt q i).2 < 2147483647)
    (hs : 0 ≤ cd.size) (r : IndiceIt × IndiceIt)
    (hr : compatibleQuery q cd (some b) (some e) = .ok r) :
    ∃ b' e', r = (some b', some e') ∧ b ≤ b' ∧ b' ≤ e' ∧ e' ≤ e ∧
      (∀ p, b ≤ p → p < e →
        ((b' ≤ p ∧ p < e') ↔
          (cd.offset ≤ (pairAt q p).1 ∧ (pairAt q p).1 ≤ cd.offset + cd.size - 1))) ∧
      (e' < e → cd.offset + cd.size - 1 < (pairAt q e').1) := by
  obtain ⟨l1, l2, l3, l4⟩ := lower_bound_spec q b e cd.offset hbe hsorted
    (fun i hi hi' => (hsec i hi hi').1)
  obtain ⟨u1, u2, u3, u4⟩ := upper_bound_spec q b e (cd.offset + cd.size - 1) hbe hsorted
    (fun i hi hi' => le_of_lt (hsec i hi hi').2)
  simp only [compatibleQuery] at hr
  by_cases hn : lower_bound q b e (cd.offset, 0) = e
  · rw [if_pos hn] at hr
    injection hr with hr
    refine ⟨lower_bound q b e (cd.offset, 0), e, hr.symm, l1, l2, le_refl _, ?_, ?_⟩
    · intro p hp hp'
      constructor
      · intro h
        omega
      · intro h
        have := l3 p hp (by omega)
        omega
    · intro h
      omega
  · rw [if_neg hn] at hr
    have hlt : lower_bound q b e (cd.offset, 0) < e := lt_of_le_of_ne l2 hn
    have hle : lower_bound q b e (cd.offset, 0)
        ≤ upper_bound q b e (cd.offset + cd.size - 1, 2147483647) := by
      by_contra hc
      have a1 := l3 (upper_bound q b e (cd.offset + cd.size - 1, 2147483647)) u1 (by omega)
      have a2 := u4 (upper_bound q b e (cd.offset + cd.size - 1, 2147483647)) (le_refl _)
        (by omega)
      omega
    refine ⟨lower_bound q b e (cd.offset, 0),
      upper_bound q b e (cd.offset + cd.size - 1, 2147483647), ?_, l1, hle, u2, ?_, ?_⟩
    · split at hr
      · exact absurd hr (by simp)
      · split at hr
        · exact absurd hr (by simp)
        · split at hr
          · exact absurd hr (by simp)
          · split at hr
            · exact absurd hr (by simp)
            · injection hr with hr
              exact hr.symm
    · intro p hp hp'
      constructor
      · intro h
        exact ⟨l4 p h.1 hp', u3 p hp h.2⟩
      · intro h
        constructor
        · by_contra hc
          have := l3 p hp (by omega)
          omega
        · by_contra hc
          have := u4 p (by omega) hp'
          omega
    · intro h
      exact u4 _ (le_refl _) h

/-- When `compatibleQuery` returns: always, unless the range is not empty
and even its first pair lies beyond the cluster (the second assertion then
reads the element before the range). -/
theorem compatibleQuery_returns (q : List (Int × Int)) (cd : IndexSet) (b e : Int) (hbe : b ≤ e)
    (hsorted : ∀ i j, b ≤ i → i ≤ j → j < e → pairLe (pairAt q i) (pairAt q j))
    (hsec : ∀ i, b ≤ i → i < e → 0 ≤ (pairAt q i).2 ∧ (pairAt q i).2 < 2147483647)
    (hb : 0 ≤ b) (he : e ≤ (q.length : Int))
    (hfirst : b = e ∨ (pairAt q b).1 ≤ cd.offset + cd.size - 1) :
    ∃ r, compatibleQuery q cd (some b) (some e) = .ok r := by
  obtain ⟨l1, l2, l3, l4⟩ := lower_bound_spec q b e cd.offset hbe hsorted
    (fun i hi hi' => (hsec i hi hi').1)
  obtain ⟨u1, u2, u3, u4⟩ := upper_bound_spec q b e (cd.offset + cd.size - 1) hbe hsorted
    (fun i hi hi' => le_of_lt (hsec i hi hi').2)
  simp only [compatibleQuery]
  by_cases hn : lower_bound q b e (cd.offset, 0) = e
  · rw [if_pos hn]
    exact ⟨_, rfl⟩
  · rw [if_neg hn]
    have hlt : lower_bound q b e (cd.offset, 0) < e := lt_of_le_of_ne l2 hn
    have hbe' : b < e := by omega
    have hfb : (pairAt q b).1 ≤ cd.offset + cd.size - 1 := by
      rcases hfirst with h | h
      · omega
      · exact h
    have hub : b < upper_bound q b e (cd.offset + cd.size - 1, 2147483647) := by
      by_contra hc
      have := u4 b (by omega) hbe'
      omega
    have r1 : readAt q (lower_bound q b e (cd.offset, 0))
        = some (pairAt q (lower_bound q b e (cd.offset, 0))) := by
      unfold readAt
      rw [if_pos ⟨by omega, by omega⟩]
    have r2 : readAt q (upper_bound q b e (cd.offset + cd.size - 1, 2147483647) - 1)
        = some (pairAt q (upper_bound q b e (cd.offset + cd.size - 1, 2147483647) - 1)) := by
      unfold readAt
      rw [if_pos ⟨by omega, by omega⟩]
    have a1 := l4 (lower_bound q b e (cd.offset, 0)) (le_refl _) hlt
    have a2 := u3 (upper_bound q b e (cd.offset + cd.size - 1, 2147483647) - 1) (by omega)
      (by omega)
    rw [r1]
    simp only
    rw [if_neg (not_not.mpr a1), r2]
    simp only
    rw [if_neg (not_not.mpr a2)]
    exact ⟨_, rfl⟩

/-- C17: `compatibleQuery` narrows a sorted query to the range of a cluster.
For a range `[begin, end)` of pairs sorted lexicographically whose second
components are non-negative and smaller than the largest `int`, and a
cluster of offset `lb` and size `s >= 0` (`ub = lb + s - 1`): whenever the
call returns, the new `[begin, end)` lies inside the old one and holds
exactly the pairs of it whose first component `f` has `lb <= f <= ub`
(it is empty when there is none), and the element at the new end, if it is
before the old end, has a first component greater than `ub`.  The call does
return when the range is empty or its first pair is not beyond `ub`. -/
theorem compatibleQuery_narrows (q : List (Int × Int)) (cd : IndexSet) (b e : Int)
    (hb : 0 ≤ b) (hbe : b ≤ e) (he : e ≤ (q.length : Int))
    (hsorted : ∀ i j, b ≤ i → i ≤ j → j < e → pairLe (pairAt q i) (pairAt q j))
    (hsec : ∀ i, b ≤ i → i < e → 0 ≤ (pairAt q i).2 ∧ (pairAt q i).2 < 2147483647)
    (hs : 0 ≤ cd.size) :
    (∀ r, compatibleQuery q cd (some b) (some e) = .ok r →
      ∃ b' e', r = (some b', some e') ∧ b ≤ b' ∧ b' ≤ e' ∧ e' ≤ e ∧
        (∀ p, b ≤ p → p < e →
          ((b' ≤ p ∧ p < e') ↔
            (cd.offset ≤ (pairAt q p).1 ∧ (pairAt q p).1 ≤ cd.offset + cd.size - 1))) ∧
        ((∀ p, b ≤ p → p < e →
          ¬ (cd.offset ≤ (pairAt q p).1 ∧ (pairAt q p).1 ≤ cd.offset + cd.size - 1)) →
          b' = e') ∧
        (e' < e → cd.offset + cd.size - 1 < (pairAt q e').1)) ∧
    ((b = e ∨ (pairAt q b).1 ≤ cd.offset + cd.size - 1) →
      ∃ r, compatibleQuery q cd (some b) (some e) = .ok r) := by
  refine ⟨fun r hr => ?_,
    fun hfirst => compatibleQuery_returns q cd b e hbe hsorted hsec hb he hfirst⟩
  obtain ⟨b', e', h1, h2, h3, h4, h5, h6⟩ :=
    compatibleQuery_post q cd b e hbe hsorted hsec hs r hr
  refine ⟨b', e', h1, h2, h3, h4, h5, ?_, h6⟩
  intro hnone
  by_contra hne
  have hlt : b' < e' := lt_of_le_of_ne h3 hne
  exact hnone b' h2 (by omega) ((h5 b' h2 (by omega)).1 ⟨le_refl _, hlt⟩)

/-- The example query is sorted. -/
theorem exampleQuery_sorted (i j : Int) (hi : 0 ≤ i) (hij : i ≤ j) (hj : j < 4) :
    pairLe (pairAt exampleQuery i) (pairAt exampleQuery j) := by
  have h1 : i = 0 ∨ i = 1 ∨ i = 2 ∨ i = 3 := by omega
  have h2 : j = 0 ∨ j = 1 ∨ j = 2 ∨ j = 3 := by omega
  rcases h1 with h | h | h | h <;> rcases h2 with k | k | k | k <;> subst h <;> subst k <;>
    first
      | (exfalso; omega)
      | (unfold pairLe; decide)

/-- The positions of the example query are those of a query of four. -/
theorem exampleQuery_positions (i : Int) (hi : 0 ≤ i) (hj : i < 4) :
    0 ≤ (pairAt exampleQuery i).2 ∧ (pairAt exampleQuery i).2 < 2147483647 := by
  have h1 : i = 0 ∨ i = 1 ∨ i = 2 ∨ i = 3 := by omega
  rcases h1 with h | h | h | h <;> subst h <;> decide

theorem compatibleQuery_narrows_witness :
    (∀ r, compatibleQuery exampleQuery ⟨1, 2⟩ (some 0) (some 4) = .ok r →
      ∃ b' e', r = (some b', some e') ∧ 0 ≤ b' ∧ b' ≤ e' ∧ e' ≤ 4 ∧
        (∀ p, 0 ≤ p → p < 4 →
          ((b' ≤ p ∧ p < e') ↔
            ((⟨1, 2⟩ : IndexSet).offset ≤ (pairAt exampleQuery p).1 ∧
              (pairAt exampleQuery p).1
                ≤ (⟨1, 2⟩ : IndexSet).offset + (⟨1, 2⟩ : IndexSet).size - 1))) ∧
        ((∀ p, 0 ≤ p → p < 4 →
          ¬ ((⟨1, 2⟩ : IndexSet).offset ≤ (pairAt exampleQuery p).1 ∧
            (pairAt exampleQuery p).1
              ≤ (⟨1, 2⟩ : IndexSet).offset + (⟨1, 2⟩ : IndexSet).size - 1)) →
          b' = e') ∧
        (e' < 4 →
          (⟨1, 2⟩ : IndexSet).offset + (⟨1, 2⟩ : IndexSet).size - 1
            < (pairAt exampleQuery e').1)) ∧
    (((0 : Int) = 4 ∨ (pairAt exampleQuery 0).1
        ≤ (⟨1, 2⟩ : IndexSet).offset + (⟨1, 2⟩ : IndexSet).size - 1) →
      ∃ r, compatibleQuery exampleQuery ⟨1, 2⟩ (some 0) (some 4) = .ok r) :=
  compatibleQuery_narrows exampleQuery ⟨1, 2⟩ 0 4 (by decide) (by decide) (by decide)
    exampleQuery_sorted exampleQuery_positions (by decide)

end Claims17
end hmat
namespace hmat
section Claims18
variable {T : Type}

theorem pairAt_mem (q : List (Int × Int)) (p : Int) (h0 : 0 ≤ p) (h : p < (q.length : Int)) :
    pairAt q p ∈ q := by
  unfold pairAt
  have hlt : p.toNat < q.length := by omega
  rw [List.getD_eq_getElem q (0, 0) hlt]
  exact List.getElem_mem hlt

/-- A fold over the lists of a list, one after the other, is a fold of
folds. -/
theorem foldl_flatMap_eq {α β σ : Type} (g : α → List β) (h : σ → β → σ) :
    ∀ (l : List α) (s : σ),
      (l.flatMap g).foldl h s = l.foldl (fun st a => (g a).foldl h st) s
  | [], s => rfl
  | a :: l, s => by
    rw [List.flatMap_cons, List.foldl_append, List.foldl_cons]
    exact foldl_flatMap_eq g h l _

/-- The two loops of the leaf methods of the scattered query, when each
value is `get(r->first - ro, c->first - co)`, make exactly the calls of
`fullCalls`, in that order. -/
theorem scatterLoop_eq_runCalls (rowsIndices colsIndices : List (Int × Int)) (values ld : Int)
    (rows cols : ClusterData) (rs re cs ce : Int) (get : Int → Int → T) (buf : Int → T) :
    scatterLoop rowsIndices colsIndices values ld ⟨some rs, some re, some cs, some ce⟩
        (fun r c => get (r.1 - rows.offset) (c.1 - cols.offset)) buf
      = .ok (UncompressedValues.runCalls values ld get
          (UncompressedValues.fullCalls rowsIndices colsIndices rows cols rs re cs ce) buf) := by
  unfold scatterLoop UncompressedValues.runCalls UncompressedValues.fullCalls forLoop
  simp only [foldl_flatMap_eq, List.foldl_map]

/-- The leaf method of the scattered query on a Full leaf without pivots and
diagonal is the run of the calls of `fullCalls`: the dense block is read
through `get` at the arguments of these calls. -/
theorem getLeafValues_full_eq_runCalls [Semiring T] (rowsIndices colsIndices : List (Int × Int))
    (values ld : Int) (rows cols : ClusterData) (f : FullMatrix T) (rs re cs ce : Int)
    (buf : Int → T) (hp : f.pivots = none) (hd : f.diagonal = none) :
    UncompressedValues.getLeafValues rowsIndices colsIndices values ld (.full rows cols f)
        ⟨some rs, some re, some cs, some ce⟩ buf
      = .ok (UncompressedValues.runCalls values ld f.get
          (UncompressedValues.fullCalls rowsIndices colsIndices rows cols rs re cs ce) buf) := by
  unfold UncompressedValues.getLeafValues
  simp only [hp, hd, Option.isNone_none, not_true_eq_false, if_false]
  exact scatterLoop_eq_runCalls rowsIndices colsIndices values ld rows cols rs re cs ce f.get buf

/-- The run of a list of calls depends on `get` at the arguments of the
calls only. -/
theorem runCalls_congr (values ld : Int) (get1 get2 : Int → Int → T) :
    ∀ (calls : List ((Int × Int) × (Int × Int))) (buf : Int → T),
      (∀ x ∈ calls.map Prod.snd, get1 x.1 x.2 = get2 x.1 x.2) →
      UncompressedValues.runCalls values ld get1 calls buf
        = UncompressedValues.runCalls values ld get2 calls buf
  | [], _, _ => rfl
  | call :: rest, buf, h => by
    unfold UncompressedValues.runCalls
    rw [List.foldl_cons, List.foldl_cons, h call.2 (by simp)]
    exact runCalls_congr values ld get1 get2 rest _
      (fun x hx => h x (by
        rw [List.map_cons]
        exact List.mem_cons_of_mem _ hx))

theorem mem_fullReads (rowsIndices colsIndices : List (Int × Int)) (rows cols : ClusterData)
    (rs re cs ce : Int) (x : Int × Int) :
    x ∈ UncompressedValues.fullReads rowsIndices colsIndices rows cols rs re cs ce ↔
      ∃ i : Nat, i < (re - rs).toNat ∧ ∃ j : Nat, j < (ce - cs).toNat ∧
        x = ((pairAt rowsIndices (rs + (i : Int))).1 - rows.offset,
          (pairAt colsIndices (cs + (j : Int))).1 - cols.offset) := by
  unfold UncompressedValues.fullReads UncompressedValues.fullCalls
  simp only [List.mem_map, List.mem_flatMap, List.mem_range]
  constructor
  · rintro ⟨call, ⟨i, hi, j, hj, rfl⟩, rfl⟩
    exact ⟨i, hi, j, hj, rfl⟩
  · rintro ⟨i, hi, j, hj, rfl⟩
    exact ⟨_, ⟨i, hi, j, hj, rfl⟩, rfl⟩

/-- The reads of the dense block are inside it when every pair of the two
ranges carries an index of the leaf. -/
theorem fullReads_inside (rowsIndices colsIndices : List (Int × Int)) (rows cols : ClusterData)
    (rs re cs ce : Int)
    (hrows : ∀ p, rs ≤ p → p < re → rows.toIndexSet.contains (pairAt rowsIndices p).1)
    (hcols : ∀ p, cs ≤ p → p < ce → cols.toIndexSet.contains (pairAt colsIndices p).1)
    (x : Int × Int)
    (hx : x ∈ UncompressedValues.fullReads rowsIndices colsIndices rows cols rs re cs ce) :
    0 ≤ x.1 ∧ x.1 < rows.size ∧ 0 ≤ x.2 ∧ x.2 < cols.size := by
  obtain ⟨i, hi, j, hj, rfl⟩ := (mem_fullReads _ _ _ _ _ _ _ _ _).1 hx
  have a := hrows (rs + (i : Int)) (by omega) (by omega)
  have b := hcols (cs + (j : Int)) (by omega) (by omega)
  unfold IndexSet.contains at a b
  simp only
  omega

/-- The leaf method of the scattered query on a Full leaf fails exactly when
the dense block carries pivots or a diagonal. -/
theorem getLeafValues_full_error [Semiring T] (rowsIndices colsIndices : List (Int × Int))
    (values ld : Int) (rows cols : ClusterData) (f : FullMatrix T) (rs re cs ce : Int)
    (buf : Int → T) :
    (∃ msg, UncompressedValues.getLeafValues rowsIndices colsIndices values ld
        (.full rows cols f) ⟨some rs, some re, some cs, some ce⟩ buf = .error msg)
      ↔ (f.pivots ≠ none ∨ f.diagonal ≠ none) := by
  unfold UncompressedValues.getLeafValues
  cases hp : f.pivots with
  | some p => simp [hp]
  | none =>
    cases hd : f.diagonal with
    | some d => simp [hp, hd]
    | none => simp [hp, hd, scatterLoop]

/-- The reads of a view whose iterators `compatibleQuery` narrowed to the
rows and the columns of the leaf, from sorted ranges, are inside the leaf. -/
theorem fullReads_inside_of_compatibleQuery (rowsIndices colsIndices : List (Int × Int))
    (rows cols : ClusterData) (rs re cs ce : Int) (rb rl cb cl : Int)
    (hrbe : rb ≤ rl) (hcbe : cb ≤ cl)
    (hrsorted : ∀ i j, rb ≤ i → i ≤ j → j < rl →
      pairLe (pairAt rowsIndices i) (pairAt rowsIndices j))
    (hcsorted : ∀ i j, cb ≤ i → i ≤ j → j < cl →
      pairLe (pairAt colsIndices i) (pairAt colsIndices j))
    (hrsec : ∀ i, rb ≤ i → i < rl →
      0 ≤ (pairAt rowsIndices i).2 ∧ (pairAt rowsIndices i).2 < 2147483647)
    (hcsec : ∀ i, cb ≤ i → i < cl →
      0 ≤ (pairAt colsIndices i).2 ∧ (pairAt colsIndices i).2 < 2147483647)
    (hrs : 0 ≤ rows.size) (hcs : 0 ≤ cols.size)
    (hr : compatibleQuery rowsIndices rows.toIndexSet (some rb) (some rl)
      = .ok (some rs, some re))
    (hc : compatibleQuery colsIndices cols.toIndexSet (some cb) (some cl)
      = .ok (some cs, some ce)) :
    ∀ x ∈ UncompressedValues.fullReads rowsIndices colsIndices rows cols rs re cs ce,
      0 ≤ x.1 ∧ x.1 < rows.size ∧ 0 ≤ x.2 ∧ x.2 < cols.size := by
  obtain ⟨b1, e1, h1, hb1, hbe1, he1, hmem1, -⟩ :=
    compatibleQuery_post rowsIndices rows.toIndexSet rb rl hrbe hrsorted hrsec hrs _ hr
  obtain ⟨b2, e2, h2, hb2, hbe2, he2, hmem2, -⟩ :=
    compatibleQuery_post colsIndices cols.toIndexSet cb cl hcbe hcsorted hcsec hcs _ hc
  simp only [Prod.mk.injEq, Option.some.injEq] at h1 h2
  obtain ⟨rfl, rfl⟩ := h1
  obtain ⟨rfl, rfl⟩ := h2
  intro x hx
  refine fullReads_inside rowsIndices colsIndices rows cols rs re cs ce ?_ ?_ x hx
  · intro p hp hp'
    have := (hmem1 p (by omega) (by omega)).1 ⟨hp, hp'⟩
    unfold IndexSet.contains
    omega
  · intro p hp hp'
    have := (hmem2 p (by omega) (by omega)).1 ⟨hp, hp'⟩
    unfold IndexSet.contains
    omega

/-- No call is made when one of the two ranges is empty. -/
theorem fullCalls_empty (rowsIndices colsIndices : List (Int × Int)) (rows cols : ClusterData)
    (rs re cs ce : Int) (h : re - rs ≤ 0 ∨ ce - cs ≤ 0) :
    UncompressedValues.fullCalls rowsIndices colsIndices rows cols rs re cs ce = [] := by
  unfold UncompressedValues.fullCalls
  rcases h with h | h
  · rw [Int.toNat_of_nonpos h]
    rfl
  · rw [Int.toNat_of_nonpos h]
    simp

/-- The scattered query on a root that is a Full leaf without pivots and
diagonal is the run of the calls of `getFullValues` on the whole query. -/
theorem uncompress_full_eq_runCalls [Semiring T] (rows cols : ClusterData) (f : FullMatrix T)
    (qrows : Int → Int) (rowSize : Int) (qcols : Int → Int) (colSize : Int) (values ld : Int)
    (buf : Int → T) (hp : f.pivots = none) (hd : f.diagonal = none) :
    UncompressedValues.uncompress (.full rows cols f) true qrows rowSize qcols colSize values ld
        buf
      = .ok (UncompressedValues.runCalls values (if ld = -1 then rowSize else ld) f.get
          (UncompressedValues.fullCalls (createQuery rows qrows rowSize)
            (createQuery cols qcols colSize) rows cols 0
            ((createQuery rows qrows rowSize).length : Int) 0
            ((createQuery cols qcols colSize).length : Int)) buf) := by
  unfold UncompressedValues.uncompress
  simp only [not_true_eq_false, if_false, HMatrix.rows, HMatrix.cols,
    UncompressedValues.getValues]
  by_cases hempty : (some (0 : Int) = some ((createQuery rows qrows rowSize).length : Int))
      ∨ (some (0 : Int) = some ((createQuery cols qcols colSize).length : Int))
  · rw [if_pos hempty, fullCalls_empty]
    · rfl
    · simp only [Option.some.injEq] at hempty
      omega
  · rw [if_neg hempty, getLeafValues_full_eq_runCalls _ _ _ _ _ _ _ _ _ _ _ _ hp hd]

/-- C18: unsupported cases of the scattered query.  On a Full leaf the two
assertions of `UncompressedValues::getFullValues` fail if and only if the
dense block of the leaf has pivot data or diagonal data.  When they hold the
method is the run of its calls `getValue(r, c, get(r->first - ro,
c->first - co))`, and it reads the dense block at the arguments of these
calls only: another block with the same values there gives the same
buffer.  Every such argument has `0 <= r.first - rowOffset < leaf rows` and
`0 <= c.first - colOffset < leaf cols` when the pairs of the view carry
indices of the leaf; they do in the run of `uncompress` on a root that is
such a leaf, for a query of indices between 1 and the number of rows (of
columns) with a numbering that maps into the leaf. -/
theorem scattered_getFullValues_supported [Semiring T] (rowsIndices colsIndices : List (Int × Int))
    (values ld : Int) (rows cols : ClusterData) (f : FullMatrix T) (rs re cs ce : Int)
    (buf : Int → T) :
    ((∃ msg, UncompressedValues.getLeafValues rowsIndices colsIndices values ld
        (.full rows cols f) ⟨some rs, some re, some cs, some ce⟩ buf = .error msg)
      ↔ (f.pivots ≠ none ∨ f.diagonal ≠ none)) ∧
    (f.pivots = none → f.diagonal = none →
      UncompressedValues.getLeafValues rowsIndices colsIndices values ld (.full rows cols f)
          ⟨some rs, some re, some cs, some ce⟩ buf
        = .ok (UncompressedValues.runCalls values ld f.get
            (UncompressedValues.fullCalls rowsIndices colsIndices rows cols rs re cs ce) buf) ∧
      (∀ g : FullMatrix T, g.pivots = none → g.diagonal = none →
        (∀ x ∈ UncompressedValues.fullReads rowsIndices colsIndices rows cols rs re cs ce,
          g.get x.1 x.2 = f.get x.1 x.2) →
        UncompressedValues.getLeafValues rowsIndices colsIndices values ld (.full rows cols g)
            ⟨some rs, some re, some cs, some ce⟩ buf
          = UncompressedValues.getLeafValues rowsIndices colsIndices values ld
            (.full rows cols f) ⟨some rs, some re, some cs, some ce⟩ buf)) ∧
    ((∀ p, rs ≤ p → p < re → rows.toIndexSet.contains (pairAt rowsIndices p).1) →
      (∀ p, cs ≤ p → p < ce → cols.toIndexSet.contains (pairAt colsIndices p).1) →
      ∀ x ∈ UncompressedValues.fullReads rowsIndices colsIndices rows cols rs re cs ce,
        0 ≤ x.1 ∧ x.1 < rows.size ∧ 0 ≤ x.2 ∧ x.2 < cols.size) ∧
    (f.pivots = none → f.diagonal = none →
      ∀ (qrows : Int → Int) (rowSize : Int) (qcols : Int → Int) (colSize : Int),
      UncompressedValues.uncompress (.full rows cols f) true qrows rowSize qcols colSize values
          ld buf
        = .ok (UncompressedValues.runCalls values (if ld = -1 then rowSize else ld) f.get
            (UncompressedValues.fullCalls (createQuery rows qrows rowSize)
              (createQuery cols qcols colSize) rows cols 0
              ((createQuery rows qrows rowSize).length : Int) 0
              ((createQuery cols qcols colSize).length : Int)) buf) ∧
      ((∀ i, 0 ≤ i → i < rowSize → 1 ≤ qrows i ∧ qrows i ≤ rows.size) →
        (∀ j, 0 ≤ j → j < colSize → 1 ≤ qcols j ∧ qcols j ≤ cols.size) →
        (∀ k, 0 ≤ k → k < rows.size → rows.toIndexSet.contains (rows.indices_rev k)) →
        (∀ k, 0 ≤ k → k < cols.size → cols.toIndexSet.contains (cols.indices_rev k)) →
        ∀ x ∈ UncompressedValues.fullReads (createQuery rows qrows rowSize)
            (createQuery cols qcols colSize) rows cols 0
            ((createQuery rows qrows rowSize).length : Int) 0
            ((createQuery cols qcols colSize).length : Int),
          0 ≤ x.1 ∧ x.1 < rows.size ∧ 0 ≤ x.2 ∧ x.2 < cols.size)) := by
  refine ⟨getLeafValues_full_error rowsIndices colsIndices values ld rows cols f rs re cs ce buf,
    ?_, ?_, ?_⟩
  · intro hp hd
    refine ⟨getLeafValues_full_eq_runCalls _ _ _ _ _ _ _ _ _ _ _ _ hp hd, ?_⟩
    intro g hgp hgd hsame
    rw [getLeafValues_full_eq_runCalls _ _ _ _ _ _ _ _ _ _ _ _ hp hd,
      getLeafValues_full_eq_runCalls _ _ _ _ _ _ _ _ _ _ _ _ hgp hgd]
    exact congrArg Except.ok (runCalls_congr values ld g.get f.get _ buf hsame)
  · intro hrows hcols x hx
    exact fullReads_inside rowsIndices colsIndices rows cols rs re cs ce hrows hcols x hx
  · intro hp hd qrows rowSize qcols colSize
    refine ⟨uncompress_full_eq_runCalls rows cols f qrows rowSize qcols colSize values ld buf
      hp hd, ?_⟩
    intro hqr hqc hrev hcev x hx
    refine fullReads_inside _ _ rows cols 0 _ 0 _ ?_ ?_ x hx
    · intro p hp0 hp'
      obtain ⟨i, hi, heq⟩ := (mem_createQuery rows qrows rowSize _).1
        (pairAt_mem (createQuery rows qrows rowSize) p hp0 hp')
      rw [heq]
      have := hqr i (by omega) (by omega)
      exact hrev _ (by omega) (by omega)
    · intro p hp0 hp'
      obtain ⟨i, hi, heq⟩ := (mem_createQuery cols qcols colSize _).1
        (pairAt_mem (createQuery cols qcols colSize) p hp0 hp')
      rw [heq]
      have := hqc i (by omega) (by omega)
      exact hcev _ (by omega) (by omega)

/-- The pairs at the positions 1 and 2 of the example query carry the index
1, which the cluster `[1, 3)` holds. -/
theorem exampleQuery_inside (p : Int) (h1 : 1 ≤ p) (h2 : p < 3) :
    (exampleCluster 1 2).toIndexSet.contains (pairAt exampleQuery p).1 := by
  have h : p = 1 ∨ p = 2 := by omega
  rcases h with h | h <;> subst h <;> decide

theorem exampleArray_valid_rows (i : Int) (h1 : 0 ≤ i) (h2 : i < 3) :
    1 ≤ exampleArray [2, 1, 2] i ∧ exampleArray [2, 1, 2] i ≤ (exampleCluster 0 2).size := by
  have h : i = 0 ∨ i = 1 ∨ i = 2 := by omega
  rcases h with h | h | h <;> subst h <;> decide

theorem exampleArray_valid_cols (j : Int) (h1 : 0 ≤ j) (h2 : j < 2) :
    1 ≤ exampleArray [1, 2] j ∧ exampleArray [1, 2] j ≤ (exampleCluster 0 2).size := by
  have h : j = 0 ∨ j = 1 := by omega
  rcases h with h | h <;> subst h <;> decide

theorem exampleCluster_numbering (k : Int) (h1 : 0 ≤ k) (h2 : k < (exampleCluster 0 2).size) :
    (exampleCluster 0 2).toIndexSet.contains ((exampleCluster 0 2).indices_rev k) := by
  have h : k = 0 ∨ k = 1 := by
    have : (exampleCluster 0 2).size = 2 := rfl
    omega
  rcases h with h | h <;> subst h <;> decide

theorem scattered_getFullValues_supported_witness :
    (UncompressedValues.getLeafValues exampleQuery exampleQuery 0 4
          (.full (exampleCluster 1 2) (exampleCluster 1 2) (exampleFull [5, 7, 8, 9] 2 2))
          ⟨some 1, some 3, some 1, some 3⟩ (fun _ => -1)
        = .ok (UncompressedValues.runCalls 0 4 (exampleFull [5, 7, 8, 9] 2 2).get
            (UncompressedValues.fullCalls exampleQuery exampleQuery (exampleCluster 1 2)
              (exampleCluster 1 2) 1 3 1 3) (fun _ => -1)) ∧
      (∀ g : FullMatrix Int, g.pivots = none → g.diagonal = none →
        (∀ x ∈ UncompressedValues.fullReads exampleQuery exampleQuery (exampleCluster 1 2)
            (exampleCluster 1 2) 1 3 1 3,
          g.get x.1 x.2 = (exampleFull [5, 7, 8, 9] 2 2).get x.1 x.2) →
        UncompressedValues.getLeafValues exampleQuery exampleQuery 0 4
            (.full (exampleCluster 1 2) (exampleCluster 1 2) g)
            ⟨some 1, some 3, some 1, some 3⟩ (fun _ => -1)
          = UncompressedValues.getLeafValues exampleQuery exampleQuery 0 4
            (.full (exampleCluster 1 2) (exampleCluster 1 2) (exampleFull [5, 7, 8, 9] 2 2))
            ⟨some 1, some 3, some 1, some 3⟩ (fun _ => -1))) ∧
    (∀ x ∈ UncompressedValues.fullReads exampleQuery exampleQuery (exampleCluster 1 2)
        (exampleCluster 1 2) 1 3 1 3,
      0 ≤ x.1 ∧ x.1 < (exampleCluster 1 2).size ∧ 0 ≤ x.2 ∧ x.2 < (exampleCluster 1 2).size) ∧
    (UncompressedValues.uncompress
          (.full (exampleCluster 0 2) (exampleCluster 0 2) (exampleFull [5, 7, 8, 9] 2 2)) true
          (exampleArray [2, 1, 2]) 3 (exampleArray [1, 2]) 2 0 (-1) (fun _ => -1)
        = .ok (UncompressedValues.runCalls 0 (if (-1 : Int) = -1 then 3 else -1)
            (exampleFull [5, 7, 8, 9] 2 2).get
            (UncompressedValues.fullCalls
              (createQuery (exampleCluster 0 2) (exampleArray [2, 1, 2]) 3)
              (createQuery (exampleCluster 0 2) (exampleArray [1, 2]) 2) (exampleCluster 0 2)
              (exampleCluster 0 2) 0
              ((createQuery (exampleCluster 0 2) (exampleArray [2, 1, 2]) 3).length : Int) 0
              ((createQuery (exampleCluster 0 2) (exampleArray [1, 2]) 2).length : Int))
            (fun _ => -1)) ∧
      ∀ x ∈ UncompressedValues.fullReads
          (createQuery (exampleCluster 0 2) (exampleArray [2, 1, 2]) 3)
          (createQuery (exampleCluster 0 2) (exampleArray [1, 2]) 2) (exampleCluster 0 2)
          (exampleCluster 0 2) 0
          ((createQuery (exampleCluster 0 2) (exampleArray [2, 1, 2]) 3).length : Int) 0
          ((createQuery (exampleCluster 0 2) (exampleArray [1, 2]) 2).length : Int),
        0 ≤ x.1 ∧ x.1 < (exampleCluster 0 2).size ∧ 0 ≤ x.2 ∧ x.2 < (exampleCluster 0 2).size) :=
  ⟨(scattered_getFullValues_supported exampleQuery exampleQuery 0 4 (exampleCluster 1 2)
      (exampleCluster 1 2) (exampleFull [5, 7, 8, 9] 2 2) 1 3 1 3 (fun _ => -1)).2.1 rfl rfl,
    (scattered_getFullValues_supported exampleQuery exampleQuery 0 4 (exampleCluster 1 2)
      (exampleCluster 1 2) (exampleFull [5, 7, 8, 9] 2 2) 1 3 1 3 (fun _ => -1)).2.2.1
      exampleQuery_inside exampleQuery_inside,
    ((scattered_getFullValues_supported [] [] 0 (-1) (exampleCluster 0 2) (exampleCluster 0 2)
      (exampleFull [5, 7, 8, 9] 2 2) 0 0 0 0 (fun _ => -1)).2.2.2 rfl rfl
      (exampleArray [2, 1, 2]) 3 (exampleArray [1, 2]) 2).1,
    ((scattered_getFullValues_supported [] [] 0 (-1) (exampleCluster 0 2) (exampleCluster 0 2)
      (exampleFull [5, 7, 8, 9] 2 2) 0 0 0 0 (fun _ => -1)).2.2.2 rfl rfl
      (exampleArray [2, 1, 2]) 3 (exampleArray [1, 2]) 2).2
      exampleArray_valid_rows exampleArray_valid_cols exampleCluster_numbering
      exampleCluster_numbering⟩

end Claims18
end hmat
namespace hmat
section Claims19
variable {T : Type}

/-- The inner loop of `compute_hmat`: `pos` advances by one per row. -/
theorem computeInner_spec (v : Nat → T) (n : Nat) (pos : Int) (buf : Int → T) :
    (List.range n).foldl (fun (st2 : Int × (Int → T)) (i : Nat) =>
        (st2.1 + 1, Function.update st2.2 st2.1 (v i))) (pos, buf)
      = (pos + (n : Int),
          (List.range n).foldl (fun b (i : Nat) => Function.update b (pos + (i : Int)) (v i))
            buf) := by
  induction n with
  | zero => simp
  | succ n ih =>
    simp only [List.range_succ, List.foldl_append, List.foldl_cons, List.foldl_nil, ih]
    congr 1
    push_cast
    ring

/-- The two loops of `compute_hmat`: `pos` is `nr * j` at the start of
column `j`. -/
theorem computeOuter_spec (val : Int → Int → T) (nr kc : Nat) (buf : Int → T) :
    (List.range kc).foldl (fun (st : Int × (Int → T)) (j : Nat) =>
        (List.range nr).foldl (fun (st2 : Int × (Int → T)) (i : Nat) =>
          (st2.1 + 1, Function.update st2.2 st2.1 (val (i : Int) (j : Int)))) st) (0, buf)
      = ((nr : Int) * (kc : Int),
          (List.range kc).foldl (fun t1 (j : Nat) =>
            (List.range nr).foldl (fun t2 (i : Nat) =>
              Function.update t2 (0 + (i : Int) + (nr : Int) * (j : Int))
                ((fun i j (_ : T) => val i j) (i : Int) (j : Int)
                  (t2 (0 + (i : Int) + (nr : Int) * (j : Int))))) t1) buf) := by
  induction kc with
  | zero => simp
  | succ k ih =>
    simp only [List.range_succ, List.foldl_append, List.foldl_cons, List.foldl_nil, ih]
    rw [computeInner_spec (fun i => val (i : Int) (k : Int))]
    have e : (fun (b : Int → T) (i : Nat) =>
          Function.update b ((nr : Int) * (k : Int) + (i : Int)) (val (i : Int) (k : Int)))
        = fun (t2 : Int → T) (i : Nat) =>
          Function.update t2 (0 + (i : Int) + (nr : Int) * (k : Int))
            (val (i : Int) (k : Int)) := by
      funext b i
      rw [show (nr : Int) * (k : Int) + (i : Int) = 0 + (i : Int) + (nr : Int) * (k : Int) by
        ring]
    rw [e]
    congr 1

/-- The buffer `compute_hmat` leaves, as a block write at address 0 with the
row count as leading dimension. -/
theorem compute_hmat_eq (ten : T) (kernel : T → T → T) (bdata : block_data_t T)
    (rowBlockBegin rowBlockCount colBlockBegin colBlockCount : Int) (values : Int → T)
    (htype : bdata.user_context.type = .HMAT_DOUBLE_PRECISION) :
    compute_hmat ten kernel bdata rowBlockBegin rowBlockCount colBlockBegin colBlockCount values
      = (List.range colBlockCount.toNat).foldl (fun t1 (j : Nat) =>
            (List.range rowBlockCount.toNat).foldl (fun t2 (i : Nat) =>
              Function.update t2 (0 + (i : Int) + (rowBlockCount.toNat : Int) * (j : Int))
                ((fun i j (_ : T) =>
                  interaction_real ten kernel bdata.user_context.points
                    (bdata.row_hmat2client (i + rowBlockBegin + bdata.row_start))
                    (bdata.col_hmat2client (j + colBlockBegin + bdata.col_start))) (i : Int)
                  (j : Int) (t2 (0 + (i : Int) + (rowBlockCount.toNat : Int) * (j : Int)))))
              t1) values := by
  unfold compute_hmat forLoop
  simp only [htype]
  exact congrArg Prod.snd (computeOuter_spec (fun i j =>
    interaction_real ten kernel bdata.user_context.points
      (bdata.row_hmat2client (i + rowBlockBegin + bdata.row_start))
      (bdata.col_hmat2client (j + colBlockBegin + bdata.col_start)))
    rowBlockCount.toNat colBlockCount.toNat values)

/-- C19: the example block evaluator `compute_hmat` honours the contract of
a block evaluator.  For the double-precision type and every
`rowBlockBegin`, `rowBlockCount`, `colBlockBegin`, `colBlockCount`, the
buffer holds after the call, for all `i < rowBlockCount` and
`j < colBlockCount`, `values[i + rowBlockCount*j] = interaction_real(points,
row_hmat2client[i + rowBlockBegin + row_start],
col_hmat2client[j + colBlockBegin + col_start])`: the values are contiguous,
column after column, without padding (index `p` below
`rowBlockCount*colBlockCount` is row `p % rowBlockCount` of column
`p / rowBlockCount`), and every index that is negative, or
`rowBlockCount*colBlockCount` or beyond, keeps its content. -/
theorem compute_hmat_contract (ten : T) (kernel : T → T → T) (bdata : block_data_t T)
    (rowBlockBegin rowBlockCount colBlockBegin colBlockCount : Int) (values : Int → T)
    (htype : bdata.user_context.type = .HMAT_DOUBLE_PRECISION) :
    (∀ i j : Int, 0 ≤ i → i < rowBlockCount → 0 ≤ j → j < colBlockCount →
      compute_hmat ten kernel bdata rowBlockBegin rowBlockCount colBlockBegin colBlockCount
          values (i + rowBlockCount * j)
        = interaction_real ten kernel bdata.user_context.points
            (bdata.row_hmat2client (i + rowBlockBegin + bdata.row_start))
            (bdata.col_hmat2client (j + colBlockBegin + bdata.col_start))) ∧
    (∀ p : Int, 0 ≤ rowBlockCount → 0 ≤ colBlockCount → 0 ≤ p →
      p < rowBlockCount * colBlockCount →
      compute_hmat ten kernel bdata rowBlockBegin rowBlockCount colBlockBegin colBlockCount
          values p
        = interaction_real ten kernel bdata.user_context.points
            (bdata.row_hmat2client (p % rowBlockCount + rowBlockBegin + bdata.row_start))
            (bdata.col_hmat2client (p / rowBlockCount + colBlockBegin + bdata.col_start))) ∧
    (∀ p : Int, p < 0 ∨ rowBlockCount * colBlockCount ≤ p →
      compute_hmat ten kernel bdata rowBlockBegin rowBlockCount colBlockBegin colBlockCount
          values p = values p) := by
  have hs := blockLoop_spec (fun i j (_ : T) =>
      interaction_real ten kernel bdata.user_context.points
        (bdata.row_hmat2client (i + rowBlockBegin + bdata.row_start))
        (bdata.col_hmat2client (j + colBlockBegin + bdata.col_start)))
    0 (rowBlockCount.toNat : Int) rowBlockCount.toNat (le_refl _) values colBlockCount.toNat
  rw [← compute_hmat_eq ten kernel bdata rowBlockBegin rowBlockCount colBlockBegin colBlockCount
    values htype] at hs
  have h1 : ∀ i j : Int, 0 ≤ i → i < rowBlockCount → 0 ≤ j → j < colBlockCount →
      compute_hmat ten kernel bdata rowBlockBegin rowBlockCount colBlockBegin colBlockCount
          values (i + rowBlockCount * j)
        = interaction_real ten kernel bdata.user_context.points
            (bdata.row_hmat2client (i + rowBlockBegin + bdata.row_start))
            (bdata.col_hmat2client (j + colBlockBegin + bdata.col_start)) := by
    intro i j hi hi' hj hj'
    have := hs.1 i.toNat j.toNat (by omega) (by omega)
    rw [Int.toNat_of_nonneg hi, Int.toNat_of_nonneg hj,
      Int.toNat_of_nonneg (by omega : 0 ≤ rowBlockCount), zero_add] at this
    exact this
  refine ⟨h1, ?_, ?_⟩
  · intro p hr hc hp hp'
    have hrpos : 0 < rowBlockCount := by
      rcases eq_or_lt_of_le hr with h | h
      · rw [← h, zero_mul] at hp'
        omega
      · exact h
    have hdiv : p / rowBlockCount < colBlockCount := by
      apply Int.ediv_lt_of_lt_mul hrpos
      rw [mul_comm]
      exact hp'
    have := h1 (p % rowBlockCount) (p / rowBlockCount) (Int.emod_nonneg _ (by omega))
      (Int.emod_lt_of_pos _ hrpos) (Int.ediv_nonneg hp hr) hdiv
    rw [Int.emod_add_ediv] at this
    exact this
  · intro p hp
    apply hs.2
    intro i j hi hj heq
    have e1 : ((rowBlockCount.toNat : Int)) = rowBlockCount := by omega
    have hj2 : (j : Int) < colBlockCount := by omega
    rw [e1, zero_add] at heq
    have hi2 : (i : Int) < rowBlockCount := by omega
    have hprod : rowBlockCount * ((j : Int) + 1) ≤ rowBlockCount * colBlockCount :=
      mul_le_mul_of_nonneg_left (by omega) (by omega)
    have hnn : 0 ≤ rowBlockCount * (j : Int) := mul_nonneg (by omega) (by omega)
    have hexp : rowBlockCount * ((j : Int) + 1) = rowBlockCount * (j : Int) + rowBlockCount := by
      ring
    rcases hp with hp | hp
    · omega
    · omega

theorem compute_hmat_contract_witness :
    (∀ i j : Int, 0 ≤ i → i < 2 → 0 ≤ j → j < 2 →
      compute_hmat 10 (fun x y => x - y) exampleBlockData 0 2 1 2 (fun _ => -1) (i + 2 * j)
        = interaction_real 10 (fun x y => x - y) exampleBlockData.user_context.points
            (exampleBlockData.row_hmat2client (i + 0 + exampleBlockData.row_start))
            (exampleBlockData.col_hmat2client (j + 1 + exampleBlockData.col_start))) ∧
    (∀ p : Int, (0 : Int) ≤ 2 → (0 : Int) ≤ 2 → 0 ≤ p → p < 2 * 2 →
      compute_hmat 10 (fun x y => x - y) exampleBlockData 0 2 1 2 (fun _ => -1) p
        = interaction_real 10 (fun x y => x - y) exampleBlockData.user_context.points
            (exampleBlockData.row_hmat2client (p % 2 + 0 + exampleBlockData.row_start))
            (exampleBlockData.col_hmat2client (p / 2 + 1 + exampleBlockData.col_start))) ∧
    (∀ p : Int, p < 0 ∨ 2 * 2 ≤ p →
      compute_hmat 10 (fun x y => x - y) exampleBlockData 0 2 1 2 (fun _ => -1) p
        = (fun _ => (-1 : Int)) p) :=
  compute_hmat_contract 10 (fun x y => x - y) exampleBlockData 0 2 1 2 (fun _ => -1) rfl

end Claims19
end hmat
namespace hmat
section Claims20

/-- C20 (code as it is): the children of a node share the node's own
iterators.  On the 2 x 2 example tree with the sorted query of the rows 1, 2
and the columns 1, 2, the node's range is rows `[0, 2)` and columns `[0, 2)`
before the first child (row 0, column 0) is visited and rows `[0, 1)`,
columns `[0, 1)` after it; the second child (row 1, column 0) is then
given the rows `[1, 1)`, none, although the query has row 1 at position 1,
as `compatibleQuery` on the range the node had at first finds; each child
view runs on iterators that were never assigned and writes nothing, so the
whole traversal leaves the node with an empty range and the buffer as it
was. -/
theorem scattered_siblings_share_range :
    UncompressedValues.childrenLoop
        (createQuery (exampleCluster 0 2) (exampleArray [1, 2]) 2)
        (createQuery (exampleCluster 0 2) (exampleArray [1, 2]) 2) 0 2
        [exampleFirstChild] ⟨some 0, some 2, some 0, some 2⟩ (fun _ => -1)
      = .ok (⟨some 0, some 1, some 0, some 1⟩, fun _ => -1) ∧
    UncompressedValues.childrenLoop
        (createQuery (exampleCluster 0 2) (exampleArray [1, 2]) 2)
        (createQuery (exampleCluster 0 2) (exampleArray [1, 2]) 2) 0 2
        [exampleFirstChild, exampleSecondChild] ⟨some 0, some 2, some 0, some 2⟩ (fun _ => -1)
      = .ok (⟨some 1, some 1, some 0, some 1⟩, fun _ => -1) ∧
    compatibleQuery (createQuery (exampleCluster 0 2) (exampleArray [1, 2]) 2)
        exampleSecondChild.rows.toIndexSet (some 0) (some 2) = .ok (some 1, some 2) ∧
    UncompressedValues.getValues
        (createQuery (exampleCluster 0 2) (exampleArray [1, 2]) 2)
        (createQuery (exampleCluster 0 2) (exampleArray [1, 2]) 2) 0 2
        exampleTree ⟨some 0, some 2, some 0, some 2⟩ (fun _ => -1)
      = .ok (⟨some 1, some 1, some 1, some 1⟩, fun _ => -1) :=
  ⟨rfl, rfl, rfl, rfl⟩

end Claims20
end hmat
namespace hmat
section Claims21

/-- C21 (code as it is): the second assertion of `compatibleQuery` reads
before the range.  For the sorted query of the single row 2 of a matrix of
two rows, the pair `(1, 0)`, and the cluster of offset 0 and size 1 (`lb = 0`,
`ub = 0`), the lower-bound search returns `begin`, which is not `end`, and
the upper-bound search returns `begin` too, so `(newEnd-1)` is the position
before `begin`, outside `[begin, end)` and here outside the vector: the
assertion cannot be evaluated, and the scattered query for that row on the
2 x 2 example tree ends there, at its first child.  When the range does not
start the vector, the element read is the one before the range, and the
assertion fails when that element is beyond `ub`. -/
theorem compatibleQuery_assertion_reads_before_range :
    createQuery (exampleCluster 0 2) (exampleArray [2]) 1 = [(1, 0)] ∧
    lower_bound [(1, 0)] 0 1 (0, 0) = 0 ∧
    upper_bound [(1, 0)] 0 1 (0 + 1 - 1, 2147483647) = 0 ∧
    readAt [(1, 0)] (upper_bound [(1, 0)] 0 1 (0 + 1 - 1, 2147483647) - 1) = none ∧
    compatibleQuery [(1, 0)] ⟨0, 1⟩ (some 0) (some 1)
      = .error "assert((newEnd-1)->first <= ub): read outside the vector" ∧
    UncompressedValues.uncompress exampleTree true (exampleArray [2]) 1 (exampleArray [1]) 1 0
        (-1) (fun _ => -1)
      = .error "assert((newEnd-1)->first <= ub): read outside the vector" ∧
    upper_bound [(5, 0), (6, 1)] 1 2 (0 + 4 - 1, 2147483647) = 1 ∧
    compatibleQuery [(5, 0), (6, 1)] ⟨0, 4⟩ (some 1) (some 2)
      = .error "assert((newEnd-1)->first <= ub)" :=
  ⟨rfl, rfl, rfl, rfl, rfl, rfl, rfl, rfl⟩

end Claims21
end hmat
namespace hmat
section Claims22
variable {T : Type}

/-- A loop of writes leaves every address it does not write. -/
theorem updateLoop_frame (adr : Nat → Int) (val : Nat → T → T) (t : Int → T) (k : Nat) (p : Int)
    (hp : ∀ i, i < k → p ≠ adr i) :
    (List.range k).foldl (fun b i => Function.update b (adr i) (val i (b (adr i)))) t p
      = t p := by
  induction k with
  | zero => rfl
  | succ k ih =>
    simp only [List.range_succ, List.foldl_append, List.foldl_cons, List.foldl_nil]
    rw [Function.update_noteq (hp k (Nat.lt_succ_self k))]
    exact ih (fun i hi => hp i (Nat.lt_succ_of_lt hi))

/-- Two nested loops of writes leave every address they do not write,
whatever the leading dimension. -/
theorem blockLoop_frame (g : Int → Int → T → T) (tp tld : Int) (nr : Nat) (t : Int → T)
    (kc : Nat) (p : Int)
    (hp : ∀ i j : Nat, i < nr → j < kc → p ≠ tp + (i : Int) + tld * (j : Int)) :
    (List.range kc).foldl (fun t1 (j : Nat) =>
      (List.range nr).foldl (fun t2 (i : Nat) =>
        Function.update t2 (tp + (i : Int) + tld * (j : Int))
          (g i j (t2 (tp + (i : Int) + tld * (j : Int))))) t1) t p = t p := by
  induction kc with
  | zero => rfl
  | succ k ih =>
    simp only [List.range_succ, List.foldl_append, List.foldl_cons, List.foldl_nil]
    rw [updateLoop_frame (fun i => tp + (i : Int) + tld * (k : Int))
      (fun i old => g (i : Int) (k : Int) old) _ nr p
      (fun i hi => hp i k hi (Nat.lt_succ_self k))]
    exact ih (fun i j hi hj => hp i j hi (Nat.lt_succ_of_lt hj))

/-- A block write leaves every address outside the block, whatever the
leading dimension. -/
theorem blockWrite_frame (g : Int → Int → T → T) (tp tld nr nc : Int) (t : Int → T) (p : Int)
    (hp : ∀ i j : Int, 0 ≤ i → i < nr → 0 ≤ j → j < nc → p ≠ tp + i + tld * j) :
    blockWrite g tp tld nr nc t p = t p := by
  unfold blockWrite forLoop
  apply blockLoop_frame g tp tld nr.toNat t nc.toNat p
  intro i j hi hj
  exact hp i j (by omega) (by omega) (by omega) (by omega)

/-- The three leaf methods of the range query write inside the block of
their view only. -/
theorem leaf_getValues_frame [Semiring T] (m : HMatrix T) (v : View) (buf out : Int → T)
    (h : UncompressedBlock.getValues m v buf = .ok out) (p : Int)
    (hp : ∀ i j : Int, 0 ≤ i → i < v.rowIndexSet_.size → 0 ≤ j → j < v.colIndexSet_.size →
      p ≠ v.values_ + i + v.lDim_ * j) : out p = buf p := by
  cases m with
  | null rows cols =>
    simp only [UncompressedBlock.getValues, Except.ok.injEq] at h
    rw [← h, getNullValues_eq]
    exact blockWrite_frame _ _ _ _ _ _ p hp
  | rk rows cols rank k =>
    simp only [UncompressedBlock.getValues, Except.ok.injEq] at h
    rw [← h, getRkValues_eq, blockWrite_frame _ _ _ _ _ _ p hp]
    exact blockWrite_frame _ _ _ _ _ _ p hp
  | full rows cols f =>
    simp only [UncompressedBlock.getValues, getFullValues] at h
    split at h
    · exact absurd h (by simp)
    · split at h
      · exact absurd h (by simp)
      · simp only [Except.ok.injEq] at h
        rw [← h]
        have heq : copyMatrixAtOffset buf v.values_ v.lDim_ f.m
              (v.rowIndexSet_.offset - rows.offset
                + f.lda * (v.colIndexSet_.offset - cols.offset))
              f.lda v.rowIndexSet_.size v.colIndexSet_.size 0 0
            = blockWrite (fun i j _ => f.m ((v.rowIndexSet_.offset - rows.offset
                + f.lda * (v.colIndexSet_.offset - cols.offset)) + i + f.lda * j))
                v.values_ v.lDim_ v.rowIndexSet_.size v.colIndexSet_.size buf := by
          unfold copyMatrixAtOffset blockWrite
          simp only [add_zero]
        rw [heq]
        exact blockWrite_frame _ _ _ _ _ _ p hp
  | internal rows cols children =>
    simp [UncompressedBlock.getValues] at h

mutual
/-- The recursion of the range query writes inside the block of its view
only: whenever it returns, every other address has its former content. -/
theorem getValuesImpl_frame [Semiring T] : ∀ (m : HMatrix T) (v : View) (buf out : Int → T),
    getValuesImpl UncompressedBlock.getValues m v buf = .ok out → ∀ p : Int,
    (∀ r c : Int, v.rowIndexSet_.contains r → v.colIndexSet_.contains c → p ≠ v.addr r c) →
    out p = buf p
  | .internal rows cols children, v, buf, out, h, p, hp => by
    simp only [getValuesImpl] at h
    split at h
    · simp only [Except.ok.injEq] at h
      rw [h]
    · exact childrenLoop_frame children v buf out h p hp
  | .null rows cols, v, buf, out, h, p, hp => by
    simp only [getValuesImpl] at h
    split at h
    · simp only [Except.ok.injEq] at h
      rw [h]
    · refine leaf_getValues_frame _ v buf out h p ?_
      intro i j hi hi' hj hj'
      have := hp (v.rowIndexSet_.offset + i) (v.colIndexSet_.offset + j)
        (by unfold IndexSet.contains; omega) (by unfold IndexSet.contains; omega)
      simpa [View.addr] using this
  | .full rows cols f, v, buf, out, h, p, hp => by
    simp only [getValuesImpl] at h
    split at h
    · simp only [Except.ok.injEq] at h
      rw [h]
    · refine leaf_getValues_frame _ v buf out h p ?_
      intro i j hi hi' hj hj'
      have := hp (v.rowIndexSet_.offset + i) (v.colIndexSet_.offset + j)
        (by unfold IndexSet.contains; omega) (by unfold IndexSet.contains; omega)
      simpa [View.addr] using this
  | .rk rows cols rank k, v, buf, out, h, p, hp => by
    simp only [getValuesImpl] at h
    split at h
    · simp only [Except.ok.injEq] at h
      rw [h]
    · refine leaf_getValues_frame _ v buf out h p ?_
      intro i j hi hi' hj hj'
      have := hp (v.rowIndexSet_.offset + i) (v.colIndexSet_.offset + j)
        (by unfold IndexSet.contains; omega) (by unfold IndexSet.contains; omega)
      simpa [View.addr] using this
/-- The same for the loop over the children of a node. -/
theorem childrenLoop_frame [Semiring T] : ∀ (children : List (HMatrix T)) (o : View)
    (buf out : Int → T),
    childrenLoop UncompressedBlock.getValues children o buf = .ok out → ∀ p : Int,
    (∀ r c : Int, o.rowIndexSet_.contains r → o.colIndexSet_.contains c → p ≠ o.addr r c) →
    out p = buf p
  | [], o, buf, out, h, p, _ => by
    simp only [childrenLoop, Except.ok.injEq] at h
    rw [h]
  | child :: rest, o, buf, out, h, p, hp => by
    simp only [childrenLoop] at h
    split at h
    · exact absurd h (by simp)
    · rename_i s1 hs1
      rw [childrenLoop_frame rest o s1 out h p hp]
      apply getValuesImpl_frame child (childView child o) buf s1 hs1 p
      intro r c hr hc
      rw [childView_addr]
      exact hp r c ((IndexSet.mem_intersection _ _ r).1 hr).1
        ((IndexSet.mem_intersection _ _ c).1 hc).1
end

/-- C22: frame of the range query.  Whenever `uncompress(matrix, rows, cols,
values, ld)` returns, every address of the buffer other than the positions
`i + ld*j` with `i < rows.size` and `j < cols.size` has its former
content (`ld` being `rows.size` when it is given as -1), in particular the
padding rows `rows.size <= i < ld` of every column; when `rows` or `cols` is
empty the call returns the buffer as it was; and the call does return for a
query inside the extent of the matrix with a leading dimension of at least
`rows.size`.  The matrix tree is an input only. -/
theorem range_query_frame [Semiring T] (root : HMatrix T) (rows cols : IndexSet)
    (values ld : Int) (buf : Int → T) :
    (∀ out, UncompressedBlock.uncompress root rows cols values ld buf = .ok out →
      (∀ p, (∀ i j : Int, 0 ≤ i → i < rows.size → 0 ≤ j → j < cols.size →
          p ≠ values + (i + (if ld = -1 then rows.size else ld) * j)) → out p = buf p) ∧
      (∀ i j : Int, rows.size ≤ i → i < (if ld = -1 then rows.size else ld) →
        out (values + (i + (if ld = -1 then rows.size else ld) * j))
          = buf (values + (i + (if ld = -1 then rows.size else ld) * j)))) ∧
    (rows.size = 0 ∨ cols.size = 0 →
      UncompressedBlock.uncompress root rows cols values ld buf = .ok buf) ∧
    (0 ≤ rows.size → 0 ≤ cols.size → rows.isSubset root.rows.toIndexSet →
      cols.isSubset root.cols.toIndexSet → rows.size ≤ (if ld = -1 then rows.size else ld) →
      ∃ out, UncompressedBlock.uncompress root rows cols values ld buf = .ok out) := by
  have hframe : ∀ out, UncompressedBlock.uncompress root rows cols values ld buf = .ok out →
      ∀ p, (∀ i j : Int, 0 ≤ i → i < rows.size → 0 ≤ j → j < cols.size →
          p ≠ values + (i + (if ld = -1 then rows.size else ld) * j)) → out p = buf p := by
    intro out h p hp
    refine getValuesImpl_frame root (UncompressedBlock.rootView rows cols values ld) buf out h p ?_
    intro r c hr hc
    unfold IndexSet.contains at hr hc
    simp only [UncompressedBlock.rootView] at hr hc
    have := hp (r - rows.offset) (c - cols.offset) (by omega) (by omega) (by omega) (by omega)
    simp only [View.addr, UncompressedBlock.rootView]
    rw [← add_assoc] at this
    exact this
  refine ⟨fun out h => ⟨hframe out h, ?_⟩, ?_, ?_⟩
  · intro i j hi hi'
    apply hframe out h
    intro i2 j2 h0 h1 _ _ heq
    have := stride_inj (le_refl (if ld = -1 then rows.size else ld)) i j i2 j2 (by omega) hi'
      h0 (by omega) (by omega)
    omega
  · intro hempty
    unfold UncompressedBlock.uncompress
    cases root <;> simp [getValuesImpl, UncompressedBlock.rootView, hempty]
  · intro hr hc hrs hcs hld
    obtain ⟨out, h, -⟩ := getValuesImpl_spec root (UncompressedBlock.rootView rows cols values ld)
      hr hc hrs hcs hld buf
    exact ⟨out, h⟩

theorem range_query_frame_witness :
    (∀ out, UncompressedBlock.uncompress exampleTree ⟨0, 2⟩ ⟨0, 2⟩ 0 3 (fun _ => -1) = .ok out →
      (∀ p, (∀ i j : Int, 0 ≤ i → i < (⟨0, 2⟩ : IndexSet).size → 0 ≤ j →
          j < (⟨0, 2⟩ : IndexSet).size →
          p ≠ 0 + (i + (if (3 : Int) = -1 then (⟨0, 2⟩ : IndexSet).size else 3) * j)) →
        out p = (fun _ => (-1 : Int)) p) ∧
      (∀ i j : Int, (⟨0, 2⟩ : IndexSet).size ≤ i →
        i < (if (3 : Int) = -1 then (⟨0, 2⟩ : IndexSet).size else 3) →
        out (0 + (i + (if (3 : Int) = -1 then (⟨0, 2⟩ : IndexSet).size else 3) * j))
          = (fun _ => (-1 : Int))
            (0 + (i + (if (3 : Int) = -1 then (⟨0, 2⟩ : IndexSet).size else 3) * j)))) ∧
    ((⟨0, 2⟩ : IndexSet).size = 0 ∨ (⟨0, 2⟩ : IndexSet).size = 0 →
      UncompressedBlock.uncompress exampleTree ⟨0, 2⟩ ⟨0, 2⟩ 0 3 (fun _ => -1)
        = .ok (fun _ => -1)) ∧
    (∃ out, UncompressedBlock.uncompress exampleTree ⟨0, 2⟩ ⟨0, 2⟩ 0 3 (fun _ => -1) = .ok out) :=
  ⟨(range_query_frame exampleTree ⟨0, 2⟩ ⟨0, 2⟩ 0 3 (fun _ => -1)).1,
    (range_query_frame exampleTree ⟨0, 2⟩ ⟨0, 2⟩ 0 3 (fun _ => -1)).2.1,
    (range_query_frame exampleTree ⟨0, 2⟩ ⟨0, 2⟩ 0 3 (fun _ => -1)).2.2 (by decide) (by decide)
      (by decide) (by decide) (by decide)⟩

end Claims22
end hmat
